import Mathlib

/-!
# Package-to-repository synthesis engine (gitserver dependency syncer)

A shallow embedding of `cmd/gitserver/server/vcs_dependencies_syncer.go`,
`vcs_syncer_packages.go` and `vcs_syncer_jvm_packages.go` (namespace
`Gitserver`) and of the indexed search of
`cmd/searcher/internal/search/zoekt_search.go` (namespace `Searcher`), with
the theorems that settle the specification's claims about them.

Go strings are modelled as lists of characters.  Every comparison the embedded
code makes is against an ASCII byte, so nothing depends on how the other
bytes are grouped.
-/

namespace Gitserver

/-! ## Strings -/

/-- A Go `string`. -/
abbrev GoString := List Char

/-- Go `strings.HasPrefix(s, prefix)`. -/
def HasPrefix (s pre : GoString) : Bool := pre.isPrefixOf s

/-- Go `strings.HasSuffix(s, suffix)`. -/
def HasSuffix (s suf : GoString) : Bool := suf.isSuffixOf s

/-- Go `strings.TrimSuffix(s, suffix)`. -/
def TrimSuffix (s suf : GoString) : GoString :=
  if HasSuffix s suf then s.take (s.length - suf.length) else s

/-- Go `strings.Split(s, sep)` for a one-byte separator: the substrings
between the separators, `[""]` for the empty string. -/
def Split (sep : Char) : GoString → List GoString
  | [] => [[]]
  | c :: cs =>
    if c = sep then [] :: Split sep cs
    else match Split sep cs with
      | [] => [[c]]
      | seg :: segs => (c :: seg) :: segs

/-- The value of `os.PathSeparator` on the platforms gitserver runs on. -/
def PathSeparator : Char := '/'

/-! ## `path.Clean` and `path.Join` (Go standard library)

`Clean` keeps its output in a `lazybuf`; here the buffer is the list of bytes
written so far, newest first, so that `out.w` is its length, `out.append`
is `cons` and `out.w--` drops the head. -/

/-- The inner loop of the `..` case, entered after the first `out.w--`:
`for out.w > dotdot && out.index(out.w) != '/' { out.w-- }`.
`c` is `out.index(out.w)`, the byte just dropped. -/
def backtrack (dotdot : Nat) : Char → List Char → List Char
  | _, [] => []
  | c, c' :: out' =>
    if (c' :: out').length > dotdot ∧ c ≠ '/' then backtrack dotdot c' out'
    else c' :: out'

/-- The main loop `for r < n { switch { ... } }` of `path.Clean`.  `rest` is
`path[r:]`; every iteration consumes at least one byte, so `fuel` equal to
the length of the path is enough. -/
def cleanLoop (rooted : Bool) : Nat → List Char → List Char → Nat → List Char
  | 0, _, out, _ => out
  | fuel + 1, rest, out, dotdot =>
    match rest with
    | [] => out
    | c :: t =>
      if c = '/' then
        -- empty path element
        cleanLoop rooted fuel t out dotdot
      else if c = '.' ∧ (t = [] ∨ t.head? = some '/') then
        -- . element
        cleanLoop rooted fuel t out dotdot
      else if c = '.' ∧ t.head? = some '.' ∧ (t.tail = [] ∨ t.tail.head? = some '/') then
        -- .. element: remove to last /
        if out.length > dotdot then
          -- can backtrack
          match out with
          | [] => cleanLoop rooted fuel t.tail out dotdot
          | c' :: out' => cleanLoop rooted fuel t.tail (backtrack dotdot c' out') dotdot
        else if !rooted then
          -- cannot backtrack, but not rooted, so append .. element.
          let out1 := if out.length > 0 then '/' :: out else out
          let out2 := '.' :: '.' :: out1
          cleanLoop rooted fuel t.tail out2 out2.length
        else
          cleanLoop rooted fuel t.tail out dotdot
      else
        -- real path element. add slash if needed
        let out1 :=
          if (rooted ∧ out.length ≠ 1) ∨ (!rooted ∧ out.length ≠ 0) then '/' :: out else out
        -- copy element
        cleanLoop rooted fuel (rest.dropWhile (fun x => x != '/'))
          ((rest.takeWhile (fun x => x != '/')).reverse ++ out1) dotdot

/-- Go `path.Clean`. -/
def Clean (path : GoString) : GoString :=
  if path = [] then ['.']
  else
    let rooted := path.head? = some '/'
    let out :=
      if rooted then cleanLoop true path.length path.tail ['/'] 1
      else cleanLoop false path.length path [] 0
    -- Turn empty string into "."
    if out.length = 0 then ['.'] else out.reverse

/-- The loop of `path.Join` that concatenates the non-empty elements with
`/` between them. -/
def joinBuf : GoString → List GoString → GoString
  | buf, [] => buf
  | buf, e :: es =>
    if buf.length > 0 ∨ e ≠ [] then
      joinBuf ((if buf.length > 0 then buf ++ ['/'] else buf) ++ e) es
    else joinBuf buf es

/-- Go `path.Join`. -/
def Join (elem : List GoString) : GoString :=
  if (elem.map List.length).sum = 0 then [] else Clean (joinBuf [] elem)

/-! ## Archive extraction guard -/

/-- The loop `for _, dirEntry := range strings.Split(filepath, "/")` of
`isPotentiallyMaliciousFilepathInArchive`: is some entry `.git`? -/
def hasGitEntry : List GoString → Bool
  | [] => false
  | dirEntry :: rest => if dirEntry = ".git".toList then true else hasGitEntry rest

/-- The function `isPotentiallyMaliciousFilepathInArchive(filepath, destinationDir)`:
the output path and whether the entry is to be skipped. -/
def isPotentiallyMaliciousFilepathInArchive (filepath destinationDir : GoString) :
    GoString × Bool :=
  if HasSuffix filepath ['/'] then
    -- Skip directory entries.
    ([], true)
  else if HasPrefix filepath ['/'] then
    -- Skip absolute paths.
    ([], true)
  else if hasGitEntry (Split PathSeparator filepath) then
    -- don't unzip files under any `.git/` directory
    ([], true)
  else
    let cleanedOutputPath := Join [destinationDir, filepath]
    if !HasPrefix cleanedOutputPath destinationDir then
      -- skip file if it's not a child of the target directory
      ([], true)
    else (cleanedOutputPath, false)

/-- The destination root `unzipJarFile` hands to the guard:
`strings.TrimSuffix(destination, "/") + "/"`. -/
def destinationDirectory (destination : GoString) : GoString :=
  TrimSuffix destination [PathSeparator] ++ [PathSeparator]

/-- Go `strings.Join(elems, sep)` for a one-byte separator. -/
def joinWith (sep : Char) : List GoString → GoString
  | [] => []
  | [s] => s
  | s :: s' :: rest => s ++ sep :: joinWith sep (s' :: rest)

/-! ## What `Clean` computes on a rooted path

The segments of the path are resolved on a stack (newest first): empty and
`.` segments are dropped, `..` pops, every other segment is pushed. -/

/-- The stack of path elements after resolving the segments `segs` on top of
the stack `st`, for a rooted path. -/
def resolve : List GoString → List GoString → List GoString
  | st, [] => st
  | st, seg :: segs =>
    if seg = [] ∨ seg = ['.'] then resolve st segs
    else if seg = ['.', '.'] then resolve st.tail segs
    else resolve (seg :: st) segs

/-- The output buffer (newest byte first) that holds the stack `st` of a
rooted path. -/
def rootedBuf : List GoString → List Char
  | [] => ['/']
  | [s] => s.reverse ++ ['/']
  | s :: s' :: st => s.reverse ++ '/' :: rootedBuf (s' :: st)

/-- A real path element: not empty, not `.`, not `..`, and without `/`. -/
def RealElem (seg : GoString) : Prop :=
  seg ≠ [] ∧ seg ≠ ['.'] ∧ seg ≠ ['.', '.'] ∧ '/' ∉ seg

/-- The segments after the first one. -/
def restSegs (rest : List Char) : List GoString :=
  match rest.dropWhile (fun x => x != '/') with
  | [] => []
  | _ :: t => Split '/' t

/-! ## The dependency syncer: data model -/

/-- The interface `reposource.PackageDependency`, as the values its methods
return. -/
structure PackageDependency where
  /-- The package name, `PackageSyntax()`. -/
  PackageSyntax : GoString
  /-- The version, `PackageVersion()`. -/
  PackageVersion : GoString
  /-- The canonical tag, `GitTagFromVersion()`. -/
  GitTagFromVersion : GoString
  /-- The display form, `PackageManagerSyntax()`. -/
  PackageManagerSyntax : GoString
deriving DecidableEq

/-- A Go `error` value: a base error, which may be one that passes
`errcode.IsNotFound`, or an error wrapped by `errors.Wrapf` / `errors.Wrap`
with its format string and arguments. -/
inductive GoError where
  | base (msg : GoString) (notFound : Bool)
  | wrapf (cause : GoError) (format : GoString) (args : List GoString)
deriving DecidableEq

/-- Modelled from the spec: `errcode.IsNotFound`, of gitserver's package
`internal/errcode`, tells the not-found result of `Get` from every other
failure (§4.1); it looks through wrapping. -/
def IsNotFound : GoError → Bool
  | .base _ notFound => notFound
  | .wrapf cause _ _ => IsNotFound cause

/-- An `exec.Cmd`: argument vector, working directory, environment. -/
structure Cmd where
  Args : List GoString
  Dir : GoString
  Env : List GoString
deriving DecidableEq

/-- The call `exec.CommandContext(ctx, name, arg...)`. -/
def CommandContext (name : GoString) (arg : List GoString) : Cmd :=
  { Args := name :: arg, Dir := [], Env := [] }

/-- The interface `dependenciesSyncer` of one package ecosystem. -/
structure dependenciesSyncer where
  Get : GoString → GoString → Except GoError PackageDependency
  Download : GoString → PackageDependency → Option GoError
  ParseDependency : GoString → Except GoError PackageDependency
  ParseDependencyFromRepoName : GoString → Except GoError PackageDependency

/-- A record of the dependencies store, `dependenciesStore.DependencyRepo`. -/
structure DependencyRepo where
  Scheme : GoString
  Name : GoString
  Version : GoString
deriving DecidableEq

/-- The options `dependenciesStore.ListDependencyReposOpts`. -/
structure ListDependencyReposOpts where
  Scheme : GoString
  Name : GoString
  NewestFirst : Bool
deriving DecidableEq

/-- The interface `repos.DependenciesStore`. -/
structure DependenciesStore where
  ListDependencyRepos : ListDependencyReposOpts → Except GoError (List DependencyRepo)

/-- The struct `vcsDependenciesSyncer`. -/
structure vcsDependenciesSyncer where
  typ : GoString
  scheme : GoString
  placeholder : PackageDependency
  configDeps : List GoString
  syncer : dependenciesSyncer
  store : DependenciesStore

/-- The constant `stableGitCommitDate`. -/
def stableGitCommitDate : GoString := "Thu Apr 8 14:24:52 2021 +0200".toList

/-- The constant `jvmMajorVersion0`. -/
def jvmMajorVersion0 : Int := 44

/-! ## The world outside the syncer

The bare repository, the scratch workspace of the version being built, and
the record of what the pass did. -/

/-- What a pass does to the outside world, in order. -/
inductive Event where
  /-- A call of `gitPushDependencyTag`. -/
  | pushDependencyTag (dep : PackageDependency) (isLatestVersion : Bool)
  /-- The call `os.MkdirTemp`, and whether it failed. -/
  | mkdirTemp (failed : Bool)
  /-- The call `Download`, and whether it failed. -/
  | download (dep : PackageDependency) (failed : Bool)
  /-- A command handed to `runWith`, and whether it failed. -/
  | run (cmd : Cmd) (failed : Bool)
deriving DecidableEq

/-- Did the step fail? -/
def Event.failed : Event → Bool
  | .pushDependencyTag _ _ => false
  | .mkdirTemp failed => failed
  | .download _ failed => failed
  | .run _ failed => failed

/-- The state the commands act on. -/
structure World where
  /-- The tags of the bare repository. -/
  tags : List GoString
  /-- The tag whose commit the reference `latest` of the bare repository
  points at, if the reference exists. -/
  latest : Option GoString
  /-- The tags of the scratch workspace. -/
  scratch : List GoString
  /-- Everything done so far, oldest first. -/
  trace : List Event

/-- What the syncer cannot control: which external steps fail, what the
scratch directory is called, the name of the branch `git init` creates, and
the order in which a `range` over a map yields its keys. -/
structure Runtime where
  /-- The error of the command run as the `n`-th step, if it fails. -/
  runError : Nat → Cmd → Option GoError
  /-- The output captured from the command run as the `n`-th step, when it
  fails. -/
  failOutput : Nat → Cmd → GoString
  /-- The result of `os.MkdirTemp("", pattern)` called as the `n`-th step. -/
  MkdirTemp : Nat → GoString → Except GoError GoString
  /-- The output of `git rev-parse --abbrev-ref HEAD` in a workspace. -/
  headBranch : GoString
  /-- The order of a `range` over a map with the given keys. -/
  rangeOrder : List GoString → List GoString
  /-- A `range` yields every key once. -/
  rangeOrder_perm : ∀ keys, (rangeOrder keys).Perm keys

/-- A name `git` accepts for a tag is not empty and has no line break (it
rejects more than that; whatever else it rejects is a failure of the
command, which `Runtime.runError` covers). -/
def validTagName (t : GoString) : Bool := !t.isEmpty && !t.contains '\n'

/-- The output of `git tag`: one tag per line. -/
def tagListing : List GoString → GoString
  | [] => []
  | t :: ts => t ++ '\n' :: tagListing ts

/-- The effect and output of a `git` command that succeeds.  `Fetch` runs
`git tag` and `git tag -d` in the bare repository and every other command
in the scratch workspace, whose remote `origin` is the bare repository. -/
def gitEffect (rt : Runtime) (cmd : Cmd) (w : World) : GoString × World :=
  match cmd.Args with
  | [git, a1] =>
    if git = "git".toList ∧ a1 = "tag".toList then (tagListing w.tags, w)
    else ([], w)
  | [git, a1, a2, a3] =>
    if git = "git".toList ∧ a1 = "tag".toList ∧ a2 = "-d".toList then
      ([], { w with tags := w.tags.filter (fun t => t ≠ a3) })
    else if git = "git".toList ∧ a1 = "rev-parse".toList then (rt.headBranch, w)
    else ([], w)
  | [git, a1, a2, _, a4] =>
    if git = "git".toList ∧ a1 = "tag".toList ∧ a2 = "-m".toList then
      ([], { w with scratch := w.scratch ++ [a4] })
    else ([], w)
  | [git, a1, _, _, a4, a5] =>
    if git = "git".toList ∧ a1 = "push".toList ∧ a4 = "origin".toList ∧ a5 = "--tags".toList then
      ([], { w with tags := w.tags ++ (w.scratch.filter (fun t => t ∉ w.tags)).dedup })
    else ([], w)
  | [git, a1, _, _, a4, _, a6] =>
    if git = "git".toList ∧ a1 = "push".toList ∧ a4 = "origin".toList then
      ([], { w with
        tags := if a6 ∈ w.tags then w.tags else w.tags ++ [a6]
        latest := some a6 })
    else ([], w)
  | _ => ([], w)

/-- Does `git` refuse the command whatever the circumstances?  It refuses to
create a tag with an invalid name. -/
def gitRefuses (cmd : Cmd) : Bool :=
  match cmd.Args with
  | [git, a1, a2, _, a4] =>
    git = "git".toList && a1 = "tag".toList && a2 = "-m".toList && !validTagName a4
  | _ => false

/-- Modelled from the spec: `runWith`, which gitserver defines in another
file, runs the version-control command-line tool as a subprocess (§6) and
returns its captured output and its error (§7).  A failing command changes
nothing. -/
def runWith (rt : Runtime) (cmd : Cmd) (w : World) : (GoString × Option GoError) × World :=
  match rt.runError w.trace.length cmd with
  | some err =>
    ((rt.failOutput w.trace.length cmd, some err),
      { w with trace := w.trace ++ [.run cmd true] })
  | none =>
    if gitRefuses cmd then
      ((rt.failOutput w.trace.length cmd,
          some (.base "fatal: not a valid tag name".toList false)),
        { w with trace := w.trace ++ [.run cmd true] })
    else
      let r := gitEffect rt cmd w
      ((r.1, none), { r.2 with trace := w.trace ++ [.run cmd false] })

/-! ## The dependency syncer: operations -/

/-- Go `unicode.IsSpace`. -/
def isSpace (c : Char) : Bool :=
  c.toNat ∈ [0x09, 0x0A, 0x0B, 0x0C, 0x0D, 0x20, 0x85, 0xA0, 0x1680, 0x2028, 0x2029, 0x202F,
    0x205F, 0x3000] || (0x2000 ≤ c.toNat && c.toNat ≤ 0x200A)

/-- Go `strings.TrimSpace`. -/
def TrimSpace (s : GoString) : GoString :=
  ((s.dropWhile isSpace).reverse.dropWhile isSpace).reverse

/-- Go's `%s` of a `[]string`, as in `cmd.Args`. -/
def formatArgs (args : List GoString) : GoString := '[' :: joinWith ' ' args ++ [']']

/-- The environment entries `runCommandInDirectory` appends for a
dependency. -/
def gitEnv (dependency : PackageDependency) : List GoString :=
  let gitName := dependency.PackageManagerSyntax ++ " authors".toList
  let gitEmail := "code-intel@sourcegraph.com".toList
  [ "EMAIL=".toList ++ gitEmail,
    "GIT_AUTHOR_NAME=".toList ++ gitName,
    "GIT_AUTHOR_EMAIL=".toList ++ gitEmail,
    "GIT_AUTHOR_DATE=".toList ++ stableGitCommitDate,
    "GIT_COMMITTER_NAME=".toList ++ gitName,
    "GIT_COMMITTER_EMAIL=".toList ++ gitEmail,
    "GIT_COMMITTER_DATE=".toList ++ stableGitCommitDate ]

/-- The function `runCommandInDirectory(ctx, cmd, workingDirectory, dependency)`. -/
def runCommandInDirectory (rt : Runtime) (cmd : Cmd) (workingDirectory : GoString)
    (dependency : PackageDependency) (w : World) : Except GoError GoString × World :=
  let cmd := { cmd with Dir := workingDirectory, Env := cmd.Env ++ gitEnv dependency }
  match runWith rt cmd w with
  | ((output, some err), w') =>
    (.error (.wrapf err "command %s failed with output %s".toList [formatArgs cmd.Args, output]),
      w')
  | ((output, none), w') => (.ok output, w')

/-- The body of `gitPushDependencyTag` after the scratch directory exists. -/
def gitPushDependencyTagIn (ps : vcsDependenciesSyncer) (rt : Runtime)
    (bareGitDirectory workDir : GoString) (dep : PackageDependency) (isLatestVersion : Bool)
    (w : World) : Option GoError × World :=
  match ps.syncer.Download workDir dep with
  | some err => (some err, { w with trace := w.trace ++ [Event.download dep true] })
  | none =>
    let w : World := { w with trace := w.trace ++ [Event.download dep false] }
    let git := "git".toList
    match runCommandInDirectory rt (CommandContext git ["init".toList]) workDir dep w with
    | (.error err, w) => (some err, w)
    | (.ok _, w) =>
    match runCommandInDirectory rt (CommandContext git ["add".toList, ".".toList]) workDir dep w with
    | (.error err, w) => (some err, w)
    | (.ok _, w) =>
    -- Use --no-verify for security reasons.
    match runCommandInDirectory rt (CommandContext git ["commit".toList, "--no-verify".toList,
        "-m".toList, dep.PackageManagerSyntax, "--date".toList, stableGitCommitDate])
        workDir dep w with
    | (.error err, w) => (some err, w)
    | (.ok _, w) =>
    match runCommandInDirectory rt (CommandContext git ["tag".toList,
        "-m".toList, dep.PackageManagerSyntax, dep.GitTagFromVersion]) workDir dep w with
    | (.error err, w) => (some err, w)
    | (.ok _, w) =>
    match runCommandInDirectory rt (CommandContext git ["remote".toList, "add".toList,
        "origin".toList, bareGitDirectory]) workDir dep w with
    | (.error err, w) => (some err, w)
    | (.ok _, w) =>
    -- Use --no-verify for security reasons.
    match runCommandInDirectory rt (CommandContext git ["push".toList, "--no-verify".toList,
        "--force".toList, "origin".toList, "--tags".toList]) workDir dep w with
    | (.error err, w) => (some err, w)
    | (.ok _, w) =>
    if isLatestVersion then
      match runCommandInDirectory rt (CommandContext git ["rev-parse".toList,
          "--abbrev-ref".toList, "HEAD".toList]) workDir dep w with
      | (.error err, w) => (some err, w)
      | (.ok defaultBranch, w) =>
      -- Use --no-verify for security reasons.
      match runCommandInDirectory rt (CommandContext git ["push".toList, "--no-verify".toList,
          "--force".toList, "origin".toList, TrimSpace defaultBranch ++ ":latest".toList,
          dep.GitTagFromVersion]) workDir dep w with
      | (.error err, w) => (some err, w)
      | (.ok _, w) => (none, w)
    else (none, w)

/-- The method `vcsDependenciesSyncer.gitPushDependencyTag`.  The deferred
`os.RemoveAll(workDir)` discards the scratch workspace on every way out. -/
def gitPushDependencyTag (ps : vcsDependenciesSyncer) (rt : Runtime)
    (bareGitDirectory : GoString) (dep : PackageDependency) (isLatestVersion : Bool)
    (w : World) : Option GoError × World :=
  let w : World := { w with trace := w.trace ++ [Event.pushDependencyTag dep isLatestVersion] }
  match rt.MkdirTemp w.trace.length ps.typ with
  | .error err => (some err, { w with trace := w.trace ++ [Event.mkdirTemp true] })
  | .ok workDir =>
    let w : World := { w with scratch := [], trace := w.trace ++ [Event.mkdirTemp false] }
    let r := gitPushDependencyTagIn ps rt bareGitDirectory workDir dep isLatestVersion w
    (r.1, { r.2 with scratch := [] })

/-- The first loop of `versions`: the versions of the configured
dependencies of the package. -/
def configVersions (ps : vcsDependenciesSyncer) (packageName : GoString) :
    List GoString → List GoString → List GoString
  | [], versions => versions
  | d :: rest, versions =>
    match ps.syncer.ParseDependency d with
    | .error _ => configVersions ps packageName rest versions
    | .ok dep =>
      if dep.PackageSyntax = packageName then
        configVersions ps packageName rest (versions ++ [dep.PackageVersion])
      else configVersions ps packageName rest versions

/-- The method `vcsDependenciesSyncer.versions`. -/
def versions (ps : vcsDependenciesSyncer) (packageName : GoString) :
    Except GoError (List GoString) :=
  let versions := configVersions ps packageName ps.configDeps []
  match ps.store.ListDependencyRepos
      { Scheme := ps.scheme, Name := packageName, NewestFirst := true } with
  | .error err => .error (.wrapf err "failed to list dependencies from db".toList [])
  | .ok depRepos => .ok (versions ++ depRepos.map (fun depRepo => depRepo.Version))

/-- The loop of `Fetch` that asks `Get` about every version. -/
def cloneableLoop (ps : vcsDependenciesSyncer) (depName : GoString) :
    List GoString → List PackageDependency → Except GoError (List PackageDependency)
  | [], cloneable => .ok cloneable
  | version :: rest, cloneable =>
    match ps.syncer.Get depName version with
    | .error err =>
      if IsNotFound err then cloneableLoop ps depName rest cloneable
      else .error err
    | .ok d => cloneableLoop ps depName rest (cloneable ++ [d])

/-- The loop of `Fetch` that fills the map `tags` from the lines of the
output of `git tag`; the map is given by its keys. -/
def tagsLoop : List GoString → List GoString → List GoString
  | [], tags => tags
  | line :: rest, tags =>
    if line.length = 0 then tagsLoop rest tags
    else tagsLoop rest (if line ∈ tags then tags else tags ++ [line])

/-- The loop of `Fetch` that builds and pushes the missing versions; `i` is
the index of `dependency` in `cloneable`. -/
def pushLoop (ps : vcsDependenciesSyncer) (rt : Runtime) (dir : GoString)
    (tags : List GoString) : Nat → List PackageDependency → World → Option GoError × World
  | _, [], w => (none, w)
  | i, dependency :: rest, w =>
    if dependency.GitTagFromVersion ∈ tags then pushLoop ps rt dir tags (i + 1) rest w
    else
      match gitPushDependencyTag ps rt dir dependency (i == 0) w with
      | (some err, w) =>
        (some (.wrapf err "error pushing dependency %q".toList
          [dependency.PackageManagerSyntax]), w)
      | (none, w) => pushLoop ps rt dir tags (i + 1) rest w

/-- The loop of `Fetch` that fills the map `dependencyTags`, given by its
keys. -/
def dependencyTagsLoop : List PackageDependency → List GoString → List GoString
  | [], dependencyTags => dependencyTags
  | dependency :: rest, dependencyTags =>
    dependencyTagsLoop rest
      (if dependency.GitTagFromVersion ∈ dependencyTags then dependencyTags
       else dependencyTags ++ [dependency.GitTagFromVersion])

/-- The loop of `Fetch` that deletes the tags that are no dependency tags;
a failed deletion is logged and the loop goes on. -/
def deleteLoop (ps : vcsDependenciesSyncer) (rt : Runtime) (dir : GoString)
    (dependencyTags : List GoString) : List GoString → World → World
  | [], w => w
  | tag :: rest, w =>
    if tag ∉ dependencyTags then
      let cmd := CommandContext "git".toList ["tag".toList, "-d".toList, tag]
      deleteLoop ps rt dir dependencyTags rest
        (runCommandInDirectory rt cmd dir ps.placeholder w).2
    else deleteLoop ps rt dir dependencyTags rest w

/-- The method `vcsDependenciesSyncer.Fetch`; `remoteURLPath` is
`remoteURL.Path`. -/
def Fetch (ps : vcsDependenciesSyncer) (rt : Runtime) (remoteURLPath dir : GoString)
    (w : World) : Option GoError × World :=
  match ps.syncer.ParseDependencyFromRepoName remoteURLPath with
  | .error err => (some err, w)
  | .ok dep =>
    let depName := dep.PackageSyntax
    match versions ps depName with
    | .error err => (some err, w)
    | .ok versions =>
      match cloneableLoop ps depName versions [] with
      | .error err => (some err, w)
      | .ok cloneable =>
        match runCommandInDirectory rt (CommandContext "git".toList ["tag".toList]) dir
            ps.placeholder w with
        | (.error err, w) => (some err, w)
        | (.ok out, w) =>
          let tags := tagsLoop (Split '\n' out) []
          match pushLoop ps rt dir tags 0 cloneable w with
          | (some err, w) => (some err, w)
          | (none, w) =>
            let dependencyTags := dependencyTagsLoop cloneable []
            (none, deleteLoop ps rt dir dependencyTags (rt.rangeOrder tags) w)

/-- Does `Get` answer found or not-found, rather than fail otherwise? -/
def foundOrNotFound (r : Except GoError PackageDependency) : Bool :=
  match r with
  | .ok _ => true
  | .error err => IsNotFound err

/-- The descriptors `Get` confirms for the versions, in the order of the
versions. -/
def confirmed (ps : vcsDependenciesSyncer) (depName : GoString)
    (versions : List GoString) : List PackageDependency :=
  versions.filterMap (fun version =>
    match ps.syncer.Get depName version with
    | .ok d => some d
    | .error _ => none)

/-- The calls of `gitPushDependencyTag` in a trace, in order. -/
def pushCalls : List Event → List (PackageDependency × Bool)
  | [] => []
  | .pushDependencyTag dep isLatestVersion :: rest => (dep, isLatestVersion) :: pushCalls rest
  | _ :: rest => pushCalls rest

/-- The tag a command deletes, if it is a `git tag -d`. -/
def deleteTarget (cmd : Cmd) : Option GoString :=
  match cmd.Args with
  | [git, a1, a2, tag] =>
    if git = "git".toList ∧ a1 = "tag".toList ∧ a2 = "-d".toList then some tag else none
  | _ => none

/-- The tags for which a trace holds a `git tag -d`, in order. -/
def deleteAttempts : List Event → List GoString
  | [] => []
  | .run cmd _ :: rest =>
    match deleteTarget cmd with
    | some tag => tag :: deleteAttempts rest
    | none => deleteAttempts rest
  | _ :: rest => deleteAttempts rest

/-- The command as `runCommandInDirectory` hands it to `runWith`. -/
def located (cmd : Cmd) (dir : GoString) (dep : PackageDependency) : Cmd :=
  { cmd with Dir := dir, Env := cmd.Env ++ gitEnv dep }

/-- The command with which `Fetch` reads the tags of the repository. -/
def tagListCommand (dir : GoString) (dep : PackageDependency) : Cmd :=
  located (CommandContext "git".toList ["tag".toList]) dir dep

/-- Sequencing of two steps: stop at the first error. -/
def thenRun (r : Except GoError GoString × World)
    (k : GoString → World → Option GoError × World) : Option GoError × World :=
  match r with
  | (.error err, w) => (some err, w)
  | (.ok out, w) => k out w

/-- A tag set with one more tag. -/
def withTag (tag : GoString) (tags : List GoString) : List GoString :=
  if tag ∈ tags then tags else tags ++ [tag]

/-- The state in the middle of `gitPushDependencyTag`, started in `w0`: so
far it logged no further call and no deletion, and no step failed. -/
def Mid (w0 w : World) : Prop :=
  ∃ evs, w.trace = w0.trace ++ evs ∧ pushCalls evs = [] ∧ deleteAttempts evs = [] ∧
    ∀ e ∈ evs, e.failed = false

/-- What `gitPushDependencyTag` may have done when it returns `r`, started
in the world `w0`: it logged no further call and no deletion, it returns no
error exactly when no step failed, the tags are untouched or gained the
(valid) tag of the dependency, and gained it if no error is returned. -/
def PushPost (tag : GoString) (isLatestVersion : Bool) (w0 : World)
    (r : Option GoError × World) : Prop :=
  ∃ evs, r.2.trace = w0.trace ++ evs ∧ pushCalls evs = [] ∧ deleteAttempts evs = [] ∧
    (r.1 = none ↔ ∀ e ∈ evs, e.failed = false) ∧
    (r.2.tags = w0.tags ∨ (validTagName tag = true ∧ r.2.tags = withTag tag w0.tags)) ∧
    (r.1 = none → validTagName tag = true ∧ r.2.tags = withTag tag w0.tags) ∧
    (r.1 = none → isLatestVersion = true → r.2.latest = some tag) ∧
    (isLatestVersion = false → r.2.latest = w0.latest)

/-- The sync plan's `toCreate`: the descriptors whose canonical tag is not
among `tags`, in order, each with the flag `i == 0` of its index `i`. -/
def toCreate (tags : List GoString) : Nat → List PackageDependency →
    List (PackageDependency × Bool)
  | _, [] => []
  | i, d :: rest =>
    if d.GitTagFromVersion ∈ tags then toCreate tags (i + 1) rest
    else (d, i == 0) :: toCreate tags (i + 1) rest

/-- The world at the start of the next pass: the same repository, nothing
done yet. -/
def World.restart (w : World) : World := { w with trace := [] }

/-- A repository whose tags all have names `git` accepts. -/
def World.WellFormed (w : World) : Prop := ∀ t ∈ w.tags, validTagName t = true

/-! ## A small ecosystem, for concrete passes -/

/-- The descriptor of version `version` of the package `name`: tag
`v<version>`, display form `<name>@<version>`. -/
def sampleDep (name version : GoString) : PackageDependency :=
  { PackageSyntax := name
    PackageVersion := version
    GitTagFromVersion := 'v' :: version
    PackageManagerSyntax := name ++ '@' :: version }

/-- An ecosystem in which every version but `0.0.0` exists and every
download succeeds. -/
def sampleSyncer : dependenciesSyncer :=
  { Get := fun name version =>
      if version = "0.0.0".toList then .error (.base "not found".toList true)
      else .ok (sampleDep name version)
    Download := fun _ _ => none
    ParseDependency := fun d =>
      match Split '@' d with
      | [name, version] => .ok (sampleDep name version)
      | _ => .error (.base "malformed dependency".toList false)
    ParseDependencyFromRepoName := fun repoName => .ok (sampleDep repoName []) }

/-- A syncer of that ecosystem with the given configured dependencies and
the given versions in the store. -/
def samplePs (configDeps stored : List GoString) : vcsDependenciesSyncer :=
  { typ := "npm_packages".toList
    scheme := "npm".toList
    placeholder := sampleDep "placeholder".toList "1.0.0".toList
    configDeps := configDeps
    syncer := sampleSyncer
    store :=
      { ListDependencyRepos := fun opts =>
          .ok (stored.map (fun v =>
            { Scheme := opts.Scheme, Name := opts.Name, Version := v })) } }

/-- A runtime in which the commands with the argument vectors `failing`
fail and every other step succeeds. -/
def sampleRuntime (failing : List (List GoString)) : Runtime :=
  { runError := fun _ cmd =>
      if cmd.Args ∈ failing then some (.base "exit status 1".toList false) else none
    failOutput := fun _ cmd => "fatal: ".toList ++ joinWith ' ' cmd.Args ++ ['\n']
    MkdirTemp := fun _ pattern => .ok ("/tmp/".toList ++ pattern)
    headBranch := "master\n".toList
    rangeOrder := fun keys => keys
    rangeOrder_perm := fun keys => List.Perm.refl keys }

/-- A repository with the given tags, before a pass. -/
def sampleWorld (tags : List GoString) : World :=
  { tags := tags, latest := none, scratch := [], trace := [] }

/-! ## The commit construction protocol -/

/-- The commands a trace holds, in order. -/
def ranCommands : List Event → List Cmd
  | [] => []
  | .run cmd _ :: rest => cmd :: ranCommands rest
  | _ :: rest => ranCommands rest

/-- The commit construction protocol as the specification states it: the
argument vectors of the commands for the descriptor `d`, with `branch` the
output of `git rev-parse --abbrev-ref HEAD`. -/
def commitProtocol (bare : GoString) (d : PackageDependency) (isLatest : Bool)
    (branch : GoString) : List (List GoString) :=
  [ ["git".toList, "init".toList],
    ["git".toList, "add".toList, ".".toList],
    ["git".toList, "commit".toList, "--no-verify".toList, "-m".toList,
      d.PackageManagerSyntax, "--date".toList, "Thu Apr 8 14:24:52 2021 +0200".toList],
    ["git".toList, "tag".toList, "-m".toList, d.PackageManagerSyntax, d.GitTagFromVersion],
    ["git".toList, "remote".toList, "add".toList, "origin".toList, bare],
    ["git".toList, "push".toList, "--no-verify".toList, "--force".toList, "origin".toList,
      "--tags".toList] ]
  ++ (if isLatest then
      [ ["git".toList, "rev-parse".toList, "--abbrev-ref".toList, "HEAD".toList],
        ["git".toList, "push".toList, "--no-verify".toList, "--force".toList, "origin".toList,
          TrimSpace branch ++ ":latest".toList, d.GitTagFromVersion] ]
    else [])

/-- What a chain of commands run in `workDir` may have done when it returns
`r`, started in the world `w0` with the argument vectors `plan` to run: the
commands it ran are an initial part of the plan, all run in `workDir`; it
returns no error exactly when no command failed, and then it ran the whole
plan; and the error it returns is the one of the last command it ran, the
only one that failed, wrapped with the arguments of that command and the
output captured from it. -/
def StepsPost (rt : Runtime) (w0 : World) (workDir : GoString) (plan : List (List GoString))
    (r : Option GoError × World) : Prop :=
  ∃ evs, r.2.trace = w0.trace ++ evs ∧
    (ranCommands evs).map Cmd.Args <+: plan ∧
    (∀ c ∈ ranCommands evs, c.Dir = workDir) ∧
    (r.1 = none ↔ ∀ e ∈ evs, e.failed = false) ∧
    (r.1 = none → (ranCommands evs).map Cmd.Args = plan) ∧
    (∀ err, r.1 = some err → ∃ pre cmd cause, evs = pre ++ [Event.run cmd true] ∧
      (∀ e ∈ pre, e.failed = false) ∧
      err = GoError.wrapf cause "command %s failed with output %s".toList
        [formatArgs cmd.Args, rt.failOutput (w0.trace ++ pre).length cmd])

/-! ## The version resolver, as the specification states it -/

/-- The version a configuration string contributes for the package
`packageName`: the version of the string if it parses and its
`PackageSyntax` is `packageName`, nothing otherwise. -/
def matchingVersion (ps : vcsDependenciesSyncer) (packageName d : GoString) :
    Option GoString :=
  match ps.syncer.ParseDependency d with
  | .ok dep => if dep.PackageSyntax = packageName then some dep.PackageVersion else none
  | .error _ => none

/-! ## `strconv.Itoa` and `strconv.Atoi` (Go standard library) -/

/-- The digit `digits[d]` of `strconv`. -/
def digit (d : Nat) : Char := "0123456789".toList.getD d '0'

/-- The loop of `strconv.FormatInt` in base 10: `for u >= 10 { ... }` and
then the last digit, written in front of `a`. -/
def formatDecimal : Nat → Nat → List Char → List Char
  | 0, _, a => a
  | fuel + 1, u, a =>
    if u ≥ 10 then formatDecimal fuel (u / 10) (digit (u % 10) :: a)
    else digit u :: a

/-- Go `strconv.Itoa`. -/
def Itoa (i : Int) : GoString :=
  if i < 0 then '-' :: formatDecimal (i.natAbs + 1) i.natAbs []
  else formatDecimal (i.natAbs + 1) i.natAbs []

/-- The value of a decimal digit. -/
def digitValue (c : Char) : Option Nat :=
  if '0' ≤ c ∧ c ≤ '9' then some (c.toNat - '0'.toNat) else none

/-- The loop of `strconv.Atoi` over the digits. -/
def parseDecimal : GoString → Nat → Option Nat
  | [], n => some n
  | c :: cs, n =>
    match digitValue c with
    | none => none
    | some d => parseDecimal cs (n * 10 + d)

/-- The sign `strconv.Atoi` takes off the front of the string, whether it is
`-`, and the rest. -/
def splitSign (s : GoString) : Bool × GoString :=
  match s with
  | '-' :: rest => (true, rest)
  | '+' :: rest => (false, rest)
  | _ => (false, s)

/-- Go `strconv.Quote` of a string that has no character to escape. -/
def quote (s : GoString) : GoString := Char.ofNat 34 :: s ++ [Char.ofNat 34]

/-- Go `strconv.Atoi` for a 64-bit `int`. -/
def Atoi (s : GoString) : Except GoError Int :=
  let syntaxError : GoError :=
    .base ("strconv.Atoi: parsing ".toList ++ quote s ++ ": invalid syntax".toList) false
  let rangeError : GoError :=
    .base ("strconv.Atoi: parsing ".toList ++ quote s ++ ": value out of range".toList) false
  let signed := splitSign s
  if signed.2 = [] then .error syntaxError
  else
    match parseDecimal signed.2 0 with
    | none => .error syntaxError
    | some n =>
      if signed.1 then
        if n > 2 ^ 63 then .error rangeError else .ok (-(n : Int))
      else
        if n ≥ 2 ^ 63 then .error rangeError else .ok (n : Int)

/-- The value of a 64-bit `int` after an operation that may overflow. -/
def wrapInt64 (i : Int) : Int := (i + 2 ^ 63) % 2 ^ 64 - 2 ^ 63

/-! ## JVM packages: the class-file version of a byte-code jar -/

/-- The struct `reposource.MavenDependency`, as the values its methods and
fields give. -/
structure MavenDependency extends PackageDependency where
  /-- The field `Version`. -/
  Version : GoString
  /-- The method `IsJDK()`. -/
  IsJDK : Bool
  /-- The method `MavenModule.LsifJavaKind()`. -/
  LsifJavaKind : GoString
  /-- The method `LsifJavaDependencies()`. -/
  LsifJavaDependencies : List GoString

/-- An `io.ReadCloser` over an archive entry. -/
structure ReadCloser where
  /-- The call `Read(p)` with `len(p) = n`: the bytes read, of which the
  first `n` at most count, and the error. -/
  Read : Nat → List Nat × Option GoError
  /-- The error of `Close()`, if any. -/
  Close : Option GoError

/-- A `zip.File`, an entry of an archive. -/
structure ZipFile where
  /-- The field `Name`. -/
  Name : GoString
  /-- The method `Open()`. -/
  Open : Except GoError ReadCloser

/-- The big-endian value of bytes, as `binary.Read(buf, binary.BigEndian, &x)`
decodes them. -/
def bigEndian (bytes : List Nat) : Nat :=
  bytes.foldl (fun acc b => acc * 256 + b % 256) 0

/-- The function `classFileEntryMajorVersion(byteCodeJarPath, zipEntry)`; the
result `("", nil)` is `.ok ""`. -/
def classFileEntryMajorVersion (byteCodeJarPath : GoString) (zipEntry : ZipFile) :
    Except GoError GoString :=
  match zipEntry.Open with
  | .error err => .error err
  | .ok classFileReader =>
    let r := classFileReader.Read 8
    let magicBytes := (r.1.take 8 ++ List.replicate 8 0).take 8
    let read := (r.1.take 8).length
    match r.2 with
    | some err => .error err
    | none =>
      if read ≠ magicBytes.length then
        .error (.base ("failed to read 8 bytes from file ".toList ++ byteCodeJarPath) false)
      else
        -- Bytes 0-4 must match 0xcafebabe.
        let cafebabe : Nat := bigEndian (magicBytes.take 4) % 2 ^ 32
        if cafebabe ≠ 0xcafebabe then .ok [] -- Not a classfile
        else
          let major : Nat := bigEndian ((magicBytes.drop 6).take 2) % 2 ^ 16
          .ok (Itoa (Int.ofNat major))

/-- The loop `for _, zipEntry := range zipReader.File` of
`classFileMajorVersion` and the default after it. -/
def classFileLoop (byteCodeJarPath : GoString) : List ZipFile → Except GoError GoString
  | [] => .ok "8".toList
  | zipEntry :: rest =>
    if !HasSuffix zipEntry.Name ".class".toList then classFileLoop byteCodeJarPath rest
    else
      match classFileEntryMajorVersion byteCodeJarPath zipEntry with
      | .error _ => .ok []
      | .ok version =>
        if version = [] then classFileLoop byteCodeJarPath rest -- Not a classfile
        else .ok version

/-- What the JVM syncer cannot control: the artifact resolver `coursier`,
the file system and the archives on it, and the error values of the
libraries. -/
structure Host where
  /-- The call `coursier.FetchSources(ctx, config, dependency)`. -/
  FetchSources : MavenDependency → Except GoError GoString
  /-- The call `coursier.FetchByteCode(ctx, config, dependency)`. -/
  FetchByteCode : MavenDependency → Except GoError GoString
  /-- The test `errors.HasType(err, &coursier.ErrNoSources{})`. -/
  HasTypeErrNoSources : GoError → Bool
  /-- The method `err.Error()`. -/
  ErrorText : GoError → GoString
  /-- The error of `os.OpenFile(path, os.O_RDONLY, 0644)`, if any. -/
  OpenFile : GoString → Option GoError
  /-- The error of `os.Stat(path)`, if any. -/
  Stat : GoString → Option GoError
  /-- The entries `zip.NewReader(file, size).File` of the archive at a path. -/
  NewReader : GoString → Except GoError (List ZipFile)
  /-- The entries `zip.OpenReader(path).File` of the archive at a path. -/
  OpenReader : GoString → Except GoError (List ZipFile)
  /-- The error of `os.MkdirAll(path, 0700)`, if any. -/
  MkdirAll : GoString → Option GoError
  /-- The error of `os.OpenFile(path, os.O_WRONLY|os.O_CREATE|os.O_TRUNC, 0600)`,
  if any. -/
  OpenFileForWrite : GoString → Option GoError
  /-- The error of `io.Copy(outputFile, inputFile)` into the file opened at
  a path, if any. -/
  Copy : GoString → ReadCloser → Option GoError
  /-- The error of `outputFile.Close()` for the file opened at a path, if
  any. -/
  CloseFile : GoString → Option GoError
  /-- The error of `os.Create(path)`, if any. -/
  Create : GoString → Option GoError
  /-- The call `json.Marshal(&lsifJavaJSON{Kind, JVM, Dependencies})`. -/
  Marshal : GoString → GoString → List GoString → Except GoError GoString
  /-- The error of `file.Write(contents)` on the file created at a path,
  if any. -/
  Write : GoString → GoString → Option GoError

/-- The function `classFileMajorVersion(byteCodeJarPath)`. -/
def classFileMajorVersion (host : Host) (byteCodeJarPath : GoString) :
    Except GoError GoString :=
  match host.OpenFile byteCodeJarPath with
  | some err => .error err
  | none =>
    match host.Stat byteCodeJarPath with
    | some err => .error err
    | none =>
      match host.NewReader byteCodeJarPath with
      | .error err => .error (.wrapf err "failed to read jar file %s".toList [byteCodeJarPath])
      | .ok files => classFileLoop byteCodeJarPath files

/-- The function `roundJVMVersionToNearestStableVersion(javaVersion)`. -/
def roundJVMVersionToNearestStableVersion (javaVersion : Int) : Int :=
  if javaVersion ≤ 8 then 8
  else if javaVersion ≤ 11 then 11
  else if javaVersion ≤ 16 then 16
  -- Version from the future, do not round up to the next stable release.
  else javaVersion

/-- The function `inferJVMVersionFromByteCode(ctx, connection, dependency)`. -/
def inferJVMVersionFromByteCode (host : Host) (dependency : MavenDependency) :
    Except GoError GoString :=
  if dependency.IsJDK then .ok dependency.Version
  else
    match host.FetchByteCode dependency with
    | .error err => .error err
    | .ok byteCodeJarPath =>
      match classFileMajorVersion host byteCodeJarPath with
      | .error err => .error err
      | .ok majorVersionString =>
        match Atoi majorVersionString with
        | .error err =>
          .error (.wrapf err "failed to convert string %s to int".toList
            ["%!s(int=0)".toList])
        | .ok majorVersion =>
          let jvmVersion := wrapInt64 (majorVersion - jvmMajorVersion0)
          let roundedJvmVersion := roundJVMVersionToNearestStableVersion jvmVersion
          .ok (Itoa roundedJvmVersion)

/-! ## JVM packages: building and pushing a version -/

/-- Go `strings.Contains(s, substr)`. -/
def Contains : GoString → GoString → Bool
  | [], substr => HasPrefix [] substr
  | c :: s, substr => HasPrefix (c :: s) substr || Contains s substr

/-- Go `path.Dir`: the path up to and including its last `/`, cleaned. -/
def Dir (path : GoString) : GoString :=
  Clean (path.reverse.dropWhile (fun c => c ≠ '/')).reverse

/-- The function `copyZipFileEntry(entry, outputPath)`; each deferred `Close`
gives its error when there is none yet. -/
def copyZipFileEntry (host : Host) (entry : ZipFile) (outputPath : GoString) :
    Option GoError :=
  match entry.Open with
  | .error err => some err
  | .ok inputFile =>
    let closeInput (err : Option GoError) : Option GoError :=
      match err with
      | none => inputFile.Close
      | some err => some err
    match host.MkdirAll (Dir outputPath) with
    | some err => closeInput (some err)
    | none =>
      match host.OpenFileForWrite outputPath with
      | some err => closeInput (some err)
      | none =>
        let closeOutput (err : Option GoError) : Option GoError :=
          match err with
          | none => host.CloseFile outputPath
          | some err => some err
        closeInput (closeOutput (host.Copy outputPath inputFile))

/-- The loop `for _, file := range reader.File` of `unzipJarFile`. -/
def unzipLoop (host : Host) (destinationDirectory : GoString) : List ZipFile → Option GoError
  | [] => none
  | file :: rest =>
    let r := isPotentiallyMaliciousFilepathInArchive file.Name destinationDirectory
    if r.2 then unzipLoop host destinationDirectory rest
    else
      match copyZipFileEntry host file r.1 with
      | some err => some err
      | none => unzipLoop host destinationDirectory rest

/-- The function `unzipJarFile(jarPath, destination)`. -/
def unzipJarFile (host : Host) (jarPath destination : GoString) : Option GoError :=
  match host.OpenReader jarPath with
  | .error err => some err
  | .ok files => unzipLoop host (destinationDirectory destination) files

/-- The method `JVMPackagesSyncer.commitJar`. -/
def JVMPackagesSyncer.commitJar (host : Host) (rt : Runtime) (dependency : MavenDependency)
    (workingDirectory sourceCodeJarPath : GoString) (w : World) : Option GoError × World :=
  match unzipJarFile host sourceCodeJarPath workingDirectory with
  | some err =>
    (some (.wrapf err "failed to unzip jar file for %s to %v".toList
      [dependency.PackageManagerSyntax, sourceCodeJarPath]), w)
  | none =>
    match host.Create (Join [workingDirectory, "lsif-java.json".toList]) with
    | some err => (some err, w)
    | none =>
      match inferJVMVersionFromByteCode host dependency with
      | .error err => (some err, w)
      | .ok jvmVersion =>
        match host.Marshal dependency.LsifJavaKind jvmVersion
            dependency.LsifJavaDependencies with
        | .error err => (some err, w)
        | .ok jsonContents =>
          match host.Write (Join [workingDirectory, "lsif-java.json".toList]) jsonContents with
          | some err => (some err, w)
          | none =>
            let git := "git".toList
            let dep := dependency.toPackageDependency
            match runCommandInDirectory rt (CommandContext git ["add".toList, ".".toList])
                workingDirectory dep w with
            | (.error err, w) => (some err, w)
            | (.ok _, w) =>
            -- Use --no-verify for security reasons.
            match runCommandInDirectory rt (CommandContext git ["commit".toList,
                "--no-verify".toList, "-m".toList, dependency.PackageManagerSyntax,
                "--date".toList, stableGitCommitDate]) workingDirectory dep w with
            | (.error err, w) => (some err, w)
            | (.ok _, w) =>
            match runCommandInDirectory rt (CommandContext git ["tag".toList, "-m".toList,
                dependency.PackageManagerSyntax, dependency.GitTagFromVersion])
                workingDirectory dep w with
            | (.error err, w) => (some err, w)
            | (.ok _, w) => (none, w)

/-- The method `JVMPackagesSyncer.gitPushDependencyTag`.  The deferred
`os.RemoveAll(tmpDirectory)` discards the scratch workspace on every way
out. -/
def JVMPackagesSyncer.gitPushDependencyTag (host : Host) (rt : Runtime)
    (bareGitDirectory : GoString) (dependency : MavenDependency) (isLatestVersion : Bool)
    (w : World) : Option GoError × World :=
  let dep := dependency.toPackageDependency
  let w : World := { w with trace := w.trace ++ [Event.pushDependencyTag dep isLatestVersion] }
  match rt.MkdirTemp w.trace.length "maven".toList with
  | .error err => (some err, { w with trace := w.trace ++ [Event.mkdirTemp true] })
  | .ok tmpDirectory =>
    let w : World := { w with scratch := [], trace := w.trace ++ [Event.mkdirTemp false] }
    match host.FetchSources dependency with
    | .error err =>
      let w : World := { w with trace := w.trace ++ [Event.download dep true] }
      -- Temporary: We shouldn't need both these checks
      if host.HasTypeErrNoSources err
          || Contains (host.ErrorText err) "no sources for dependency".toList then
        (none, w)
      else (some err, w)
    | .ok sourceCodeJarPath =>
      let w : World := { w with trace := w.trace ++ [Event.download dep false] }
      let git := "git".toList
      let r : Option GoError × World :=
        match runCommandInDirectory rt (CommandContext git ["init".toList]) tmpDirectory dep w
        with
        | (.error err, w) => (some err, w)
        | (.ok _, w) =>
        match JVMPackagesSyncer.commitJar host rt dependency tmpDirectory sourceCodeJarPath w
        with
        | (some err, w) => (some err, w)
        | (none, w) =>
        match runCommandInDirectory rt (CommandContext git ["remote".toList, "add".toList,
            "origin".toList, bareGitDirectory]) tmpDirectory dep w with
        | (.error err, w) => (some err, w)
        | (.ok _, w) =>
        -- Use --no-verify for security reasons.
        match runCommandInDirectory rt (CommandContext git ["push".toList,
            "--no-verify".toList, "--force".toList, "origin".toList, "--tags".toList])
            tmpDirectory dep w with
        | (.error err, w) => (some err, w)
        | (.ok _, w) =>
        if isLatestVersion then
          match runCommandInDirectory rt (CommandContext git ["rev-parse".toList,
              "--abbrev-ref".toList, "HEAD".toList]) tmpDirectory dep w with
          | (.error err, w) => (some err, w)
          | (.ok defaultBranch, w) =>
          -- Use --no-verify for security reasons.
          match runCommandInDirectory rt (CommandContext git ["push".toList,
              "--no-verify".toList, "--force".toList, "origin".toList,
              TrimSpace defaultBranch ++ ":latest".toList, dependency.GitTagFromVersion])
              tmpDirectory dep w with
          | (.error err, w) => (some err, w)
          | (.ok _, w) => (none, w)
        else (none, w)
      (r.1, { r.2 with scratch := [] })

/-! ## The class-file header, as the specification states it -/

/-- The header bytes of an archive entry: what reading 8 bytes of it
yields. -/
def header (entry : ZipFile) : List Nat :=
  match entry.Open with
  | .ok reader => (reader.Read 8).1
  | .error _ => []

/-- Is the entry a candidate whose header is valid: does its name end in
`.class` and does its header begin with the magic constant `CA FE BA BE`? -/
def isValidClassEntry (entry : ZipFile) : Bool :=
  HasSuffix entry.Name ".class".toList && (header entry).take 4 == [0xCA, 0xFE, 0xBA, 0xBE]

/-- The major version of a header: the 16-bit big-endian value of its bytes
6 and 7. -/
def headerMajor (entry : ZipFile) : Nat :=
  256 * (header entry).getD 6 0 + (header entry).getD 7 0

/-! ## A small host, for concrete jars -/

/-- The text of an error: the message of a base error, and for a wrapped
error its format followed by the text of its cause. -/
def errorText : GoError → GoString
  | .base msg _ => msg
  | .wrapf cause format _ => format ++ ": ".toList ++ errorText cause

/-- An archive entry with the given name and content. -/
def sampleEntry (name : GoString) (content : List Nat) : ZipFile :=
  { Name := name
    Open := .ok { Read := (fun n => (content.take n, none)), Close := none } }

/-- A host on which every jar has the entries `files`, the sources of a
dependency are fetched with the result `sources`, and no step of the file
system fails. -/
def sampleHost (sources : Except GoError GoString) (files : List ZipFile) : Host :=
  { FetchSources := fun _ => sources
    FetchByteCode := fun _ => .ok "/cache/classes.jar".toList
    HasTypeErrNoSources := fun _ => false
    ErrorText := errorText
    OpenFile := fun _ => none
    Stat := fun _ => none
    NewReader := fun _ => .ok files
    OpenReader := fun _ => .ok files
    MkdirAll := fun _ => none
    OpenFileForWrite := fun _ => none
    Copy := fun _ _ => none
    CloseFile := fun _ => none
    Create := fun _ => none
    Marshal := fun kind jvm _ => .ok (kind ++ ' ' :: jvm)
    Write := fun _ _ => none }

/-- The Maven dependency `group:artifact:version`, not a JDK. -/
def sampleMaven (module version : GoString) : MavenDependency :=
  { PackageSyntax := module
    PackageVersion := version
    GitTagFromVersion := 'v' :: version
    PackageManagerSyntax := module ++ ':' :: version
    Version := version
    IsJDK := false
    LsifJavaKind := "maven".toList
    LsifJavaDependencies := [module ++ ':' :: version] }

end Gitserver

/-! # Searcher: the indexed search of `cmd/searcher/internal/search/zoekt_search.go` -/

namespace Searcher

open Gitserver

/-! ## The endpoints of the search client -/

/-- The struct `atomicEndpoints`: its `atomic.Value` holds nothing (`nil`)
or the slice last stored. -/
structure atomicEndpoints where
  endpoints : Option (List GoString)
deriving DecidableEq

/-- The method `atomicEndpoints.Endpoints`. -/
def atomicEndpoints.Endpoints (a : atomicEndpoints) : Except GoError (List GoString) :=
  match a.endpoints with
  | none => .error (.base "endpoints have not been set".toList false)
  | some eps => .ok eps

/-- The loop `for i := range endpoints` of `needsUpdate`, over the indices
`is` still to visit. -/
def needsUpdateLoop (old endpoints : List GoString) : List Nat → Bool
  | [] => false
  | i :: is =>
    if old.getD i [] ≠ endpoints.getD i [] then true
    else needsUpdateLoop old endpoints is

/-- The method `atomicEndpoints.needsUpdate`. -/
def atomicEndpoints.needsUpdate (a : atomicEndpoints) (endpoints : List GoString) : Bool :=
  match a.Endpoints with
  | .error _ => true
  | .ok old =>
    if old.length ≠ endpoints.length then true
    else needsUpdateLoop old endpoints (List.range endpoints.length)

/-- The method `atomicEndpoints.Set`. -/
def atomicEndpoints.Set (a : atomicEndpoints) (endpoints : List GoString) : atomicEndpoints :=
  if !a.needsUpdate endpoints then a
  else { a with endpoints := some endpoints }

/-! ## Queries and responses -/

/-- A `zoektquery.BranchRepos`, as the cardinality of its set of
repositories. -/
structure BranchRepos where
  Branch : GoString
  /-- The value of `Repos.GetCardinality()`, a `uint64`. -/
  Cardinality : Nat

/-- A `zoektquery.Q`, as far as this file builds queries. -/
inductive Q where
  /-- The query `&zoektquery.Const{Value: value}`. -/
  | const (value : Bool)
  /-- A query `zoektutil.FileRe` returned. -/
  | fileRe (pattern : GoString) (caseSensitive : Bool)
  /-- The query `&zoektquery.Not{Child: child}`. -/
  | not (child : Q)
  /-- The query `&zoektquery.Type{Type: zoektquery.TypeRepo, Child: child}`. -/
  | typeRepo (child : Q)
  /-- The query `&zoektquery.BranchesRepos{List: list}`. -/
  | branchesRepos (list : List BranchRepos)
  /-- The query `&zoektquery.Regexp{Regexp: re, CaseSensitive: true, Content: true}`. -/
  | regexp (re : GoString)
  /-- The query `zoektquery.NewAnd(children...)`. -/
  | and (children : List Q)

/-- The fields of `search.TextPatternInfo` this file reads. -/
structure TextPatternInfo where
  Pattern : GoString
  IsCaseSensitive : Bool
  IncludePatterns : List GoString
  ExcludePattern : GoString
  FilePatternsReposMustInclude : List GoString
  FilePatternsReposMustExclude : List GoString
  FileMatchLimit : Int

/-- A `zoekt.LineMatch`. -/
structure LineMatch where
  Line : GoString
  LineNumber : Int
deriving DecidableEq

/-- A `zoekt.FileMatch`. -/
structure FileMatch where
  FileName : GoString
  LineMatches : List LineMatch
  Content : GoString
deriving DecidableEq

/-- A `zoekt.SearchResult`: the statistics this file reads and the files. -/
structure SearchResult where
  FileCount : Int
  FilesSkipped : Int
  ShardsSkipped : Int
  Files : List FileMatch

/-- The fields of `zoekt.SearchOptions` this file reads or sets. -/
structure SearchOptions where
  MaxWallTime : Int
  Whole : Bool

/-- What `zoektSearch` cannot control: the libraries that build queries and
options, the clock, and the search backend. -/
structure Backend where
  /-- The call `zoektutil.FileRe(pattern, caseSensitive)`. -/
  FileRe : GoString → Bool → Except GoError Q
  /-- The call `comby.StructuralPatToRegexpQuery(pattern, shortcircuit)`. -/
  StructuralPatToRegexpQuery : GoString → Bool → GoString
  /-- The call `syntax.Parse(s, flags)`, with the parsed expression as a
  string. -/
  Parse : GoString → Except GoError GoString
  /-- The call `zoektutil.ResultCountFactor(numRepos, fileMatchLimit, globalSearch)`. -/
  ResultCountFactor : Int → Int → Bool → Int
  /-- The call `zoektutil.SearchOpts(ctx, k, fileMatchLimit, nil)`. -/
  SearchOpts : Int → Int → SearchOptions
  /-- The value of `time.Until(deadline)`. -/
  untilDeadline : Int
  /-- The `n`-th call `client.Search(ctx, q, &searchOpts)` of the client
  whose endpoints are in `endpointMap`. -/
  Search : Nat → atomicEndpoints → Q → SearchOptions → Except GoError SearchResult

/-- The constant `defaultMaxSearchResults`. -/
def defaultMaxSearchResults : Int := 30

/-- The error `errNoResultsInTimeout`. -/
def errNoResultsInTimeout : GoError :=
  .base "no results found in specified timeout".toList false

/-- A loop `for _, p := range patterns` of `handleFilePathPatterns`, which
appends `wrap q` for the query `q` of each pattern. -/
def fileReLoop (be : Backend) (query : TextPatternInfo) (wrap : Q → Q) :
    List GoString → List Q → Except GoError (List Q)
  | [], and => .ok and
  | p :: rest, and =>
    match be.FileRe p query.IsCaseSensitive with
    | .error err => .error err
    | .ok q => fileReLoop be query wrap rest (and ++ [wrap q])

/-- The function `handleFilePathPatterns(query)`. -/
def handleFilePathPatterns (be : Backend) (query : TextPatternInfo) : Except GoError Q :=
  match fileReLoop be query (fun q => q) query.IncludePatterns [] with
  | .error err => .error err
  | .ok and =>
    let excluded : Except GoError (List Q) :=
      if query.ExcludePattern ≠ [] then
        match be.FileRe query.ExcludePattern query.IsCaseSensitive with
        | .error err => .error err
        | .ok q => .ok (and ++ [Q.not q])
      else .ok and
    match excluded with
    | .error err => .error err
    | .ok and =>
      match fileReLoop be query (fun q => Q.typeRepo q) query.FilePatternsReposMustInclude and
      with
      | .error err => .error err
      | .ok and =>
        match fileReLoop be query (fun q => Q.not (Q.typeRepo q))
            query.FilePatternsReposMustExclude and with
        | .error err => .error err
        | .ok and => .ok (Q.and and)

/-- The function `buildQuery(args, branchRepos, filePathPatterns, shortcircuit)`. -/
def buildQuery (be : Backend) (args : TextPatternInfo) (branchRepos : List BranchRepos)
    (filePathPatterns : Q) (shortcircuit : Bool) : Except GoError Q :=
  let regexString := be.StructuralPatToRegexpQuery args.Pattern shortcircuit
  if regexString.length = 0 then .ok (Q.const true)
  else
    match be.Parse regexString with
    | .error err => .error err
    | .ok re => .ok (Q.and [Q.branchesRepos branchRepos, filePathPatterns, Q.regexp re])

/-- The function `getZoektClient(indexerEndpoints)`, as what it does to the
package variable `endpointMap`; the client it returns is `Backend.Search`. -/
def getZoektClient (endpointMap : atomicEndpoints) (indexerEndpoints : List GoString) :
    atomicEndpoints :=
  endpointMap.Set indexerEndpoints

/-- The loop `for _, br := range branchRepos` of `zoektSearch`. -/
def numReposLoop : List BranchRepos → Int → Int
  | [], numRepos => numRepos
  | br :: rest, numRepos =>
    numReposLoop rest (wrapInt64 (numRepos + wrapInt64 (Int.ofNat (br.Cardinality % 2 ^ 64))))

/-- The loop `for _, file := range resp.Files` of `zoektSearch`: the value of
`limitHit` after it, or nothing if a slice expression panics.  The loop
variable `file` is a copy of the element, so the assignment
`file.LineMatches = file.LineMatches[:maxLineMatches]` changes the copy and
`resp.Files` stays as it is. -/
def lineMatchesLoop (maxLineMatches : Int) : List FileMatch → Bool → Option Bool
  | [], limitHit => some limitHit
  | file :: rest, limitHit =>
    if (file.LineMatches.length : Int) > maxLineMatches then
      -- file.LineMatches = file.LineMatches[:maxLineMatches]
      if maxLineMatches < 0 then none
      else lineMatchesLoop maxLineMatches rest true
    else lineMatchesLoop maxLineMatches rest limitHit

/-- The results `(fm, limitHit, partial, err)` of `zoektSearch`; `partial`
is never assigned and stays `nil`. -/
structure SearchReturn where
  fm : List FileMatch
  limitHit : Bool
  err : Option GoError
deriving DecidableEq

/-- The function `zoektSearch`: what it returns, or nothing if it panics,
and the endpoints of the client afterwards.  `since n` is the value of
`since(t0)` at its `n`-th call.  The deferred function sends the same results
on the channel `c`. -/
def zoektSearch (be : Backend) (args : TextPatternInfo) (branchRepos : List BranchRepos)
    (since : Nat → Int) (endpoints : List GoString) (useFullDeadline : Bool)
    (endpointMap : atomicEndpoints) : Option SearchReturn × atomicEndpoints :=
  if branchRepos.length = 0 then (some ⟨[], false, none⟩, endpointMap)
  else
    let numRepos := numReposLoop branchRepos 0
    -- Choose sensible values for k when we generalize this.
    let k := be.ResultCountFactor numRepos args.FileMatchLimit false
    let searchOpts := { be.SearchOpts k args.FileMatchLimit with Whole := true }
    let searchOpts : SearchOptions :=
      if useFullDeadline then { searchOpts with MaxWallTime := be.untilDeadline }
      else searchOpts
    match handleFilePathPatterns be args with
    | .error err => (some ⟨[], false, some err⟩, endpointMap)
    | .ok filePathPatterns =>
      match buildQuery be args branchRepos filePathPatterns true with
      | .error err => (some ⟨[], false, some err⟩, endpointMap)
      | .ok q =>
        let endpointMap := getZoektClient endpointMap endpoints
        match be.Search 0 endpointMap q searchOpts with
        | .error err => (some ⟨[], false, some err⟩, endpointMap)
        | .ok resp =>
          if since 0 ≥ searchOpts.MaxWallTime then
            (some ⟨[], false, some errNoResultsInTimeout⟩, endpointMap)
          else
            -- We always return approximate results (limitHit true) unless we run the
            -- branch to perform a more complete search.
            let complete : Except GoError (SearchResult × Bool) :=
              if resp.FileCount < 10 ∨ args.FileMatchLimit ≠ defaultMaxSearchResults then
                match buildQuery be args branchRepos filePathPatterns false with
                | .error err => .error err
                | .ok q =>
                  match be.Search 1 endpointMap q searchOpts with
                  | .error err => .error err
                  | .ok resp =>
                    if since 1 ≥ searchOpts.MaxWallTime then .error errNoResultsInTimeout
                    else
                      -- This is the only place limitHit can be set false, meaning we
                      -- covered everything.
                      .ok (resp, decide (wrapInt64 (resp.FilesSkipped + resp.ShardsSkipped) > 0))
              else .ok (resp, true)
            match complete with
            | .error err => (some ⟨[], false, some err⟩, endpointMap)
            | .ok (resp, limitHit) =>
              if resp.Files.length = 0 then (some ⟨[], false, none⟩, endpointMap)
              else
                let maxLineMatches := wrapInt64 (25 + k)
                match lineMatchesLoop maxLineMatches resp.Files limitHit with
                | none => (none, endpointMap)
                | some limitHit => (some ⟨resp.Files, limitHit, none⟩, endpointMap)

/-! ## A small backend, for concrete searches -/

/-- A backend that answers the first search with `first` and the second one
with `second`, with the result-count factor `k` and no timeout. -/
def sampleBackend (first second : SearchResult) (k : Int) : Backend :=
  { FileRe := fun pattern caseSensitive => .ok (Q.fileRe pattern caseSensitive)
    StructuralPatToRegexpQuery := fun pattern _ => pattern
    Parse := fun s => .ok s
    ResultCountFactor := fun _ _ _ => k
    SearchOpts := fun _ _ => { MaxWallTime := 1000, Whole := false }
    untilDeadline := 1000
    Search := fun n _ _ _ => if n = 0 then .ok first else .ok second }

/-- A request for the pattern `foo` with the default limit of file matches. -/
def sampleArgs : TextPatternInfo :=
  { Pattern := "foo".toList
    IsCaseSensitive := true
    IncludePatterns := []
    ExcludePattern := []
    FilePatternsReposMustInclude := []
    FilePatternsReposMustExclude := []
    FileMatchLimit := 30 }

/-- A file match with `n` line matches. -/
def sampleFile (name : GoString) (n : Nat) : FileMatch :=
  { FileName := name
    LineMatches := (List.range n).map (fun i => { Line := "foo".toList, LineNumber := i })
    Content := [] }

end Searcher


/-! # Theorems -/

namespace Gitserver


/-! ## Facts about `Split` and `joinWith` -/

theorem Split_ne_nil (sep : Char) (s : GoString) : Split sep s ≠ [] := by
  cases s with
  | nil => simp [Split]
  | cons c cs =>
    unfold Split
    split
    · simp
    · split <;> simp

theorem Split_cons_sep (sep : Char) (s : GoString) :
    Split sep (sep :: s) = [] :: Split sep s := by
  simp [Split]

theorem Split_cons_of_ne {sep c : Char} (h : c ≠ sep) (s : GoString) :
    ∃ seg segs, Split sep s = seg :: segs ∧ Split sep (c :: s) = (c :: seg) :: segs := by
  rcases hs : Split sep s with _ | ⟨seg, segs⟩
  · exact absurd hs (Split_ne_nil sep s)
  · refine ⟨seg, segs, rfl, ?_⟩
    rw [Split, if_neg h, hs]

theorem Split_append_sep (sep : Char) (a b : GoString) :
    Split sep (a ++ sep :: b) = Split sep a ++ Split sep b := by
  induction a with
  | nil => simp [Split]
  | cons c a ih =>
    by_cases h : c = sep
    · subst h
      simp [Split_cons_sep, ih]
    · obtain ⟨seg, segs, h1, h2⟩ := Split_cons_of_ne h a
      obtain ⟨seg', segs', h1', h2'⟩ := Split_cons_of_ne h (a ++ sep :: b)
      rw [List.cons_append, h2', h2]
      rw [ih, h1] at h1'
      simp at h1'
      simp [h1'.1, h1'.2]

theorem Split_of_not_mem {sep : Char} {s : GoString} (h : sep ∉ s) : Split sep s = [s] := by
  induction s with
  | nil => rfl
  | cons c s ih =>
    simp at h
    have hc : c ≠ sep := fun e => h.1 e.symm
    obtain ⟨seg, segs, h1, h2⟩ := Split_cons_of_ne hc s
    rw [ih h.2] at h1
    simp at h1
    rw [h2, ← h1.1, ← h1.2]

theorem not_mem_of_mem_Split {sep : Char} {s seg : GoString} (h : seg ∈ Split sep s) :
    sep ∉ seg := by
  induction s generalizing seg with
  | nil => simp [Split] at h; simp [h]
  | cons c s ih =>
    by_cases hc : c = sep
    · subst hc
      rw [Split_cons_sep] at h
      rcases List.mem_cons.1 h with h | h
      · simp [h]
      · exact ih h
    · obtain ⟨seg', segs, h1, h2⟩ := Split_cons_of_ne hc s
      rw [h2] at h
      rcases List.mem_cons.1 h with h | h
      · subst h
        have := @ih seg' (by simp [h1])
        simp only [List.mem_cons, not_or]
        exact ⟨fun e => hc e.symm, this⟩
      · exact ih (by simp [h1, h])

theorem Split_joinWith {sep : Char} (segs : List GoString) (hne : segs ≠ [])
    (h : ∀ seg ∈ segs, sep ∉ seg) : Split sep (joinWith sep segs) = segs := by
  induction segs with
  | nil => exact absurd rfl hne
  | cons s rest ih =>
    cases rest with
    | nil => simpa [joinWith] using Split_of_not_mem (h s (by simp))
    | cons s' rest =>
      rw [joinWith, Split_append_sep, ih (by simp) (fun seg hseg => h seg (by simp [hseg])),
        Split_of_not_mem (h s (by simp))]
      rfl

theorem joinWith_Split (sep : Char) (s : GoString) : joinWith sep (Split sep s) = s := by
  induction s with
  | nil => rfl
  | cons c s ih =>
    by_cases hc : c = sep
    · subst hc
      rw [Split_cons_sep]
      rcases hs : Split c s with _ | ⟨seg, segs⟩
      · exact absurd hs (Split_ne_nil c s)
      · rw [hs] at ih
        simp [joinWith, ih]
    · obtain ⟨seg, segs, h1, h2⟩ := Split_cons_of_ne hc s
      rw [h2]
      rw [h1] at ih
      cases segs with
      | nil => simpa [joinWith] using ih
      | cons s' rest =>
        simp only [joinWith] at ih ⊢
        simp [ih]

theorem joinWith_append_singleton (sep : Char) (xs : List GoString) (s : GoString)
    (hne : xs ≠ []) : joinWith sep (xs ++ [s]) = joinWith sep xs ++ sep :: s := by
  induction xs with
  | nil => exact absurd rfl hne
  | cons x rest ih =>
    cases rest with
    | nil => simp [joinWith]
    | cons x' rest =>
      have := ih (by simp)
      simp only [List.cons_append] at this ⊢
      simp [joinWith, this]

theorem joinWith_append (sep : Char) (xs ys : List GoString) (hx : xs ≠ []) (hy : ys ≠ []) :
    joinWith sep (xs ++ ys) = joinWith sep xs ++ sep :: joinWith sep ys := by
  induction xs with
  | nil => exact absurd rfl hx
  | cons x rest ih =>
    cases rest with
    | nil =>
      cases ys with
      | nil => exact absurd rfl hy
      | cons y ys => simp [joinWith]
    | cons x' rest =>
      have := ih (by simp)
      simp only [List.cons_append] at this ⊢
      simp [joinWith, this]

theorem resolve_all_real (segs : List GoString) :
    ∀ st : List GoString, (∀ s ∈ st, RealElem s) → (∀ s ∈ segs, '/' ∉ s) →
      ∀ s ∈ resolve st segs, RealElem s := by
  induction segs with
  | nil => intro st hst _; simpa [resolve] using hst
  | cons seg segs ih =>
    intro st hst hsegs
    have hsegs' : ∀ s ∈ segs, '/' ∉ s := fun s hs => hsegs s (by simp [hs])
    unfold resolve
    split_ifs with h1 h2
    · exact ih st hst hsegs'
    · exact ih st.tail (fun s hs => hst s (List.mem_of_mem_tail hs)) hsegs'
    · refine ih (seg :: st) ?_ hsegs'
      intro s hs
      rcases List.mem_cons.1 hs with hs | hs
      · subst hs
        exact ⟨fun e => h1 (Or.inl e), fun e => h1 (Or.inr e), h2, hsegs s (by simp)⟩
      · exact hst s hs

theorem resolve_real (segs st : List GoString) (h : ∀ s ∈ segs, RealElem s) :
    resolve st segs = segs.reverse ++ st := by
  induction segs generalizing st with
  | nil => simp [resolve]
  | cons seg segs ih =>
    have hr := h seg (by simp)
    have h1 : ¬ (seg = [] ∨ seg = ['.']) := fun e => e.elim hr.1 hr.2.1
    rw [resolve, if_neg h1, if_neg hr.2.2.1, ih _ (fun s hs => h s (by simp [hs]))]
    simp

theorem resolve_append (a b st : List GoString) :
    resolve st (a ++ b) = resolve (resolve st a) b := by
  induction a generalizing st with
  | nil => simp [resolve]
  | cons seg a ih =>
    simp only [List.cons_append, resolve]
    split_ifs <;> exact ih _

theorem rootedBuf_reverse (st : List GoString) :
    (rootedBuf st).reverse = '/' :: joinWith '/' st.reverse := by
  induction st with
  | nil => rfl
  | cons s st ih =>
    cases st with
    | nil => simp [rootedBuf, joinWith]
    | cons s' st =>
      rw [rootedBuf, List.reverse_append, List.reverse_cons, ih, List.reverse_cons (a := s),
        joinWith_append_singleton _ _ _ (by simp)]
      simp

theorem rootedBuf_length_pos (st : List GoString) : 0 < (rootedBuf st).length := by
  cases st with
  | nil => simp [rootedBuf]
  | cons s st => cases st <;> simp [rootedBuf]

theorem rootedBuf_length_cons (s : GoString) (st : List GoString) (hs : s ≠ []) :
    1 < (rootedBuf (s :: st)).length := by
  have : 0 < s.length := List.length_pos.2 hs
  cases st with
  | nil => simp [rootedBuf]; omega
  | cons s' st => simp [rootedBuf]; omega

theorem backtrack_to_root (u : List Char) : ∀ c : Char, c ≠ '/' → '/' ∉ u →
    backtrack 1 c (u ++ ['/']) = ['/'] := by
  induction u with
  | nil => intro c _ _; simp [backtrack]
  | cons x u ih =>
    intro c hc hu
    simp only [List.mem_cons, not_or] at hu
    rw [List.cons_append, backtrack, if_pos ⟨by simp, hc⟩]
    exact ih x (fun e => hu.1 e.symm) hu.2

theorem backtrack_elem (u B : List Char) (hB : B ≠ []) : ∀ c : Char, c ≠ '/' → '/' ∉ u →
    backtrack 1 c (u ++ '/' :: B) = B := by
  induction u with
  | nil =>
    intro c hc _
    have hlen : 0 < B.length := List.length_pos.2 hB
    rw [List.nil_append, backtrack, if_pos ⟨by simp; omega, hc⟩]
    cases B with
    | nil => exact absurd rfl hB
    | cons b B => simp [backtrack]
  | cons x u ih =>
    intro c hc hu
    simp only [List.mem_cons, not_or] at hu
    rw [List.cons_append, backtrack, if_pos ⟨by simp, hc⟩]
    exact ih x (fun e => hu.1 e.symm) hu.2

/-- The `..` case pops the newest element of a rooted buffer. -/
theorem rootedBuf_pop (s : GoString) (st : List GoString) (hs : s ≠ []) (hsl : '/' ∉ s) :
    ∃ c out', rootedBuf (s :: st) = c :: out' ∧ backtrack 1 c out' = rootedBuf st := by
  obtain ⟨u, c, hu⟩ : ∃ u c, s = u ++ [c] := by
    rcases List.eq_nil_or_concat s with h | ⟨u, c, h⟩
    · exact absurd h hs
    · exact ⟨u, c, by simpa using h⟩
  have hc : c ≠ '/' := by
    intro e; apply hsl; simp [hu, e]
  have hur : '/' ∉ u.reverse := by
    intro e; apply hsl; rw [hu]; simp at e; simp [e]
  cases st with
  | nil =>
    refine ⟨c, u.reverse ++ ['/'], by simp [rootedBuf, hu], ?_⟩
    simpa [rootedBuf] using backtrack_to_root u.reverse c hc hur
  | cons s' st =>
    refine ⟨c, u.reverse ++ '/' :: rootedBuf (s' :: st), by simp [rootedBuf, hu], ?_⟩
    exact backtrack_elem _ _ (List.ne_nil_of_length_pos (rootedBuf_length_pos _)) c hc hur

theorem cleanLoop_nil (rooted : Bool) (fuel : Nat) (out : List Char) (dotdot : Nat) :
    cleanLoop rooted fuel [] out dotdot = out := by
  cases fuel <;> simp [cleanLoop]

theorem cleanLoop_succ_cons (rooted : Bool) (fuel : Nat) (c : Char) (t out : List Char)
    (dotdot : Nat) :
    cleanLoop rooted (fuel + 1) (c :: t) out dotdot =
      if c = '/' then cleanLoop rooted fuel t out dotdot
      else if c = '.' ∧ (t = [] ∨ t.head? = some '/') then cleanLoop rooted fuel t out dotdot
      else if c = '.' ∧ t.head? = some '.' ∧ (t.tail = [] ∨ t.tail.head? = some '/') then
        if out.length > dotdot then
          match out with
          | [] => cleanLoop rooted fuel t.tail out dotdot
          | c' :: out' => cleanLoop rooted fuel t.tail (backtrack dotdot c' out') dotdot
        else if !rooted then
          cleanLoop rooted fuel t.tail
            ('.' :: '.' :: (if out.length > 0 then '/' :: out else out))
            ('.' :: '.' :: (if out.length > 0 then '/' :: out else out)).length
        else cleanLoop rooted fuel t.tail out dotdot
      else
        cleanLoop rooted fuel ((c :: t).dropWhile (fun x => x != '/'))
          (((c :: t).takeWhile (fun x => x != '/')).reverse ++
            (if (rooted ∧ out.length ≠ 1) ∨ (!rooted ∧ out.length ≠ 0) then '/' :: out
             else out)) dotdot := by
  rfl

theorem Split_eq_takeWhile (rest : List Char) :
    Split '/' rest = rest.takeWhile (fun x => x != '/') :: restSegs rest := by
  induction rest with
  | nil => rfl
  | cons c t ih =>
    by_cases hc : c = '/'
    · subst hc
      simp [Split_cons_sep, restSegs]
    · obtain ⟨seg, segs, h1, h2⟩ := Split_cons_of_ne hc t
      rw [h2]
      rw [h1] at ih
      simp only [List.cons.injEq] at ih
      have hb : (c != '/') = true := by simpa using hc
      simp [List.takeWhile_cons, List.dropWhile_cons, hb, restSegs, ih.1, ih.2]

theorem resolve_Split_dropWhile (rest : List Char) (st : List GoString) :
    resolve st (Split '/' (rest.dropWhile (fun x => x != '/'))) = resolve st (restSegs rest) := by
  unfold restSegs
  rcases h : rest.dropWhile (fun x => x != '/') with _ | ⟨d, t⟩
  · simp [Split, resolve]
  · have hd : d = '/' := by
      have := List.head_dropWhile_not (fun x => x != '/') rest (by simp [h])
      simpa [h] using this
    subst hd
    simp [Split_cons_sep, resolve]

theorem takeWhile_not_mem (rest : List Char) : '/' ∉ rest.takeWhile (fun x => x != '/') := by
  intro h
  have := List.mem_takeWhile_imp h
  simp at this

/-- What the main loop of `Clean` computes on a rooted path. -/
theorem cleanLoop_rooted (fuel : Nat) : ∀ (rest : List Char) (st : List GoString),
    rest.length ≤ fuel → (∀ s ∈ st, s ≠ [] ∧ '/' ∉ s) →
    cleanLoop true fuel rest (rootedBuf st) 1 = rootedBuf (resolve st (Split '/' rest)) := by
  induction fuel with
  | zero =>
    intro rest st hlen _
    have : rest = [] := List.length_eq_zero.1 (Nat.le_zero.1 hlen)
    subst this
    simp [cleanLoop, Split, resolve]
  | succ fuel ih =>
    intro rest st hlen hst
    cases rest with
    | nil => simp [cleanLoop, Split, resolve]
    | cons c t =>
      have hlen' : t.length ≤ fuel := by simpa using hlen
      rw [cleanLoop_succ_cons]
      by_cases h1 : c = '/'
      · -- empty path element
        rw [if_pos h1]
        subst h1
        rw [ih t st hlen' hst, Split_cons_sep]
        simp [resolve]
      rw [if_neg h1]
      by_cases h2 : c = '.' ∧ (t = [] ∨ t.head? = some '/')
      · -- . element
        rw [if_pos h2]
        obtain ⟨hc, ht⟩ := h2
        subst hc
        rw [ih t st hlen' hst]
        rcases ht with ht | ht
        · subst ht; simp [Split, resolve]
        · cases t with
          | nil => simp at ht
          | cons d t' =>
            simp at ht; subst ht
            have : Split '/' ('.' :: '/' :: t') = ['.'] :: Split '/' t' :=
              Split_append_sep '/' ['.'] t'
            rw [this, Split_cons_sep]
            simp [resolve]
      rw [if_neg h2]
      by_cases h3 : c = '.' ∧ t.head? = some '.' ∧ (t.tail = [] ∨ t.tail.head? = some '/')
      · -- .. element
        rw [if_pos h3]
        obtain ⟨hc, ht, ht2⟩ := h3
        subst hc
        cases t with
        | nil => simp at ht
        | cons d t2 =>
          simp at ht; subst ht
          have hsplit : resolve st (Split '/' ('.' :: '.' :: t2))
              = resolve st.tail (Split '/' t2) := by
            simp only [List.tail_cons] at ht2
            rcases ht2 with ht2 | ht2
            · subst ht2; simp [Split, resolve]
            · cases t2 with
              | nil => simp at ht2
              | cons e t3 =>
                simp at ht2; subst ht2
                have : Split '/' ('.' :: '.' :: '/' :: t3) = ['.', '.'] :: Split '/' t3 :=
                  Split_append_sep '/' ['.', '.'] t3
                rw [this, Split_cons_sep]
                simp [resolve]
          have hlen2 : t2.length ≤ fuel := by simp at hlen'; omega
          rw [hsplit]
          simp only [List.tail_cons]
          cases st with
          | nil =>
            -- at the root: nothing to remove
            have h4 : ¬ (rootedBuf []).length > 1 := by simp [rootedBuf]
            rw [if_neg h4, if_neg (by simp)]
            exact ih t2 [] hlen2 hst
          | cons s st' =>
            -- can backtrack
            obtain ⟨c', out', hbuf, hback⟩ := rootedBuf_pop s st' (hst s (by simp)).1
              (hst s (by simp)).2
            rw [if_pos (rootedBuf_length_cons s st' (hst s (by simp)).1), hbuf]
            simp only []
            rw [hback]
            exact ih t2 st' hlen2 (fun x hx => hst x (by simp [hx]))
      rw [if_neg h3]
      -- real path element
      have hb : (c != '/') = true := by simpa using h1
      have htake : (c :: t).takeWhile (fun x => x != '/')
          = c :: t.takeWhile (fun x => x != '/') := by
        simp [List.takeWhile_cons, hb]
      have hdrop : (c :: t).dropWhile (fun x => x != '/')
          = t.dropWhile (fun x => x != '/') := by
        simp [List.dropWhile_cons, hb]
      have hseg1 : ¬ (c :: t.takeWhile (fun x => x != '/') = []
          ∨ c :: t.takeWhile (fun x => x != '/') = ['.']) := by
        rintro (e | e)
        · simp at e
        · simp only [List.cons.injEq] at e
          apply h2
          refine ⟨e.1, ?_⟩
          cases t with
          | nil => exact Or.inl rfl
          | cons d t' =>
            right
            by_cases hd : d = '/'
            · simp [hd]
            · have : (d != '/') = true := by simpa using hd
              simp [List.takeWhile_cons, this] at e
      have hseg2 : ¬ (c :: t.takeWhile (fun x => x != '/') = ['.', '.']) := by
        intro e
        simp only [List.cons.injEq] at e
        apply h3
        refine ⟨e.1, ?_⟩
        cases t with
        | nil => simp at e
        | cons d t' =>
          by_cases hd : d = '/'
          · simp [hd] at e
          · have hd' : (d != '/') = true := by simpa using hd
            simp only [List.takeWhile_cons, hd', if_true, List.cons.injEq] at e
            refine ⟨by simp [e.2.1], ?_⟩
            cases t' with
            | nil => exact Or.inl rfl
            | cons e' t'' =>
              right
              by_cases he : e' = '/'
              · simp [he]
              · have : (e' != '/') = true := by simpa using he
                simp [List.takeWhile_cons, this] at e
      have hout : (c :: t.takeWhile (fun x => x != '/')).reverse
            ++ (if (true = true ∧ (rootedBuf st).length ≠ 1)
                  ∨ ((!true) = true ∧ (rootedBuf st).length ≠ 0)
                then '/' :: rootedBuf st else rootedBuf st)
          = rootedBuf ((c :: t.takeWhile (fun x => x != '/')) :: st) := by
        cases st with
        | nil => simp [rootedBuf]
        | cons s st' =>
          have := rootedBuf_length_cons s st' (hst s (by simp)).1
          have hne : (rootedBuf (s :: st')).length ≠ 1 := by omega
          simp [rootedBuf, hne]
      rw [Split_eq_takeWhile, htake, resolve, if_neg hseg1, if_neg hseg2]
      rw [hout, ih]
      · rw [resolve_Split_dropWhile]
      · rw [hdrop]
        have := (List.dropWhile_sublist (l := t) (fun x => x != '/')).length_le
        omega
      · intro x hx
        rcases List.mem_cons.1 hx with hx | hx
        · subst hx
          refine ⟨by simp, ?_⟩
          rw [← htake]
          exact takeWhile_not_mem _
        · exact hst x hx

/-- `Clean` on a rooted path: `/` followed by the resolved elements joined
with `/`. -/
theorem Clean_rooted (t : List Char) :
    Clean ('/' :: t) = '/' :: joinWith '/' (resolve [] (Split '/' t)).reverse := by
  have h := cleanLoop_rooted (t.length + 1) t [] (by simp) (by simp)
  have hb : rootedBuf [] = ['/'] := rfl
  rw [hb] at h
  have hpos := rootedBuf_length_pos (resolve [] (Split '/' t))
  unfold Clean
  simp only [List.cons_ne_nil, if_false, List.head?_cons, if_true, List.length_cons,
    List.tail_cons, h]
  rw [if_neg (by omega), rootedBuf_reverse]

theorem Join_pair (root filepath : GoString) (h : root ≠ []) :
    Join [root, filepath] = Clean (root ++ '/' :: filepath) := by
  have hlen : 0 < root.length := List.length_pos.2 h
  unfold Join
  rw [if_neg (by simp; intro e; exact absurd e h)]
  simp [joinBuf, hlen, h]

theorem hasGitEntry_iff (l : List GoString) :
    hasGitEntry l = true ↔ ['.', 'g', 'i', 't'] ∈ l := by
  induction l with
  | nil => simp [hasGitEntry]
  | cons a l ih =>
    have e : ".git".toList = ['.', 'g', 'i', 't'] := rfl
    unfold hasGitEntry
    rw [e]
    by_cases h : a = ['.', 'g', 'i', 't']
    · simp [h]
    · rw [if_neg h, ih]
      simp [Ne.symm h]

theorem HasPrefix_iff (s pre : GoString) : HasPrefix s pre = true ↔ pre <+: s := by
  unfold HasPrefix
  exact List.isPrefixOf_iff_prefix

theorem HasSuffix_iff (s suf : GoString) : HasSuffix s suf = true ↔ suf <:+ s := by
  unfold HasSuffix
  exact List.isSuffixOf_iff_suffix

/-- The resolved elements of a rooted path. -/
theorem resolve_Split_real (t : List Char) (st : List GoString) (hst : ∀ s ∈ st, RealElem s) :
    ∀ s ∈ resolve st (Split '/' t), RealElem s :=
  resolve_all_real _ st hst (fun _ hs => not_mem_of_mem_Split hs)

/-- An entry that the guard lets through: none of the three early returns
fired and the cleaned path starts with the destination directory. -/
theorem accepted_iff (filepath destinationDir : GoString) :
    (isPotentiallyMaliciousFilepathInArchive filepath destinationDir).2 = false ↔
      HasSuffix filepath ['/'] = false ∧ HasPrefix filepath ['/'] = false ∧
      hasGitEntry (Split PathSeparator filepath) = false ∧
      HasPrefix (Join [destinationDir, filepath]) destinationDir = true := by
  unfold isPotentiallyMaliciousFilepathInArchive
  by_cases h1 : HasSuffix filepath ['/'] = true
  · simp [h1]
  by_cases h2 : HasPrefix filepath ['/'] = true
  · simp [h2]
  by_cases h3 : hasGitEntry (Split PathSeparator filepath) = true
  · simp [h3]
  by_cases h4 : HasPrefix (Join [destinationDir, filepath]) destinationDir = true
  · simp [h1, h2, h3, h4]
  · simp [h1, h2, h3, h4]

theorem accepted_output (filepath destinationDir : GoString)
    (h : (isPotentiallyMaliciousFilepathInArchive filepath destinationDir).2 = false) :
    (isPotentiallyMaliciousFilepathInArchive filepath destinationDir).1
      = Join [destinationDir, filepath] := by
  have h' := (accepted_iff filepath destinationDir).1 h
  unfold isPotentiallyMaliciousFilepathInArchive
  simp [h'.1, h'.2.1, h'.2.2.1, h'.2.2.2]

theorem Split_nil_not_mem_of_real {t : List Char} (h : ∀ seg ∈ Split '/' t, seg ≠ []) :
    t ≠ [] := by
  intro e
  subst e
  exact h [] (by simp [Split]) rfl

/-- C1: for every absolute path `P` (in particular every clean one) and every
archive entry name, if `isPotentiallyMaliciousFilepathInArchive` accepts the
entry for the destination root `P/`, the output path is the root followed by
a non-empty relative path none of whose `/`-separated segments is empty, `.`
or `..`. -/
theorem accepted_output_strictly_inside (P filepath : GoString)
    (habs : HasPrefix P ['/'] = true)
    (hacc : (isPotentiallyMaliciousFilepathInArchive filepath (P ++ ['/'])).2 = false) :
    ∃ rel : GoString,
      (isPotentiallyMaliciousFilepathInArchive filepath (P ++ ['/'])).1 = (P ++ ['/']) ++ rel ∧
      rel ≠ [] ∧
      ∀ seg ∈ Split '/' rel, seg ≠ [] ∧ seg ≠ ".".toList ∧ seg ≠ "..".toList := by
  have hout := accepted_output filepath _ hacc
  have h4 := ((accepted_iff filepath _).1 hacc).2.2.2
  obtain ⟨P', hP⟩ : ∃ P', P = '/' :: P' := by
    rw [HasPrefix_iff] at habs
    obtain ⟨r, hr⟩ := habs
    exact ⟨r, by simpa using hr.symm⟩
  subst hP
  rw [HasPrefix_iff] at h4
  obtain ⟨rel, hrel⟩ := h4
  have hjoin : Join ['/' :: P' ++ ['/'], filepath]
      = '/' :: joinWith '/' (resolve [] (Split '/' (P' ++ '/' :: '/' :: filepath))).reverse := by
    rw [Join_pair _ _ (by simp)]
    have : ('/' :: P' ++ ['/']) ++ '/' :: filepath = '/' :: (P' ++ '/' :: '/' :: filepath) := by
      simp
    rw [this, Clean_rooted]
  set L := (resolve [] (Split '/' (P' ++ '/' :: '/' :: filepath))).reverse with hL
  have hreal : ∀ s ∈ L, RealElem s := by
    intro s hs
    exact resolve_Split_real _ [] (by simp) s (by simpa [hL] using hs)
  refine ⟨rel, by rw [hout, hrel], ?_⟩
  -- the segments of the output path
  have hsplit : Split '/' P' ++ Split '/' rel = L := by
    have h1 : '/' :: P' ++ ['/'] ++ rel = '/' :: joinWith '/' L := by rw [hrel, hjoin]
    have h2 : P' ++ '/' :: rel = joinWith '/' L := by simpa using h1
    have hLne : L ≠ [] := by
      intro e
      rw [e] at h2
      simp [joinWith] at h2
    have := congrArg (Split '/') h2
    rw [Split_append_sep, Split_joinWith L hLne (fun s hs => (hreal s hs).2.2.2)] at this
    exact this
  have hall : ∀ seg ∈ Split '/' rel, seg ≠ [] ∧ seg ≠ ".".toList ∧ seg ≠ "..".toList := by
    intro seg hseg
    have hr := hreal seg (by rw [← hsplit]; exact List.mem_append_right _ hseg)
    exact ⟨hr.1, hr.2.1, hr.2.2.1⟩
  exact ⟨Split_nil_not_mem_of_real (fun seg hseg => (hall seg hseg).1), hall⟩

/-- Witness of C1: the entry `a/b` under the root `/tmp/x/`. -/
theorem accepted_output_strictly_inside_witness :
    ∃ rel : GoString,
      (isPotentiallyMaliciousFilepathInArchive "a/b".toList ("/tmp/x".toList ++ ['/'])).1
        = ("/tmp/x".toList ++ ['/']) ++ rel ∧
      rel ≠ [] ∧
      ∀ seg ∈ Split '/' rel, seg ≠ [] ∧ seg ≠ ".".toList ∧ seg ≠ "..".toList :=
  accepted_output_strictly_inside "/tmp/x".toList "a/b".toList (by decide) (by decide)

/-- C3: an entry name that ends with `/`, or begins with `/`, or has a
`/`-separated segment equal to `.git`, is rejected for every destination
directory: the result is the empty output path together with `true`. -/
theorem directory_absolute_git_rejected (filepath destinationDir : GoString)
    (h : HasSuffix filepath "/".toList = true ∨ HasPrefix filepath "/".toList = true ∨
      ".git".toList ∈ Split '/' filepath) :
    isPotentiallyMaliciousFilepathInArchive filepath destinationDir = ([], true) := by
  have e1 : "/".toList = ['/'] := rfl
  have e2 : ".git".toList = ['.', 'g', 'i', 't'] := rfl
  rw [e1, e2] at h
  unfold isPotentiallyMaliciousFilepathInArchive
  by_cases h1 : HasSuffix filepath ['/'] = true
  · simp [h1]
  by_cases h2 : HasPrefix filepath ['/'] = true
  · simp [h1, h2]
  have h3 : hasGitEntry (Split PathSeparator filepath) = true := by
    rw [hasGitEntry_iff]
    rcases h with h | h | h
    · exact absurd h h1
    · exact absurd h h2
    · exact h
  simp [h1, h2, h3]

/-- Witness of C3: the entry `src/.git/config`. -/
theorem directory_absolute_git_rejected_witness :
    isPotentiallyMaliciousFilepathInArchive "src/.git/config".toList "/tmp/x/".toList
      = ([], true) :=
  directory_absolute_git_rejected "src/.git/config".toList "/tmp/x/".toList
    (Or.inr (Or.inr (by decide)))

theorem not_HasSuffix_sep_of_Split {t : List Char} (h : ∀ seg ∈ Split '/' t, seg ≠ []) :
    HasSuffix t ['/'] = false := by
  rw [Bool.eq_false_iff]
  intro hs
  rw [HasSuffix_iff] at hs
  obtain ⟨x, hx⟩ := hs
  apply h [] _ rfl
  have : t = x ++ '/' :: [] := hx.symm
  rw [this, Split_append_sep]
  simp [Split]

theorem not_HasPrefix_sep_of_Split {t : List Char} (h : ∀ seg ∈ Split '/' t, seg ≠ []) :
    HasPrefix t ['/'] = false := by
  rw [Bool.eq_false_iff]
  intro hs
  rw [HasPrefix_iff] at hs
  obtain ⟨x, hx⟩ := hs
  apply h [] _ rfl
  have : t = '/' :: x := by simpa using hx.symm
  rw [this, Split_cons_sep]
  simp

/-- A clean absolute path is `/` followed by real elements joined with `/`. -/
theorem clean_absolute_shape (P : GoString) (hclean : Clean P = P)
    (habs : HasPrefix P ['/'] = true) :
    ∃ L : List GoString, (∀ s ∈ L, RealElem s) ∧ P = '/' :: joinWith '/' L := by
  obtain ⟨P', hP⟩ : ∃ P', P = '/' :: P' := by
    rw [HasPrefix_iff] at habs
    obtain ⟨r, hr⟩ := habs
    exact ⟨r, by simpa using hr.symm⟩
  subst hP
  rw [Clean_rooted] at hclean
  refine ⟨(resolve [] (Split '/' P')).reverse, ?_, hclean.symm⟩
  intro s hs
  exact resolve_Split_real _ [] (by simp) s (by simpa using hs)

theorem destinationDirectory_root : destinationDirectory ['/'] = ['/'] := by decide

theorem destinationDirectory_of_real (L : List GoString) (hL : ∀ s ∈ L, RealElem s)
    (hne : L ≠ []) :
    destinationDirectory ('/' :: joinWith '/' L) = '/' :: joinWith '/' L ++ ['/'] := by
  have hs : ∀ seg ∈ Split '/' (joinWith '/' L), seg ≠ [] := by
    rw [Split_joinWith L hne (fun s hs => (hL s hs).2.2.2)]
    exact fun s hs => (hL s hs).1
  have h1 : HasSuffix ('/' :: joinWith '/' L) ['/'] = false := by
    rw [Bool.eq_false_iff]
    intro h
    rw [HasSuffix_iff] at h
    obtain ⟨x, hx⟩ := h
    have hne' : joinWith '/' L ≠ [] := Split_nil_not_mem_of_real hs
    have : ['/'] <:+ joinWith '/' L := by
      cases x with
      | nil => simp at hx; exact absurd hx hne'
      | cons a x =>
        simp at hx
        exact ⟨x, hx.2⟩
    have h2 := not_HasSuffix_sep_of_Split hs
    rw [Bool.eq_false_iff] at h2
    exact h2 ((HasSuffix_iff _ _).2 this)
  unfold destinationDirectory TrimSuffix PathSeparator
  rw [h1]
  simp

/-- C4: for the destination root that `unzipJarFile` builds from a clean
absolute path and every entry name whose `/`-separated segments are all
non-empty and none of `.`, `..`, `.git`, the guard accepts the entry and
returns exactly the root concatenated with the entry name. -/
theorem benign_entry_accepted_unchanged (P filepath : GoString)
    (hclean : Clean P = P) (habs : HasPrefix P "/".toList = true)
    (hsegs : ∀ seg ∈ Split '/' filepath,
      seg ≠ [] ∧ seg ≠ ".".toList ∧ seg ≠ "..".toList ∧ seg ≠ ".git".toList) :
    isPotentiallyMaliciousFilepathInArchive filepath (destinationDirectory P)
      = (destinationDirectory P ++ filepath, false) := by
  obtain ⟨L, hL, hP⟩ := clean_absolute_shape P hclean habs
  have hS : ∀ seg ∈ Split '/' filepath, RealElem seg := fun seg hseg =>
    ⟨(hsegs seg hseg).1, (hsegs seg hseg).2.1, (hsegs seg hseg).2.2.1,
      not_mem_of_mem_Split hseg⟩
  have hS0 : ∀ seg ∈ Split '/' filepath, seg ≠ [] := fun seg hseg => (hsegs seg hseg).1
  have h1 := not_HasSuffix_sep_of_Split hS0
  have h2 := not_HasPrefix_sep_of_Split hS0
  have h3 : hasGitEntry (Split PathSeparator filepath) = false := by
    rw [Bool.eq_false_iff, Ne, hasGitEntry_iff]
    intro h
    exact (hsegs _ h).2.2.2 rfl
  have hSne : Split '/' filepath ≠ [] := Split_ne_nil _ _
  -- the cleaned join
  have hjoin : Join [destinationDirectory P, filepath] = destinationDirectory P ++ filepath := by
    subst hP
    by_cases hne : L = []
    · subst hne
      have : destinationDirectory ('/' :: joinWith '/' []) = ['/'] := destinationDirectory_root
      rw [this, Join_pair _ _ (by simp)]
      have e : ['/'] ++ '/' :: filepath = '/' :: ('/' :: filepath) := rfl
      rw [e, Clean_rooted, Split_cons_sep, resolve, if_pos (Or.inl rfl), resolve_real _ _ hS]
      simp [joinWith_Split]
    · rw [destinationDirectory_of_real L hL hne, Join_pair _ _ (by simp)]
      have e : ('/' :: joinWith '/' L ++ ['/']) ++ '/' :: filepath
          = '/' :: (joinWith '/' L ++ '/' :: '/' :: filepath) := by simp
      rw [e, Clean_rooted, Split_append_sep, Split_cons_sep,
        Split_joinWith L hne (fun s hs => (hL s hs).2.2.2), resolve_append, resolve_real _ _ hL,
        resolve, if_pos (Or.inl rfl), resolve_real _ _ hS]
      simp only [List.append_nil, List.reverse_append, List.reverse_reverse]
      rw [joinWith_append _ _ _ hne hSne, joinWith_Split]
      simp
  have h4 : HasPrefix (Join [destinationDirectory P, filepath]) (destinationDirectory P)
      = true := by
    rw [hjoin, HasPrefix_iff]
    exact List.prefix_append _ _
  have h4' : HasPrefix (destinationDirectory P ++ filepath) (destinationDirectory P)
      = true := by rw [← hjoin]; exact h4
  unfold isPotentiallyMaliciousFilepathInArchive
  simp only [h1, h2, h3, hjoin, h4']
  simp

/-- Witness of C4: the entry `com/example/Main.java` under `/tmp/maven1`. -/
theorem benign_entry_accepted_unchanged_witness :
    isPotentiallyMaliciousFilepathInArchive "com/example/Main.java".toList
        (destinationDirectory "/tmp/maven1".toList)
      = (destinationDirectory "/tmp/maven1".toList ++ "com/example/Main.java".toList, false) :=
  benign_entry_accepted_unchanged "/tmp/maven1".toList "com/example/Main.java".toList
    (by decide) (by decide) (by decide)

/-! ### Cleaning a rooted path never makes it longer -/

theorem joinWith_length_add_one (sep : Char) (xs : List GoString) (hne : xs ≠ []) :
    (joinWith sep xs).length + 1 = (xs.map (fun s => s.length + 1)).sum := by
  induction xs with
  | nil => exact absurd rfl hne
  | cons x rest ih =>
    cases rest with
    | nil => simp [joinWith]
    | cons x' rest =>
      have := ih (by simp)
      simp only [joinWith, List.length_append, List.length_cons, List.map_cons,
        List.sum_cons] at this ⊢
      omega

theorem Split_weight (sep : Char) (t : List Char) :
    ((Split sep t).map (fun s => s.length + 1)).sum = t.length + 1 := by
  have h := joinWith_length_add_one sep (Split sep t) (Split_ne_nil sep t)
  rw [joinWith_Split] at h
  exact h.symm

theorem tail_weight_le (st : List GoString) :
    (st.tail.map (fun s => s.length + 1)).sum ≤ (st.map (fun s => s.length + 1)).sum := by
  cases st with
  | nil => simp
  | cons a st => simp

theorem resolve_weight_le (segs : List GoString) : ∀ st : List GoString,
    ((resolve st segs).map (fun s => s.length + 1)).sum
      ≤ (st.map (fun s => s.length + 1)).sum + (segs.map (fun s => s.length + 1)).sum := by
  induction segs with
  | nil => intro st; simp [resolve]
  | cons seg segs ih =>
    intro st
    unfold resolve
    split_ifs
    · have := ih st
      simp only [List.map_cons, List.sum_cons]
      omega
    · have := ih st.tail
      have := tail_weight_le st
      simp only [List.map_cons, List.sum_cons]
      omega
    · have := ih (seg :: st)
      simp only [List.map_cons, List.sum_cons] at this ⊢
      omega

theorem resolve_dots_weight_le (segs : List GoString)
    (h : ∀ seg ∈ segs, seg = [] ∨ seg = ['.'] ∨ seg = ['.', '.']) : ∀ st : List GoString,
    ((resolve st segs).map (fun s => s.length + 1)).sum
      ≤ (st.map (fun s => s.length + 1)).sum := by
  induction segs with
  | nil => intro st; simp [resolve]
  | cons seg segs ih =>
    intro st
    have ih' := ih (fun s hs => h s (by simp [hs]))
    unfold resolve
    split_ifs with h1 h2
    · exact ih' st
    · exact le_trans (ih' st.tail) (tail_weight_le st)
    · rcases h seg (by simp) with e | e | e
      · exact absurd (Or.inl e) h1
      · exact absurd (Or.inr e) h1
      · exact absurd e h2

theorem joinWith_length_le (sep : Char) (xs : List GoString) :
    (joinWith sep xs).length ≤ (xs.map (fun s => s.length + 1)).sum - 1 := by
  by_cases hne : xs = []
  · subst hne; simp [joinWith]
  · have := joinWith_length_add_one sep xs hne
    omega

/-- Under an absolute root `P/`, a name made only of `.`, `..` and empty
segments cleans to a path shorter than the root. -/
theorem dots_join_short (P' filepath : List Char)
    (h : ∀ seg ∈ Split '/' filepath, seg = [] ∨ seg = ['.'] ∨ seg = ['.', '.']) :
    (Join ['/' :: P' ++ ['/'], filepath]).length ≤ P'.length + 1 := by
  rw [Join_pair _ _ (by simp)]
  have e : ('/' :: P' ++ ['/']) ++ '/' :: filepath = '/' :: (P' ++ '/' :: '/' :: filepath) := by
    simp
  rw [e, Clean_rooted, Split_append_sep, Split_cons_sep, resolve_append]
  have hdots : ∀ seg ∈ [] :: Split '/' filepath, seg = [] ∨ seg = ['.'] ∨ seg = ['.', '.'] := by
    intro seg hseg
    rcases List.mem_cons.1 hseg with hs | hs
    · exact Or.inl hs
    · exact h seg hs
  have h1 := resolve_dots_weight_le _ hdots (resolve [] (Split '/' P'))
  have h2 := resolve_weight_le (Split '/' P') []
  rw [Split_weight] at h2
  have h3 := joinWith_length_le '/'
    (resolve (resolve [] (Split '/' P')) ([] :: Split '/' filepath)).reverse
  rw [List.map_reverse, List.sum_reverse] at h3
  simp only [List.map_nil, List.sum_nil, zero_add] at h2
  simp only [List.length_cons]
  omega

/-- Counterexample to C2: under the root `/tmp/x/` the entry `a/../b` has a
`..` segment, yet the guard accepts it and returns `/tmp/x/b`. -/
theorem dotdot_segment_accepted :
    HasSuffix "/tmp/x/".toList "/".toList = true ∧
    "..".toList ∈ Split '/' "a/../b".toList ∧
    isPotentiallyMaliciousFilepathInArchive "a/../b".toList "/tmp/x/".toList
      = ("/tmp/x/b".toList, false) := by
  decide

/-- C2 (amended): an entry is rejected whenever its path, joined with the
destination root and cleaned, does not start with the root; for an absolute
root `P/` this is the case for every entry name made only of `..` and `.`
segments. -/
theorem escaping_entry_rejected (root filepath : GoString)
    (h : HasPrefix (Join [root, filepath]) root = false ∨
      ((∃ P : GoString, HasPrefix P "/".toList = true ∧ root = P ++ "/".toList) ∧
        ∀ seg ∈ Split '/' filepath, seg = "..".toList ∨ seg = ".".toList)) :
    isPotentiallyMaliciousFilepathInArchive filepath root = ([], true) := by
  have key : HasPrefix (Join [root, filepath]) root = false := by
    rcases h with h | ⟨⟨P, habs, hroot⟩, hdots⟩
    · exact h
    · have e1 : "/".toList = ['/'] := rfl
      rw [e1] at habs hroot
      obtain ⟨P', hP⟩ : ∃ P', P = '/' :: P' := by
        rw [HasPrefix_iff] at habs
        obtain ⟨r, hr⟩ := habs
        exact ⟨r, by simpa using hr.symm⟩
      subst hP
      subst hroot
      have hlen := dots_join_short P' filepath (fun seg hseg => by
        rcases hdots seg hseg with e | e
        · exact Or.inr (Or.inr e)
        · exact Or.inr (Or.inl e))
      rw [Bool.eq_false_iff]
      intro hp
      rw [HasPrefix_iff] at hp
      have := hp.length_le
      simp only [List.length_append, List.length_cons, List.length_nil] at this
      omega
  unfold isPotentiallyMaliciousFilepathInArchive
  by_cases h1 : HasSuffix filepath ['/'] = true
  · simp [h1]
  by_cases h2 : HasPrefix filepath ['/'] = true
  · simp [h1, h2]
  by_cases h3 : hasGitEntry (Split PathSeparator filepath) = true
  · simp [h1, h2, h3]
  simp [h1, h2, h3, key]

/-- Witness of C2 (amended): the entry `../..` under the root `/tmp/x/`. -/
theorem escaping_entry_rejected_witness :
    isPotentiallyMaliciousFilepathInArchive "../..".toList "/tmp/x/".toList = ([], true) :=
  escaping_entry_rejected "/tmp/x/".toList "../..".toList
    (Or.inr ⟨⟨"/tmp/x".toList, by decide, by decide⟩, by decide⟩)

/-! ## The steps of `gitPushDependencyTag` -/

theorem runCommandInDirectory_eq (rt : Runtime) (cmd : Cmd) (dir : GoString)
    (dep : PackageDependency) (w : World) :
    runCommandInDirectory rt cmd dir dep w =
      match rt.runError w.trace.length (located cmd dir dep) with
      | some err =>
        (Except.error (GoError.wrapf err "command %s failed with output %s".toList
            [formatArgs cmd.Args, rt.failOutput w.trace.length (located cmd dir dep)]),
          { w with trace := w.trace ++ [Event.run (located cmd dir dep) true] })
      | none =>
        if gitRefuses cmd then
          (Except.error (GoError.wrapf (GoError.base "fatal: not a valid tag name".toList false)
              "command %s failed with output %s".toList
              [formatArgs cmd.Args, rt.failOutput w.trace.length (located cmd dir dep)]),
            { w with trace := w.trace ++ [Event.run (located cmd dir dep) true] })
        else
          (Except.ok (gitEffect rt cmd w).1,
            { (gitEffect rt cmd w).2 with
              trace := w.trace ++ [Event.run (located cmd dir dep) false] }) := by
  have h1 : gitRefuses (located cmd dir dep) = gitRefuses cmd := rfl
  have h2 : gitEffect rt (located cmd dir dep) w = gitEffect rt cmd w := rfl
  unfold runCommandInDirectory runWith
  show (match (match rt.runError w.trace.length (located cmd dir dep) with
      | some err =>
        ((rt.failOutput w.trace.length (located cmd dir dep), some err),
          { w with trace := w.trace ++ [Event.run (located cmd dir dep) true] })
      | none =>
        if gitRefuses (located cmd dir dep) then
          ((rt.failOutput w.trace.length (located cmd dir dep),
              some (GoError.base "fatal: not a valid tag name".toList false)),
            { w with trace := w.trace ++ [Event.run (located cmd dir dep) true] })
        else
          (((gitEffect rt (located cmd dir dep) w).1, none),
            { (gitEffect rt (located cmd dir dep) w).2 with
              trace := w.trace ++ [Event.run (located cmd dir dep) false] })) with
    | ((output, some err), w') =>
      (Except.error (GoError.wrapf err "command %s failed with output %s".toList
        [formatArgs (located cmd dir dep).Args, output]), w')
    | ((output, none), w') => (Except.ok output, w')) = _
  rw [h1, h2]
  cases h : rt.runError w.trace.length (located cmd dir dep) with
  | some err => rfl
  | none =>
    simp only []
    split_ifs <;> rfl

/-- Reasoning about one step of a chain of commands: the step fails and
changes nothing, or `git` accepts the command and it has its effect. -/
theorem thenRun_step {P : Option GoError × World → Prop} (rt : Runtime) (cmd : Cmd)
    (dir : GoString) (dep : PackageDependency) (w : World)
    (k : GoString → World → Option GoError × World)
    (hfail : ∀ err w', w'.trace = w.trace ++ [Event.run (located cmd dir dep) true] →
      w'.tags = w.tags → w'.latest = w.latest → w'.scratch = w.scratch → P (some err, w'))
    (hok : gitRefuses cmd = false → ∀ w',
      w'.trace = w.trace ++ [Event.run (located cmd dir dep) false] →
      w'.tags = (gitEffect rt cmd w).2.tags → w'.latest = (gitEffect rt cmd w).2.latest →
      w'.scratch = (gitEffect rt cmd w).2.scratch → P (k (gitEffect rt cmd w).1 w')) :
    P (thenRun (runCommandInDirectory rt cmd dir dep w) k) := by
  rw [runCommandInDirectory_eq]
  cases h : rt.runError w.trace.length (located cmd dir dep) with
  | some err => exact hfail _ _ rfl rfl rfl rfl
  | none =>
    simp only []
    by_cases hr : gitRefuses cmd = true
    · rw [if_pos hr]; exact hfail _ _ rfl rfl rfl rfl
    · rw [if_neg hr]
      exact hok (by simpa using hr) _ rfl rfl rfl rfl

theorem pushCalls_append (a b : List Event) : pushCalls (a ++ b) = pushCalls a ++ pushCalls b := by
  induction a with
  | nil => rfl
  | cons e a ih => cases e <;> simp [pushCalls, ih]

theorem deleteAttempts_append (a b : List Event) :
    deleteAttempts (a ++ b) = deleteAttempts a ++ deleteAttempts b := by
  induction a with
  | nil => rfl
  | cons e a ih =>
    cases e with
    | run cmd failed =>
      simp only [List.cons_append, deleteAttempts]
      cases deleteTarget cmd <;> simp [ih]
    | _ => simp [deleteAttempts, ih]

theorem Mid.refl (w : World) : Mid w w := ⟨[], by simp, rfl, rfl, by simp⟩

theorem Mid.run {w0 w w' : World} {cmd : Cmd} (h : Mid w0 w)
    (ht : w'.trace = w.trace ++ [Event.run cmd false]) (hd : deleteTarget cmd = none) :
    Mid w0 w' := by
  obtain ⟨evs, h1, h2, h3, h4⟩ := h
  refine ⟨evs ++ [Event.run cmd false], by rw [ht, h1, List.append_assoc], ?_, ?_, ?_⟩
  · rw [pushCalls_append, h2]; rfl
  · rw [deleteAttempts_append, h3]; simp [deleteAttempts, hd]
  · intro e he
    rcases List.mem_append.1 he with he | he
    · exact h4 e he
    · simp at he; subst he; rfl

theorem Mid.download {w0 w w' : World} {dep : PackageDependency} (h : Mid w0 w)
    (ht : w'.trace = w.trace ++ [Event.download dep false]) : Mid w0 w' := by
  obtain ⟨evs, h1, h2, h3, h4⟩ := h
  refine ⟨evs ++ [Event.download dep false], by rw [ht, h1, List.append_assoc], ?_, ?_, ?_⟩
  · rw [pushCalls_append, h2]; rfl
  · rw [deleteAttempts_append, h3]; rfl
  · intro e he
    rcases List.mem_append.1 he with he | he
    · exact h4 e he
    · simp at he; subst he; rfl

/-- A step that fails ends `gitPushDependencyTag`. -/
theorem PushPost.fail {tag : GoString} {flag : Bool} {w0 w w' : World} {ev : Event}
    (h : Mid w0 w) (err : GoError) (ht : w'.trace = w.trace ++ [ev])
    (hf : ev.failed = true) (hp : pushCalls [ev] = []) (hd : deleteAttempts [ev] = [])
    (htags : w'.tags = w0.tags ∨ (validTagName tag = true ∧ w'.tags = withTag tag w0.tags))
    (hl : flag = false → w'.latest = w0.latest) :
    PushPost tag flag w0 (some err, w') := by
  obtain ⟨evs, h1, h2, h3, _⟩ := h
  refine ⟨evs ++ [ev], by simp [ht, h1], ?_, ?_, ?_, htags, by simp, by simp, hl⟩
  · rw [pushCalls_append, h2, hp]; rfl
  · rw [deleteAttempts_append, h3, hd]; rfl
  · simp only [false_iff, reduceCtorEq]
    intro hall
    have := hall ev (by simp)
    rw [hf] at this
    exact absurd this (by simp)

/-- The end of `gitPushDependencyTag` without an error. -/
theorem PushPost.done {tag : GoString} {flag : Bool} {w0 w : World} (h : Mid w0 w)
    (hv : validTagName tag = true) (htags : w.tags = withTag tag w0.tags)
    (hl1 : flag = true → w.latest = some tag) (hl2 : flag = false → w.latest = w0.latest) :
    PushPost tag flag w0 (none, w) := by
  obtain ⟨evs, h1, h2, h3, h4⟩ := h
  exact ⟨evs, h1, h2, h3, by simpa using h4, Or.inr ⟨hv, htags⟩, fun _ => ⟨hv, htags⟩,
    fun _ => hl1, hl2⟩

theorem gitPushDependencyTagIn_eq (ps : vcsDependenciesSyncer) (rt : Runtime)
    (bare workDir : GoString) (dep : PackageDependency) (flag : Bool) (w : World) :
    gitPushDependencyTagIn ps rt bare workDir dep flag w =
      match ps.syncer.Download workDir dep with
      | some err => (some err, { w with trace := w.trace ++ [Event.download dep true] })
      | none =>
        let git := "git".toList
        thenRun (runCommandInDirectory rt (CommandContext git ["init".toList]) workDir dep
          { w with trace := w.trace ++ [Event.download dep false] }) fun _ w =>
        thenRun (runCommandInDirectory rt (CommandContext git ["add".toList, ".".toList])
          workDir dep w) fun _ w =>
        thenRun (runCommandInDirectory rt (CommandContext git ["commit".toList,
          "--no-verify".toList, "-m".toList, dep.PackageManagerSyntax, "--date".toList,
          stableGitCommitDate]) workDir dep w) fun _ w =>
        thenRun (runCommandInDirectory rt (CommandContext git ["tag".toList,
          "-m".toList, dep.PackageManagerSyntax, dep.GitTagFromVersion]) workDir dep w) fun _ w =>
        thenRun (runCommandInDirectory rt (CommandContext git ["remote".toList, "add".toList,
          "origin".toList, bare]) workDir dep w) fun _ w =>
        thenRun (runCommandInDirectory rt (CommandContext git ["push".toList,
          "--no-verify".toList, "--force".toList, "origin".toList, "--tags".toList])
          workDir dep w) fun _ w =>
        if flag then
          thenRun (runCommandInDirectory rt (CommandContext git ["rev-parse".toList,
            "--abbrev-ref".toList, "HEAD".toList]) workDir dep w) fun defaultBranch w =>
          thenRun (runCommandInDirectory rt (CommandContext git ["push".toList,
            "--no-verify".toList, "--force".toList, "origin".toList,
            TrimSpace defaultBranch ++ ":latest".toList, dep.GitTagFromVersion])
            workDir dep w) fun _ w => (none, w)
        else (none, w) := by
  rfl

theorem withTag_of_mem {tag : GoString} {tags : List GoString} (h : tag ∈ tags) :
    withTag tag tags = tags := by
  simp [withTag, h]

theorem mem_withTag (tag t : GoString) (tags : List GoString) :
    t ∈ withTag tag tags ↔ t ∈ tags ∨ t = tag := by
  unfold withTag
  split_ifs with h
  · constructor
    · exact Or.inl
    · rintro (h' | h')
      · exact h'
      · subst h'; exact h
  · simp

theorem withTag_idem (tag : GoString) (tags : List GoString) :
    withTag tag (withTag tag tags) = withTag tag tags :=
  withTag_of_mem ((mem_withTag tag tag tags).2 (Or.inr rfl))

theorem gitPushDependencyTagIn_post (ps : vcsDependenciesSyncer) (rt : Runtime)
    (bare workDir : GoString) (dep : PackageDependency) (flag : Bool) (w0 w : World)
    (hmid : Mid w0 w) (htags : w.tags = w0.tags) (hlat : w.latest = w0.latest)
    (hs : w.scratch = []) :
    PushPost dep.GitTagFromVersion flag w0
      (gitPushDependencyTagIn ps rt bare workDir dep flag w) := by
  rw [gitPushDependencyTagIn_eq]
  cases hd : ps.syncer.Download workDir dep with
  | some err =>
    exact PushPost.fail hmid err rfl rfl rfl rfl (Or.inl htags) (fun _ => hlat)
  | none =>
    simp only []
    have hm0 : Mid w0 { w with trace := w.trace ++ [Event.download dep false] } :=
      hmid.download rfl
    -- git init
    refine thenRun_step rt _ workDir dep _ _
      (fun err w1 ht htg hl _ =>
        PushPost.fail hm0 err ht rfl rfl rfl (Or.inl (htg.trans htags))
          (fun _ => hl.trans hlat))
      (fun _ w1 ht1 htg1 hl1 hs1 => ?_)
    have hm1 : Mid w0 w1 := hm0.run ht1 rfl
    have htg1' : w1.tags = w0.tags := htg1.trans htags
    have hl1' : w1.latest = w0.latest := hl1.trans hlat
    have hs1' : w1.scratch = [] := hs1.trans hs
    -- git add .
    refine thenRun_step rt _ workDir dep _ _
      (fun err w2 ht htg hl _ =>
        PushPost.fail hm1 err ht rfl rfl rfl (Or.inl (htg.trans htg1'))
          (fun _ => hl.trans hl1'))
      (fun _ w2 ht2 htg2 hl2 hs2 => ?_)
    have hm2 : Mid w0 w2 := hm1.run ht2 rfl
    have htg2' : w2.tags = w0.tags := htg2.trans htg1'
    have hl2' : w2.latest = w0.latest := hl2.trans hl1'
    have hs2' : w2.scratch = [] := hs2.trans hs1'
    -- git commit
    refine thenRun_step rt _ workDir dep _ _
      (fun err w3 ht htg hl _ =>
        PushPost.fail hm2 err ht rfl rfl rfl (Or.inl (htg.trans htg2'))
          (fun _ => hl.trans hl2'))
      (fun _ w3 ht3 htg3 hl3 hs3 => ?_)
    have hm3 : Mid w0 w3 := hm2.run ht3 rfl
    have htg3' : w3.tags = w0.tags := htg3.trans htg2'
    have hl3' : w3.latest = w0.latest := hl3.trans hl2'
    have hs3' : w3.scratch = [] := hs3.trans hs2'
    -- git tag
    refine thenRun_step rt _ workDir dep _ _
      (fun err w4 ht htg hl _ =>
        PushPost.fail hm3 err ht rfl rfl rfl (Or.inl (htg.trans htg3'))
          (fun _ => hl.trans hl3'))
      (fun hr w4 ht4 htg4 hl4 hs4 => ?_)
    have hvalid : validTagName dep.GitTagFromVersion = true := by
      have : (!validTagName dep.GitTagFromVersion) = false := hr
      simpa using this
    have hm4 : Mid w0 w4 := hm3.run ht4 rfl
    have htg4' : w4.tags = w0.tags := htg4.trans htg3'
    have hl4' : w4.latest = w0.latest := hl4.trans hl3'
    have hs4' : w4.scratch = [dep.GitTagFromVersion] := by
      have : w4.scratch = w3.scratch ++ [dep.GitTagFromVersion] := hs4
      rw [this, hs3']; rfl
    -- git remote add
    refine thenRun_step rt _ workDir dep _ _
      (fun err w5 ht htg hl _ =>
        PushPost.fail hm4 err ht rfl rfl rfl (Or.inl (htg.trans htg4'))
          (fun _ => hl.trans hl4'))
      (fun _ w5 ht5 htg5 hl5 hs5 => ?_)
    have hm5 : Mid w0 w5 := hm4.run ht5 rfl
    have htg5' : w5.tags = w0.tags := htg5.trans htg4'
    have hl5' : w5.latest = w0.latest := hl5.trans hl4'
    have hs5' : w5.scratch = [dep.GitTagFromVersion] := hs5.trans hs4'
    -- git push --tags
    refine thenRun_step rt _ workDir dep _ _
      (fun err w6 ht htg hl _ =>
        PushPost.fail hm5 err ht rfl rfl rfl (Or.inl (htg.trans htg5'))
          (fun _ => hl.trans hl5'))
      (fun _ w6 ht6 htg6 hl6 hs6 => ?_)
    have hm6 : Mid w0 w6 := hm5.run ht6 rfl
    have htg6' : w6.tags = withTag dep.GitTagFromVersion w0.tags := by
      have : w6.tags = w5.tags ++ (w5.scratch.filter (fun t => t ∉ w5.tags)).dedup := htg6
      rw [this, hs5', htg5']
      unfold withTag
      by_cases hmem : dep.GitTagFromVersion ∈ w0.tags
      · simp [hmem]
      · simp [hmem]
    have hl6' : w6.latest = w0.latest := hl6.trans hl5'
    by_cases hflag : flag = true
    · rw [if_pos hflag]
      -- git rev-parse
      refine thenRun_step rt _ workDir dep _ _
        (fun err w7 ht htg hl _ =>
          PushPost.fail hm6 err ht rfl rfl rfl (Or.inr ⟨hvalid, htg.trans htg6'⟩)
            (fun hf => absurd hflag (by simp [hf])))
        (fun _ w7 ht7 htg7 hl7 hs7 => ?_)
      have hm7 : Mid w0 w7 := hm6.run ht7 rfl
      have htg7' : w7.tags = withTag dep.GitTagFromVersion w0.tags := htg7.trans htg6'
      -- git push latest
      refine thenRun_step rt _ workDir dep _ _
        (fun err w8 ht htg hl _ =>
          PushPost.fail hm7 err ht rfl rfl rfl (Or.inr ⟨hvalid, htg.trans htg7'⟩)
            (fun hf => absurd hflag (by simp [hf])))
        (fun _ w8 ht8 htg8 hl8 hs8 => ?_)
      have hm8 : Mid w0 w8 := hm7.run ht8 rfl
      have htg8' : w8.tags = withTag dep.GitTagFromVersion w0.tags := by
        have : w8.tags = withTag dep.GitTagFromVersion w7.tags := htg8
        rw [this, htg7', withTag_idem]
      exact PushPost.done hm8 hvalid htg8' (fun _ => hl8) (fun hf => absurd hflag (by simp [hf]))
    · rw [if_neg hflag]
      exact PushPost.done hm6 hvalid htg6' (fun hf => absurd hf hflag) (fun _ => hl6')

/-- What a call of `gitPushDependencyTag` does. -/
theorem gitPushDependencyTag_post (ps : vcsDependenciesSyncer) (rt : Runtime)
    (bare : GoString) (dep : PackageDependency) (flag : Bool) (w : World) :
    ∃ evs, (gitPushDependencyTag ps rt bare dep flag w).2.trace
          = w.trace ++ Event.pushDependencyTag dep flag :: evs ∧
      pushCalls evs = [] ∧ deleteAttempts evs = [] ∧
      ((gitPushDependencyTag ps rt bare dep flag w).1 = none ↔ ∀ e ∈ evs, e.failed = false) ∧
      ((gitPushDependencyTag ps rt bare dep flag w).2.tags = w.tags ∨
        (validTagName dep.GitTagFromVersion = true ∧
          (gitPushDependencyTag ps rt bare dep flag w).2.tags
            = withTag dep.GitTagFromVersion w.tags)) ∧
      ((gitPushDependencyTag ps rt bare dep flag w).1 = none →
        validTagName dep.GitTagFromVersion = true ∧
          (gitPushDependencyTag ps rt bare dep flag w).2.tags
            = withTag dep.GitTagFromVersion w.tags) := by
  unfold gitPushDependencyTag
  simp only []
  cases hmk : rt.MkdirTemp (w.trace ++ [Event.pushDependencyTag dep flag]).length ps.typ with
  | error err =>
    refine ⟨[Event.mkdirTemp true], by simp, rfl, rfl, ?_, Or.inl rfl, by simp⟩
    simp [Event.failed]
  | ok workDir =>
    simp only []
    have hm : Mid { w with trace := w.trace ++ [Event.pushDependencyTag dep flag] }
        { w with scratch := [],
                 trace := w.trace ++ [Event.pushDependencyTag dep flag]
                   ++ [Event.mkdirTemp false] } :=
      ⟨[Event.mkdirTemp false], rfl, rfl, rfl, by simp [Event.failed]⟩
    obtain ⟨evs, h1, h2, h3, h4, h5, h6, _, _⟩ :=
      gitPushDependencyTagIn_post ps rt bare workDir dep flag _ _ hm rfl rfl rfl
    refine ⟨evs, ?_, h2, h3, h4, h5, h6⟩
    simp only [h1]
    simp

/-! ## The loops of `Fetch` -/

theorem toCreate_congr {tags tags' : List GoString} (h : ∀ t, t ∈ tags ↔ t ∈ tags')
    (deps : List PackageDependency) : ∀ i, toCreate tags i deps = toCreate tags' i deps := by
  induction deps with
  | nil => intro i; rfl
  | cons d rest ih =>
    intro i
    simp only [toCreate, h, ih]

theorem toCreate_map_fst (tags : List GoString) (deps : List PackageDependency) :
    ∀ i, (toCreate tags i deps).map Prod.fst
      = deps.filter (fun d => d.GitTagFromVersion ∉ tags) := by
  induction deps with
  | nil => intro i; rfl
  | cons d rest ih =>
    intro i
    by_cases h : d.GitTagFromVersion ∈ tags
    · simp [toCreate, h, ih]
    · simp [toCreate, h, ih]

theorem pushCalls_cons_call (d : PackageDependency) (flag : Bool) (evs : List Event) :
    pushCalls (Event.pushDependencyTag d flag :: evs) = (d, flag) :: pushCalls evs := rfl

theorem deleteAttempts_cons_call (d : PackageDependency) (flag : Bool) (evs : List Event) :
    deleteAttempts (Event.pushDependencyTag d flag :: evs) = deleteAttempts evs := by
  simp [deleteAttempts]

/-- What the loop that builds and pushes the missing versions does. -/
theorem pushLoop_post (ps : vcsDependenciesSyncer) (rt : Runtime) (dir : GoString)
    (tags : List GoString) (deps : List PackageDependency) : ∀ (i : Nat) (w : World),
    ∃ evs, (pushLoop ps rt dir tags i deps w).2.trace = w.trace ++ evs ∧
      pushCalls evs <+: toCreate tags i deps ∧
      ((pushLoop ps rt dir tags i deps w).1 = none → pushCalls evs = toCreate tags i deps) ∧
      deleteAttempts evs = [] ∧
      ((pushLoop ps rt dir tags i deps w).1 = none ↔ ∀ e ∈ evs, e.failed = false) ∧
      (∀ t ∈ w.tags, t ∈ (pushLoop ps rt dir tags i deps w).2.tags) ∧
      (∀ t ∈ (pushLoop ps rt dir tags i deps w).2.tags, t ∈ w.tags ∨
        (validTagName t = true ∧ t ∉ tags ∧ ∃ d ∈ deps, d.GitTagFromVersion = t)) ∧
      ((pushLoop ps rt dir tags i deps w).1 = none →
        ∀ d ∈ deps, d.GitTagFromVersion ∉ tags →
          d.GitTagFromVersion ∈ (pushLoop ps rt dir tags i deps w).2.tags) := by
  induction deps with
  | nil =>
    intro i w
    exact ⟨[], by simp [pushLoop], by simp [pushCalls, toCreate], by simp [pushCalls, toCreate],
      rfl, by simp [pushLoop], by simp [pushLoop], by simp [pushLoop], by simp⟩
  | cons d rest ih =>
    intro i w
    by_cases hmem : d.GitTagFromVersion ∈ tags
    · obtain ⟨evs, h1, h2, h3, h4, h5, h6, h7, h8⟩ := ih (i + 1) w
      have hp : pushLoop ps rt dir tags i (d :: rest) w
          = pushLoop ps rt dir tags (i + 1) rest w := by
        rw [pushLoop, if_pos hmem]
      have htc : toCreate tags i (d :: rest) = toCreate tags (i + 1) rest := by
        rw [toCreate, if_pos hmem]
      rw [hp, htc]
      refine ⟨evs, h1, h2, h3, h4, h5, h6, ?_, ?_⟩
      · intro t ht
        rcases h7 t ht with h | ⟨hv, hn, d', hd', he⟩
        · exact Or.inl h
        · exact Or.inr ⟨hv, hn, d', by simp [hd'], he⟩
      · intro hnone d' hd' hn
        rcases List.mem_cons.1 hd' with e | hd'
        · subst e; exact absurd hmem hn
        · exact h8 hnone d' hd' hn
    · have htc : toCreate tags i (d :: rest) = (d, i == 0) :: toCreate tags (i + 1) rest := by
        rw [toCreate, if_neg hmem]
      obtain ⟨evs1, g1, g2, g3, g4, g5, g6⟩ := gitPushDependencyTag_post ps rt dir d (i == 0) w
      rcases hr : gitPushDependencyTag ps rt dir d (i == 0) w with ⟨_ | err, w1⟩
      · -- the push succeeded
        rw [hr] at g1 g4 g5 g6
        simp only at g1 g4 g5 g6
        obtain ⟨hvalid, htags1⟩ := g6 trivial
        obtain ⟨evs, h1, h2, h3, h4, h5, h6, h7, h8⟩ := ih (i + 1) w1
        have hp : pushLoop ps rt dir tags i (d :: rest) w
            = pushLoop ps rt dir tags (i + 1) rest w1 := by
          rw [pushLoop, if_neg hmem, hr]
        have hok1 : ∀ e ∈ evs1, e.failed = false := g4.1 trivial
        rw [hp, htc]
        refine ⟨Event.pushDependencyTag d (i == 0) :: evs1 ++ evs, ?_, ?_, ?_, ?_, ?_, ?_, ?_, ?_⟩
        · rw [h1, g1]; simp
        · rw [List.cons_append, pushCalls_cons_call, pushCalls_append, g2]
          simpa using h2
        · intro hnone
          rw [List.cons_append, pushCalls_cons_call, pushCalls_append, g2, h3 hnone]
          rfl
        · rw [List.cons_append, deleteAttempts_cons_call, deleteAttempts_append, g3, h4]
          rfl
        · rw [h5]
          constructor
          · intro hall e he
            rcases List.mem_append.1 he with he' | he'
            · rcases List.mem_cons.1 he' with e1 | e1
              · subst e1; rfl
              · exact hok1 e e1
            · exact hall e he'
          · intro hall e he
            exact hall e (List.mem_append_right _ he)
        · intro t ht
          exact h6 t (by rw [htags1]; exact (mem_withTag _ _ _).2 (Or.inl ht))
        · intro t ht
          rcases h7 t ht with h | ⟨hv, hn, d', hd', he⟩
          · rw [htags1, mem_withTag] at h
            rcases h with h | h
            · exact Or.inl h
            · subst h
              exact Or.inr ⟨hvalid, hmem, d, by simp, rfl⟩
          · exact Or.inr ⟨hv, hn, d', by simp [hd'], he⟩
        · intro hnone d' hd' hn
          rcases List.mem_cons.1 hd' with e | hd'
          · subst e
            exact h6 _ (by rw [htags1]; exact (mem_withTag _ _ _).2 (Or.inr rfl))
          · exact h8 hnone d' hd' hn
      · -- the push failed
        rw [hr] at g1 g4 g5
        simp only at g1 g4 g5
        have hp : pushLoop ps rt dir tags i (d :: rest) w
            = (some (GoError.wrapf err "error pushing dependency %q".toList
                [d.PackageManagerSyntax]), w1) := by
          rw [pushLoop, if_neg hmem, hr]
        rw [hp, htc]
        refine ⟨Event.pushDependencyTag d (i == 0) :: evs1, g1, ?_, by simp, ?_, ?_, ?_, ?_,
          by simp⟩
        · rw [pushCalls_cons_call, g2]
          exact ⟨toCreate tags (i + 1) rest, rfl⟩
        · rw [deleteAttempts_cons_call, g3]
        · simp only [reduceCtorEq, false_iff]
          intro hall
          have := g4.2 (fun e he => hall e (List.mem_cons_of_mem _ he))
          simp at this
        · intro t ht
          rcases g5 with h | ⟨_, h⟩
          · simp only [h]; exact ht
          · simp only [h]; exact (mem_withTag _ _ _).2 (Or.inl ht)
        · intro t ht
          simp only at ht
          rcases g5 with h | ⟨hv, h⟩
          · rw [h] at ht; exact Or.inl ht
          · rw [h, mem_withTag] at ht
            rcases ht with ht | ht
            · exact Or.inl ht
            · subst ht
              exact Or.inr ⟨hv, hmem, d, by simp, rfl⟩

theorem mem_tagsLoop (lines : List GoString) : ∀ (tags : List GoString) (t : GoString),
    t ∈ tagsLoop lines tags ↔ t ∈ tags ∨ (t ∈ lines ∧ t ≠ []) := by
  induction lines with
  | nil => intro tags t; simp [tagsLoop]
  | cons line rest ih =>
    intro tags t
    unfold tagsLoop
    by_cases h0 : line.length = 0
    · have hl : line = [] := List.length_eq_zero.1 h0
      rw [if_pos h0, ih]
      constructor
      · rintro (h | ⟨h, hne⟩)
        · exact Or.inl h
        · exact Or.inr ⟨List.mem_cons_of_mem _ h, hne⟩
      · rintro (h | ⟨h, hne⟩)
        · exact Or.inl h
        · rcases List.mem_cons.1 h with e | h
          · exact absurd (e.trans hl) hne
          · exact Or.inr ⟨h, hne⟩
    · have hl : line ≠ [] := fun e => h0 (by simp [e])
      rw [if_neg h0, ih]
      by_cases hm : line ∈ tags
      · rw [if_pos hm]
        constructor
        · rintro (h | ⟨h, hne⟩)
          · exact Or.inl h
          · exact Or.inr ⟨List.mem_cons_of_mem _ h, hne⟩
        · rintro (h | ⟨h, hne⟩)
          · exact Or.inl h
          · rcases List.mem_cons.1 h with e | h
            · subst e; exact Or.inl hm
            · exact Or.inr ⟨h, hne⟩
      · rw [if_neg hm]
        constructor
        · rintro (h | ⟨h, hne⟩)
          · rcases List.mem_append.1 h with h | h
            · exact Or.inl h
            · simp at h; subst h
              exact Or.inr ⟨by simp, hl⟩
          · exact Or.inr ⟨List.mem_cons_of_mem _ h, hne⟩
        · rintro (h | ⟨h, hne⟩)
          · exact Or.inl (List.mem_append_left _ h)
          · rcases List.mem_cons.1 h with e | h
            · subst e; exact Or.inl (by simp)
            · exact Or.inr ⟨h, hne⟩

theorem nodup_tagsLoop (lines : List GoString) : ∀ tags : List GoString,
    tags.Nodup → (tagsLoop lines tags).Nodup := by
  induction lines with
  | nil => intro tags h; simpa [tagsLoop] using h
  | cons line rest ih =>
    intro tags h
    unfold tagsLoop
    split_ifs with h0 hm
    · exact ih tags h
    · exact ih tags h
    · refine ih _ ?_
      rw [List.nodup_append]
      refine ⟨h, by simp, ?_⟩
      intro a ha hb
      simp at hb
      subst hb
      exact hm ha

theorem validTagName_iff (t : GoString) : validTagName t = true ↔ t ≠ [] ∧ '\n' ∉ t := by
  unfold validTagName
  cases t with
  | nil => simp
  | cons c t => simp [List.contains_iff_exists_mem_beq]

/-- The lines of the output of `git tag`. -/
theorem Split_tagListing (tags : List GoString) (h : ∀ t ∈ tags, validTagName t = true) :
    Split '\n' (tagListing tags) = tags ++ [[]] := by
  induction tags with
  | nil => rfl
  | cons t ts ih =>
    have ht := (validTagName_iff t).1 (h t (by simp))
    rw [tagListing, Split_append_sep, Split_of_not_mem ht.2,
      ih (fun x hx => h x (by simp [hx]))]
    rfl

/-- The map `tags` of `Fetch` holds exactly the tags of the repository. -/
theorem mem_tags_read (tags : List GoString) (h : ∀ t ∈ tags, validTagName t = true)
    (t : GoString) : t ∈ tagsLoop (Split '\n' (tagListing tags)) [] ↔ t ∈ tags := by
  rw [mem_tagsLoop, Split_tagListing tags h]
  constructor
  · rintro (h' | ⟨h', hne⟩)
    · simp at h'
    · rcases List.mem_append.1 h' with h' | h'
      · exact h'
      · simp at h'; exact absurd h' hne
  · intro ht
    exact Or.inr ⟨List.mem_append_left _ ht, ((validTagName_iff t).1 (h t ht)).1⟩

theorem mem_dependencyTagsLoop (deps : List PackageDependency) :
    ∀ (acc : List GoString) (t : GoString),
      t ∈ dependencyTagsLoop deps acc ↔ t ∈ acc ∨ ∃ d ∈ deps, d.GitTagFromVersion = t := by
  induction deps with
  | nil => intro acc t; simp [dependencyTagsLoop]
  | cons d rest ih =>
    intro acc t
    unfold dependencyTagsLoop
    rw [ih]
    by_cases hm : d.GitTagFromVersion ∈ acc
    · rw [if_pos hm]
      constructor
      · rintro (h | ⟨d', hd', e⟩)
        · exact Or.inl h
        · exact Or.inr ⟨d', by simp [hd'], e⟩
      · rintro (h | ⟨d', hd', e⟩)
        · exact Or.inl h
        · rcases List.mem_cons.1 hd' with e' | hd'
          · subst e'; subst e; exact Or.inl hm
          · exact Or.inr ⟨d', hd', e⟩
    · rw [if_neg hm]
      constructor
      · rintro (h | ⟨d', hd', e⟩)
        · rcases List.mem_append.1 h with h | h
          · exact Or.inl h
          · simp at h
            exact Or.inr ⟨d, by simp, h.symm⟩
        · exact Or.inr ⟨d', by simp [hd'], e⟩
      · rintro (h | ⟨d', hd', e⟩)
        · exact Or.inl (List.mem_append_left _ h)
        · rcases List.mem_cons.1 hd' with e' | hd'
          · subst e'; subst e; exact Or.inl (by simp)
          · exact Or.inr ⟨d', hd', e⟩

/-- The result of the loop over `Get`. -/
theorem cloneableLoop_ok (ps : vcsDependenciesSyncer) (depName : GoString)
    (versions : List GoString) : ∀ (acc cloneable : List PackageDependency),
    cloneableLoop ps depName versions acc = .ok cloneable →
      cloneable = acc ++ confirmed ps depName versions ∧
      ∀ v ∈ versions, ∀ err, ps.syncer.Get depName v = .error err → IsNotFound err = true := by
  induction versions with
  | nil =>
    intro acc cloneable h
    simp only [cloneableLoop, Except.ok.injEq] at h
    simp [confirmed, h]
  | cons v rest ih =>
    intro acc cloneable h
    unfold cloneableLoop at h
    cases hg : ps.syncer.Get depName v with
    | error err =>
      rw [hg] at h
      simp only at h
      by_cases hnf : IsNotFound err = true
      · rw [if_pos hnf] at h
        obtain ⟨h1, h2⟩ := ih acc cloneable h
        refine ⟨?_, ?_⟩
        · rw [h1]; simp [confirmed, hg]
        · intro v' hv' err' he'
          rcases List.mem_cons.1 hv' with e | hv'
          · subst e; rw [hg] at he'; cases he'; exact hnf
          · exact h2 v' hv' err' he'
      · rw [if_neg hnf] at h
        cases h
    | ok d =>
      rw [hg] at h
      simp only at h
      obtain ⟨h1, h2⟩ := ih _ cloneable h
      refine ⟨?_, ?_⟩
      · rw [h1]; simp [confirmed, hg]
      · intro v' hv' err' he'
        rcases List.mem_cons.1 hv' with e | hv'
        · subst e; rw [hg] at he'; cases he'
        · exact h2 v' hv' err' he'

theorem cloneableLoop_of_found (ps : vcsDependenciesSyncer) (depName : GoString)
    (versions : List GoString)
    (h : ∀ v ∈ versions, ∀ err, ps.syncer.Get depName v = .error err → IsNotFound err = true) :
    ∀ acc : List PackageDependency,
      cloneableLoop ps depName versions acc = .ok (acc ++ confirmed ps depName versions) := by
  induction versions with
  | nil => intro acc; simp [cloneableLoop, confirmed]
  | cons v rest ih =>
    intro acc
    have ih' := ih (fun v' hv' => h v' (by simp [hv']))
    unfold cloneableLoop
    cases hg : ps.syncer.Get depName v with
    | error err =>
      simp only
      rw [if_pos (h v (by simp) err hg), ih']
      simp [confirmed, hg]
    | ok d =>
      simp only
      rw [ih']
      simp [confirmed, hg]

/-- One `git tag -d`: it fails and changes nothing, or removes the tag. -/
theorem delete_step (rt : Runtime) (dir : GoString) (dep : PackageDependency)
    (tag : GoString) (w : World) :
    ∃ cmd failed, deleteTarget cmd = some tag ∧
      (runCommandInDirectory rt
          (CommandContext "git".toList ["tag".toList, "-d".toList, tag]) dir dep w).2.trace
        = w.trace ++ [Event.run cmd failed] ∧
      (failed = true →
        (runCommandInDirectory rt
          (CommandContext "git".toList ["tag".toList, "-d".toList, tag]) dir dep w).2.tags
          = w.tags) ∧
      (failed = false →
        (runCommandInDirectory rt
          (CommandContext "git".toList ["tag".toList, "-d".toList, tag]) dir dep w).2.tags
          = w.tags.filter (fun t => t ≠ tag)) := by
  rw [runCommandInDirectory_eq]
  refine ⟨located (CommandContext "git".toList ["tag".toList, "-d".toList, tag]) dir dep, ?_⟩
  cases h : rt.runError w.trace.length
      (located (CommandContext "git".toList ["tag".toList, "-d".toList, tag]) dir dep) with
  | some err =>
    refine ⟨true, rfl, rfl, fun _ => rfl, ?_⟩
    intro h; cases h
  | none =>
    have hr : gitRefuses (CommandContext "git".toList ["tag".toList, "-d".toList, tag])
        = false := rfl
    simp only [hr, Bool.false_eq_true, if_false]
    refine ⟨false, rfl, rfl, ?_, fun _ => rfl⟩
    intro h; cases h

/-- What the loop that deletes the obsolete tags does. -/
theorem deleteLoop_post (ps : vcsDependenciesSyncer) (rt : Runtime) (dir : GoString)
    (dependencyTags : List GoString) (l : List GoString) : ∀ w : World,
    ∃ evs, (deleteLoop ps rt dir dependencyTags l w).trace = w.trace ++ evs ∧
      pushCalls evs = [] ∧
      deleteAttempts evs = l.filter (fun t => t ∉ dependencyTags) ∧
      (∀ e ∈ evs, ∃ cmd failed, e = Event.run cmd failed ∧ deleteTarget cmd ≠ none) ∧
      (∀ t ∈ (deleteLoop ps rt dir dependencyTags l w).tags, t ∈ w.tags) ∧
      (∀ t ∈ w.tags, (t ∉ l ∨ t ∈ dependencyTags) →
        t ∈ (deleteLoop ps rt dir dependencyTags l w).tags) ∧
      ((∀ e ∈ evs, e.failed = false) →
        ∀ t, t ∈ (deleteLoop ps rt dir dependencyTags l w).tags ↔
          t ∈ w.tags ∧ (t ∉ l ∨ t ∈ dependencyTags)) := by
  induction l with
  | nil =>
    intro w
    exact ⟨[], by simp [deleteLoop], rfl, rfl, by simp, by simp [deleteLoop],
      by simp [deleteLoop], by simp [deleteLoop]⟩
  | cons tag rest ih =>
    intro w
    by_cases hdep : tag ∈ dependencyTags
    · have hl : deleteLoop ps rt dir dependencyTags (tag :: rest) w
          = deleteLoop ps rt dir dependencyTags rest w := by
        rw [deleteLoop, if_neg (by simpa using hdep)]
      obtain ⟨evs, h1, h2, h3, h4, h5, h6, h7⟩ := ih w
      rw [hl]
      refine ⟨evs, h1, h2, ?_, h4, h5, ?_, ?_⟩
      · rw [h3]; simp [hdep]
      · intro t ht hc
        refine h6 t ht ?_
        rcases hc with hc | hc
        · exact Or.inl (fun h => hc (List.mem_cons_of_mem _ h))
        · exact Or.inr hc
      · intro hall t
        rw [h7 hall]
        constructor
        · rintro ⟨ht, hc⟩
          refine ⟨ht, ?_⟩
          rcases hc with hc | hc
          · by_cases e : t = tag
            · subst e; exact Or.inr hdep
            · exact Or.inl (by simp [e, hc])
          · exact Or.inr hc
        · rintro ⟨ht, hc⟩
          refine ⟨ht, ?_⟩
          rcases hc with hc | hc
          · exact Or.inl (fun h => hc (List.mem_cons_of_mem _ h))
          · exact Or.inr hc
    · have hl : deleteLoop ps rt dir dependencyTags (tag :: rest) w
          = deleteLoop ps rt dir dependencyTags rest
              (runCommandInDirectory rt
                (CommandContext "git".toList ["tag".toList, "-d".toList, tag]) dir
                ps.placeholder w).2 := by
        rw [deleteLoop, if_pos hdep]
      obtain ⟨cmd, failed, hc1, hc2, hc3, hc4⟩ := delete_step rt dir ps.placeholder tag w
      generalize (runCommandInDirectory rt
        (CommandContext "git".toList ["tag".toList, "-d".toList, tag]) dir
        ps.placeholder w).2 = w1 at hl hc2 hc3 hc4
      obtain ⟨evs, h1, h2, h3, h4, h5, h6, h7⟩ := ih w1
      rw [hl]
      have hsub : ∀ t ∈ w1.tags, t ∈ w.tags := by
        intro t ht
        cases failed with
        | true => rw [hc3 rfl] at ht; exact ht
        | false => rw [hc4 rfl] at ht; exact (List.mem_filter.1 ht).1
      have hkeep : ∀ t ∈ w.tags, t ≠ tag → t ∈ w1.tags := by
        intro t ht hne
        cases failed with
        | true => rw [hc3 rfl]; exact ht
        | false => rw [hc4 rfl]; exact List.mem_filter.2 ⟨ht, by simpa using hne⟩
      refine ⟨Event.run cmd failed :: evs, ?_, ?_, ?_, ?_, ?_, ?_, ?_⟩
      · rw [h1, hc2]; simp
      · simpa [pushCalls] using h2
      · simp [deleteAttempts, hc1, h3, hdep]
      · intro e he
        rcases List.mem_cons.1 he with e1 | he
        · exact ⟨cmd, failed, e1, by simp [hc1]⟩
        · exact h4 e he
      · intro t ht
        exact hsub t (h5 t ht)
      · intro t ht hc
        have hne : t ≠ tag := by
          rintro rfl
          rcases hc with hc | hc
          · exact hc (by simp)
          · exact hdep hc
        refine h6 t (hkeep t ht hne) ?_
        rcases hc with hc | hc
        · exact Or.inl (fun h => hc (List.mem_cons_of_mem _ h))
        · exact Or.inr hc
      · intro hall t
        have hf : failed = false := by
          have := hall (Event.run cmd failed) (by simp)
          simpa [Event.failed] using this
        subst hf
        rw [h7 (fun e he => hall e (List.mem_cons_of_mem _ he)), hc4 rfl]
        constructor
        · rintro ⟨ht, hc⟩
          have ht' := List.mem_filter.1 ht
          have hne : t ≠ tag := by simpa using ht'.2
          refine ⟨ht'.1, ?_⟩
          rcases hc with hc | hc
          · exact Or.inl (by simp [hne, hc])
          · exact Or.inr hc
        · rintro ⟨ht, hc⟩
          have hne : t ≠ tag := by
            rintro rfl
            rcases hc with hc | hc
            · exact hc (by simp)
            · exact hdep hc
          refine ⟨List.mem_filter.2 ⟨ht, by simpa using hne⟩, ?_⟩
          rcases hc with hc | hc
          · exact Or.inl (fun h => hc (List.mem_cons_of_mem _ h))
          · exact Or.inr hc

/-! ## The shape of a pass of `Fetch` -/

/-- The end of `Fetch` once the tags are read: build and push, then clean
up. -/
theorem Fetch_unfold (ps : vcsDependenciesSyncer) (rt : Runtime) (remoteURLPath dir : GoString)
    (w : World) (dep : PackageDependency) (vs : List GoString)
    (hparse : ps.syncer.ParseDependencyFromRepoName remoteURLPath = .ok dep)
    (hvers : versions ps dep.PackageSyntax = .ok vs) (hwf : w.WellFormed) :
    (∃ err, cloneableLoop ps dep.PackageSyntax vs [] = .error err ∧
      Fetch ps rt remoteURLPath dir w = (some err, w)) ∨
    ((∀ v ∈ vs, ∀ err, ps.syncer.Get dep.PackageSyntax v = .error err →
        IsNotFound err = true) ∧
      ((∃ err,
          Fetch ps rt remoteURLPath dir w
            = (some err, { w with
                trace := w.trace ++ [Event.run (tagListCommand dir ps.placeholder) true] })) ∨
        (∃ tagsRead, (∀ t, t ∈ tagsRead ↔ t ∈ w.tags) ∧ tagsRead.Nodup ∧
          Fetch ps rt remoteURLPath dir w =
            match pushLoop ps rt dir tagsRead 0 (confirmed ps dep.PackageSyntax vs)
                { w with
                  trace := w.trace ++ [Event.run (tagListCommand dir ps.placeholder) false] }
              with
            | (some err, w2) => (some err, w2)
            | (none, w2) =>
              (none, deleteLoop ps rt dir
                (dependencyTagsLoop (confirmed ps dep.PackageSyntax vs) [])
                (rt.rangeOrder tagsRead) w2)))) := by
  cases hc : cloneableLoop ps dep.PackageSyntax vs [] with
  | error err =>
    left
    refine ⟨err, rfl, ?_⟩
    simp only [Fetch, hparse, hvers, hc]
  | ok cloneable =>
    right
    obtain ⟨hcl, hget⟩ := cloneableLoop_ok ps dep.PackageSyntax vs [] cloneable hc
    rw [List.nil_append] at hcl
    subst hcl
    refine ⟨hget, ?_⟩
    have hF : Fetch ps rt remoteURLPath dir w =
        match runCommandInDirectory rt (CommandContext "git".toList ["tag".toList]) dir
            ps.placeholder w with
        | (.error err, w) => (some err, w)
        | (.ok out, w) =>
          match pushLoop ps rt dir (tagsLoop (Split '\n' out) []) 0
              (confirmed ps dep.PackageSyntax vs) w with
          | (some err, w) => (some err, w)
          | (none, w) =>
            (none, deleteLoop ps rt dir
              (dependencyTagsLoop (confirmed ps dep.PackageSyntax vs) [])
              (rt.rangeOrder (tagsLoop (Split '\n' out) [])) w) := by
      simp only [Fetch, hparse, hvers, hc]
    rw [hF, runCommandInDirectory_eq]
    cases hrun : rt.runError w.trace.length
        (located (CommandContext "git".toList ["tag".toList]) dir ps.placeholder) with
    | some err =>
      left
      exact ⟨_, rfl⟩
    | none =>
      right
      have hr : gitRefuses (CommandContext "git".toList ["tag".toList]) = false := rfl
      have he : gitEffect rt (CommandContext "git".toList ["tag".toList]) w
          = (tagListing w.tags, w) := rfl
      simp only [hr, he, Bool.false_eq_true, if_false]
      exact ⟨_, mem_tags_read w.tags hwf, nodup_tagsLoop _ [] List.nodup_nil, rfl⟩

theorem pushLoop_all_present (ps : vcsDependenciesSyncer) (rt : Runtime) (dir : GoString)
    (tags : List GoString) (deps : List PackageDependency)
    (h : ∀ d ∈ deps, d.GitTagFromVersion ∈ tags) : ∀ (i : Nat) (w : World),
    pushLoop ps rt dir tags i deps w = (none, w) := by
  induction deps with
  | nil => intro i w; rfl
  | cons d rest ih =>
    intro i w
    rw [pushLoop, if_pos (h d (by simp))]
    exact ih (fun d' hd' => h d' (by simp [hd'])) (i + 1) w

theorem deleteLoop_none (ps : vcsDependenciesSyncer) (rt : Runtime) (dir : GoString)
    (dependencyTags l : List GoString) (h : ∀ t ∈ l, t ∈ dependencyTags) (w : World) :
    deleteLoop ps rt dir dependencyTags l w = w := by
  induction l with
  | nil => rfl
  | cons t rest ih =>
    rw [deleteLoop, if_neg (by simpa using h t (by simp))]
    exact ih (fun t' ht' => h t' (by simp [ht']))

theorem mem_deleteAttempts {evs : List Event} {cmd : Cmd} {failed : Bool} {t : GoString}
    (he : Event.run cmd failed ∈ evs) (ht : deleteTarget cmd = some t) :
    t ∈ deleteAttempts evs := by
  induction evs with
  | nil => simp at he
  | cons e evs ih =>
    rcases List.mem_cons.1 he with e1 | he
    · subst e1
      simp [deleteAttempts, ht]
    · have := ih he
      cases e with
      | run cmd' failed' =>
        simp only [deleteAttempts]
        cases deleteTarget cmd' <;> simp [this]
      | _ => simpa [deleteAttempts] using this

theorem mem_rangeOrder (rt : Runtime) (keys : List GoString) (t : GoString) :
    t ∈ rt.rangeOrder keys ↔ t ∈ keys :=
  (rt.rangeOrder_perm keys).mem_iff

theorem foundOrNotFound_spec {ps : vcsDependenciesSyncer} {depName : GoString}
    {vs : List GoString}
    (h : ∀ v ∈ vs, foundOrNotFound (ps.syncer.Get depName v) = true) :
    ∀ v ∈ vs, ∀ err, ps.syncer.Get depName v = .error err → IsNotFound err = true := by
  intro v hv err he
  have := h v hv
  rw [he] at this
  exact this

/-- A pass in which no step fails: `Fetch` returns no error, the tags are
those of the confirmed descriptors, and they are valid. -/
theorem Fetch_success (ps : vcsDependenciesSyncer) (rt : Runtime) (remoteURLPath dir : GoString)
    (w : World) (dep : PackageDependency) (vs : List GoString)
    (hparse : ps.syncer.ParseDependencyFromRepoName remoteURLPath = .ok dep)
    (hvers : versions ps dep.PackageSyntax = .ok vs) (hwf : w.WellFormed)
    (hget : ∀ v ∈ vs, ∀ err, ps.syncer.Get dep.PackageSyntax v = .error err →
      IsNotFound err = true)
    (hok : ∀ e ∈ (Fetch ps rt remoteURLPath dir w).2.trace, e.failed = false) :
    (Fetch ps rt remoteURLPath dir w).1 = none ∧
    (∀ t, t ∈ (Fetch ps rt remoteURLPath dir w).2.tags ↔
      ∃ d ∈ confirmed ps dep.PackageSyntax vs, d.GitTagFromVersion = t) ∧
    (Fetch ps rt remoteURLPath dir w).2.WellFormed := by
  rcases Fetch_unfold ps rt remoteURLPath dir w dep vs hparse hvers hwf with
    ⟨err, hc, _⟩ | ⟨_, ⟨err, hF⟩ | ⟨tagsRead, hread, _, hF⟩⟩
  · rw [cloneableLoop_of_found ps dep.PackageSyntax vs hget] at hc
    cases hc
  · rw [hF] at hok
    have := hok (Event.run (tagListCommand dir ps.placeholder) true) (by simp)
    simp [Event.failed] at this
  · rw [hF] at hok ⊢
    obtain ⟨evs, h1, _, _, _, h5, h6, h7, h8⟩ :=
      pushLoop_post ps rt dir tagsRead (confirmed ps dep.PackageSyntax vs) 0
        { w with trace := w.trace ++ [Event.run (tagListCommand dir ps.placeholder) false] }
    rcases hp : pushLoop ps rt dir tagsRead 0 (confirmed ps dep.PackageSyntax vs)
        { w with trace := w.trace ++ [Event.run (tagListCommand dir ps.placeholder) false] }
      with ⟨_ | err, w2⟩
    · rw [hp] at hok h1 h6 h7 h8
      simp only at hok h1 h6 h7 h8 ⊢
      obtain ⟨evs2, k1, _, _, _, k5, _, k7⟩ :=
        deleteLoop_post ps rt dir (dependencyTagsLoop (confirmed ps dep.PackageSyntax vs) [])
          (rt.rangeOrder tagsRead) w2
      have hok2 : ∀ e ∈ evs2, e.failed = false := by
        intro e he
        exact hok e (by rw [k1]; exact List.mem_append_right _ he)
      have hmem := k7 hok2
      refine ⟨trivial, ?_, ?_⟩
      · intro t
        rw [hmem, mem_rangeOrder, hread, mem_dependencyTagsLoop]
        constructor
        · rintro ⟨ht, hc⟩
          rcases h7 t ht with h | ⟨_, _, hd⟩
          · rcases hc with hc | hc | hc
            · exact absurd h hc
            · simp at hc
            · exact hc
          · exact hd
        · rintro ⟨d, hd, e⟩
          subst e
          refine ⟨?_, Or.inr (Or.inr ⟨d, hd, rfl⟩)⟩
          by_cases hin : d.GitTagFromVersion ∈ tagsRead
          · exact h6 _ ((hread _).1 hin)
          · exact h8 trivial d hd hin
      · intro t ht
        rcases h7 t (k5 t ht) with h | ⟨hv, _, _⟩
        · exact hwf t h
        · exact hv
    · rw [hp] at h1 h5
      simp only at h1 h5
      rw [hp] at hok
      simp only at hok
      have : ∀ e ∈ evs, e.failed = false := by
        intro e he
        exact hok e (by rw [h1]; exact List.mem_append_right _ he)
      have := h5.2 this
      simp at this

/-- C5: after a pass of `Fetch` in which every `Get` answers found or
not-found and no step (no build, push or tag-deletion command) fails, `Fetch`
returns no error and the tag set of the repository is exactly the set of
canonical tags of the versions that `Get` confirmed. -/
theorem fetch_converges (ps : vcsDependenciesSyncer) (rt : Runtime)
    (remoteURLPath dir : GoString) (w : World) (dep : PackageDependency) (vs : List GoString)
    (hparse : ps.syncer.ParseDependencyFromRepoName remoteURLPath = .ok dep)
    (hvers : versions ps dep.PackageSyntax = .ok vs) (hwf : w.WellFormed)
    (hget : ∀ v ∈ vs, foundOrNotFound (ps.syncer.Get dep.PackageSyntax v) = true)
    (hok : ∀ e ∈ (Fetch ps rt remoteURLPath dir w).2.trace, e.failed = false) :
    (Fetch ps rt remoteURLPath dir w).1 = none ∧
    ∀ t, t ∈ (Fetch ps rt remoteURLPath dir w).2.tags ↔
      ∃ d ∈ confirmed ps dep.PackageSyntax vs, d.GitTagFromVersion = t :=
  ⟨(Fetch_success ps rt remoteURLPath dir w dep vs hparse hvers hwf
      (foundOrNotFound_spec hget) hok).1,
    (Fetch_success ps rt remoteURLPath dir w dep vs hparse hvers hwf
      (foundOrNotFound_spec hget) hok).2.1⟩

/-- Witness of C5: a pass over the empty repository with one configured
version and one stored version. -/
theorem fetch_converges_witness :
    (Fetch (samplePs ["pkg@2.0.0".toList] ["1.0.0".toList, "0.0.0".toList]) (sampleRuntime [])
        "pkg".toList "/repos/pkg".toList (sampleWorld ["v0.9".toList])).1 = none ∧
    ∀ t, t ∈ (Fetch (samplePs ["pkg@2.0.0".toList] ["1.0.0".toList, "0.0.0".toList])
          (sampleRuntime []) "pkg".toList "/repos/pkg".toList
          (sampleWorld ["v0.9".toList])).2.tags ↔
      ∃ d ∈ confirmed (samplePs ["pkg@2.0.0".toList] ["1.0.0".toList, "0.0.0".toList])
          (sampleDep "pkg".toList []).PackageSyntax
          ["2.0.0".toList, "1.0.0".toList, "0.0.0".toList],
        d.GitTagFromVersion = t :=
  fetch_converges (samplePs ["pkg@2.0.0".toList] ["1.0.0".toList, "0.0.0".toList])
    (sampleRuntime []) "pkg".toList "/repos/pkg".toList (sampleWorld ["v0.9".toList])
    (sampleDep "pkg".toList []) ["2.0.0".toList, "1.0.0".toList, "0.0.0".toList]
    (by rfl) (by rfl) (by unfold World.WellFormed; decide) (by decide) (by decide)

/-- C6: if a pass of `Fetch` completes with every `Get` answering found or
not-found and no step failing, then a second pass for the same syncer (same
desired versions, same `Get` answers), whatever fails in it, calls
`gitPushDependencyTag` never and attempts no tag deletion: its only step is
the `git tag` that reads the tags, and the tag set and the `latest` reference
are unchanged. -/
theorem fetch_idempotent (ps : vcsDependenciesSyncer) (rt rt2 : Runtime)
    (remoteURLPath dir : GoString) (w : World) (dep : PackageDependency) (vs : List GoString)
    (hparse : ps.syncer.ParseDependencyFromRepoName remoteURLPath = .ok dep)
    (hvers : versions ps dep.PackageSyntax = .ok vs) (hwf : w.WellFormed)
    (hget : ∀ v ∈ vs, foundOrNotFound (ps.syncer.Get dep.PackageSyntax v) = true)
    (hok : ∀ e ∈ (Fetch ps rt remoteURLPath dir w).2.trace, e.failed = false) :
    pushCalls (Fetch ps rt2 remoteURLPath dir
        (Fetch ps rt remoteURLPath dir w).2.restart).2.trace = [] ∧
    deleteAttempts (Fetch ps rt2 remoteURLPath dir
        (Fetch ps rt remoteURLPath dir w).2.restart).2.trace = [] ∧
    (∃ failed, (Fetch ps rt2 remoteURLPath dir
        (Fetch ps rt remoteURLPath dir w).2.restart).2.trace
      = [Event.run (tagListCommand dir ps.placeholder) failed]) ∧
    (Fetch ps rt2 remoteURLPath dir (Fetch ps rt remoteURLPath dir w).2.restart).2.tags
      = (Fetch ps rt remoteURLPath dir w).2.tags ∧
    (Fetch ps rt2 remoteURLPath dir (Fetch ps rt remoteURLPath dir w).2.restart).2.latest
      = (Fetch ps rt remoteURLPath dir w).2.latest := by
  obtain ⟨_, htags, hwf1⟩ := Fetch_success ps rt remoteURLPath dir w dep vs hparse hvers hwf
    (foundOrNotFound_spec hget) hok
  generalize (Fetch ps rt remoteURLPath dir w).2 = w1 at htags hwf1 ⊢
  have hwf1' : w1.restart.WellFormed := hwf1
  have hdel : deleteTarget (tagListCommand dir ps.placeholder) = none := rfl
  rcases Fetch_unfold ps rt2 remoteURLPath dir w1.restart dep vs hparse hvers hwf1' with
    ⟨err, hc, _⟩ | ⟨_, ⟨err, hF⟩ | ⟨tagsRead, hread, _, hF⟩⟩
  · rw [cloneableLoop_of_found ps dep.PackageSyntax vs (foundOrNotFound_spec hget)] at hc
    cases hc
  · rw [hF]
    refine ⟨rfl, ?_, ⟨true, rfl⟩, rfl, rfl⟩
    simp [World.restart, deleteAttempts, hdel]
  · have hpresent : ∀ d ∈ confirmed ps dep.PackageSyntax vs, d.GitTagFromVersion ∈ tagsRead := by
      intro d hd
      exact (hread _).2 ((htags _).2 ⟨d, hd, rfl⟩)
    have hnone : ∀ t ∈ rt2.rangeOrder tagsRead,
        t ∈ dependencyTagsLoop (confirmed ps dep.PackageSyntax vs) [] := by
      intro t ht
      rw [mem_rangeOrder, hread] at ht
      exact (mem_dependencyTagsLoop _ _ _).2 (Or.inr ((htags t).1 ht))
    rw [pushLoop_all_present ps rt2 dir tagsRead _ hpresent] at hF
    simp only at hF
    rw [deleteLoop_none ps rt2 dir _ _ hnone] at hF
    rw [hF]
    refine ⟨rfl, ?_, ⟨false, rfl⟩, rfl, rfl⟩
    simp [World.restart, deleteAttempts, hdel]

/-- Witness of C6: two passes over a repository with one obsolete tag; in
the second pass the command that reads the tags fails. -/
theorem fetch_idempotent_witness :
    pushCalls (Fetch (samplePs ["pkg@2.0.0".toList] ["1.0.0".toList])
        (sampleRuntime [["git".toList, "tag".toList]]) "pkg".toList "/repos/pkg".toList
        (Fetch (samplePs ["pkg@2.0.0".toList] ["1.0.0".toList]) (sampleRuntime [])
          "pkg".toList "/repos/pkg".toList (sampleWorld ["v0.9".toList])).2.restart).2.trace
      = [] ∧
    deleteAttempts (Fetch (samplePs ["pkg@2.0.0".toList] ["1.0.0".toList])
        (sampleRuntime [["git".toList, "tag".toList]]) "pkg".toList "/repos/pkg".toList
        (Fetch (samplePs ["pkg@2.0.0".toList] ["1.0.0".toList]) (sampleRuntime [])
          "pkg".toList "/repos/pkg".toList (sampleWorld ["v0.9".toList])).2.restart).2.trace
      = [] ∧
    (∃ failed, (Fetch (samplePs ["pkg@2.0.0".toList] ["1.0.0".toList])
        (sampleRuntime [["git".toList, "tag".toList]]) "pkg".toList "/repos/pkg".toList
        (Fetch (samplePs ["pkg@2.0.0".toList] ["1.0.0".toList]) (sampleRuntime [])
          "pkg".toList "/repos/pkg".toList (sampleWorld ["v0.9".toList])).2.restart).2.trace
      = [Event.run (tagListCommand "/repos/pkg".toList
          (samplePs ["pkg@2.0.0".toList] ["1.0.0".toList]).placeholder) failed]) ∧
    (Fetch (samplePs ["pkg@2.0.0".toList] ["1.0.0".toList])
        (sampleRuntime [["git".toList, "tag".toList]]) "pkg".toList "/repos/pkg".toList
        (Fetch (samplePs ["pkg@2.0.0".toList] ["1.0.0".toList]) (sampleRuntime [])
          "pkg".toList "/repos/pkg".toList (sampleWorld ["v0.9".toList])).2.restart).2.tags
      = (Fetch (samplePs ["pkg@2.0.0".toList] ["1.0.0".toList]) (sampleRuntime [])
          "pkg".toList "/repos/pkg".toList (sampleWorld ["v0.9".toList])).2.tags ∧
    (Fetch (samplePs ["pkg@2.0.0".toList] ["1.0.0".toList])
        (sampleRuntime [["git".toList, "tag".toList]]) "pkg".toList "/repos/pkg".toList
        (Fetch (samplePs ["pkg@2.0.0".toList] ["1.0.0".toList]) (sampleRuntime [])
          "pkg".toList "/repos/pkg".toList (sampleWorld ["v0.9".toList])).2.restart).2.latest
      = (Fetch (samplePs ["pkg@2.0.0".toList] ["1.0.0".toList]) (sampleRuntime [])
          "pkg".toList "/repos/pkg".toList (sampleWorld ["v0.9".toList])).2.latest :=
  fetch_idempotent (samplePs ["pkg@2.0.0".toList] ["1.0.0".toList]) (sampleRuntime [])
    (sampleRuntime [["git".toList, "tag".toList]]) "pkg".toList "/repos/pkg".toList
    (sampleWorld ["v0.9".toList]) (sampleDep "pkg".toList [])
    ["2.0.0".toList, "1.0.0".toList]
    (by rfl) (by rfl) (by unfold World.WellFormed; decide) (by decide) (by decide)

/-- The calls of `gitPushDependencyTag` in a pass follow the sync plan, as
far as the pass gets. -/
theorem Fetch_pushCalls (ps : vcsDependenciesSyncer) (rt : Runtime)
    (remoteURLPath dir : GoString) (w : World) (dep : PackageDependency) (vs : List GoString)
    (hparse : ps.syncer.ParseDependencyFromRepoName remoteURLPath = .ok dep)
    (hvers : versions ps dep.PackageSyntax = .ok vs) (hwf : w.WellFormed)
    (htr : w.trace = []) :
    pushCalls (Fetch ps rt remoteURLPath dir w).2.trace
        <+: toCreate w.tags 0 (confirmed ps dep.PackageSyntax vs) ∧
    ((Fetch ps rt remoteURLPath dir w).1 = none →
      pushCalls (Fetch ps rt remoteURLPath dir w).2.trace
        = toCreate w.tags 0 (confirmed ps dep.PackageSyntax vs)) := by
  rcases Fetch_unfold ps rt remoteURLPath dir w dep vs hparse hvers hwf with
    ⟨err, _, hF⟩ | ⟨_, ⟨err, hF⟩ | ⟨tagsRead, hread, _, hF⟩⟩
  · rw [hF]
    simp only [htr, pushCalls, reduceCtorEq, false_implies, and_true]
    exact List.nil_prefix
  · rw [hF]
    simp only [htr, List.nil_append, pushCalls, reduceCtorEq, false_implies, and_true]
    exact List.nil_prefix
  · rw [hF, ← toCreate_congr hread]
    obtain ⟨evs, h1, h2, h3, _, _, _, _, _⟩ :=
      pushLoop_post ps rt dir tagsRead (confirmed ps dep.PackageSyntax vs) 0
        { w with trace := w.trace ++ [Event.run (tagListCommand dir ps.placeholder) false] }
    rcases hp : pushLoop ps rt dir tagsRead 0 (confirmed ps dep.PackageSyntax vs)
        { w with trace := w.trace ++ [Event.run (tagListCommand dir ps.placeholder) false] }
      with ⟨_ | err, w2⟩
    · rw [hp] at h1 h3
      simp only at h1 h3 ⊢
      obtain ⟨evs2, k1, k2, _⟩ :=
        deleteLoop_post ps rt dir (dependencyTagsLoop (confirmed ps dep.PackageSyntax vs) [])
          (rt.rangeOrder tagsRead) w2
      have hcalls : pushCalls (deleteLoop ps rt dir
          (dependencyTagsLoop (confirmed ps dep.PackageSyntax vs) [])
          (rt.rangeOrder tagsRead) w2).trace
          = toCreate tagsRead 0 (confirmed ps dep.PackageSyntax vs) := by
        rw [k1, h1, htr, pushCalls_append, pushCalls_append, k2, h3 trivial]
        simp [pushCalls]
      rw [hcalls]
      exact ⟨List.prefix_refl _, fun _ => rfl⟩
    · rw [hp] at h1
      simp only at h1 ⊢
      have hcalls : pushCalls w2.trace = pushCalls evs := by
        rw [h1, htr, pushCalls_append]
        simp [pushCalls]
      rw [hcalls]
      exact ⟨h2, fun h => by cases h⟩

/-- Counterexample to C7: with the desired versions `2.0.0` and `1.0.0`, an
empty repository, and a failing `git init`, the descriptor of `1.0.0` is
confirmed and its tag is absent, yet `gitPushDependencyTag` is not invoked
for it: the pass stops at the failed build of `2.0.0`. -/
theorem absent_descriptor_not_pushed_after_failure :
    sampleDep "pkg".toList "1.0.0".toList
      ∈ confirmed (samplePs ["pkg@2.0.0".toList, "pkg@1.0.0".toList] []) "pkg".toList
          ["2.0.0".toList, "1.0.0".toList] ∧
    (sampleDep "pkg".toList "1.0.0".toList).GitTagFromVersion ∉ (sampleWorld []).tags ∧
    (pushCalls (Fetch (samplePs ["pkg@2.0.0".toList, "pkg@1.0.0".toList] [])
        (sampleRuntime [["git".toList, "init".toList]]) "pkg".toList "/repos/pkg".toList
        (sampleWorld [])).2.trace).map Prod.fst
      = [sampleDep "pkg".toList "2.0.0".toList] := by
  decide

/-- C7 (amended): in a pass of `Fetch`, the descriptors for which
`gitPushDependencyTag` is invoked are, in order, an initial part of the
confirmed descriptors whose canonical tag is absent from the tag set at the
start of the pass; they are all of them when `Fetch` returns no error; and a
descriptor whose canonical tag is present is never built or pushed. -/
theorem push_calls_follow_plan (ps : vcsDependenciesSyncer) (rt : Runtime)
    (remoteURLPath dir : GoString) (w : World) (dep : PackageDependency) (vs : List GoString)
    (hparse : ps.syncer.ParseDependencyFromRepoName remoteURLPath = .ok dep)
    (hvers : versions ps dep.PackageSyntax = .ok vs) (hwf : w.WellFormed)
    (htr : w.trace = []) :
    (pushCalls (Fetch ps rt remoteURLPath dir w).2.trace).map Prod.fst
      <+: (confirmed ps dep.PackageSyntax vs).filter (fun d => d.GitTagFromVersion ∉ w.tags) ∧
    ((Fetch ps rt remoteURLPath dir w).1 = none →
      (pushCalls (Fetch ps rt remoteURLPath dir w).2.trace).map Prod.fst
        = (confirmed ps dep.PackageSyntax vs).filter
            (fun d => d.GitTagFromVersion ∉ w.tags)) ∧
    ∀ c ∈ pushCalls (Fetch ps rt remoteURLPath dir w).2.trace,
      c.1.GitTagFromVersion ∉ w.tags := by
  obtain ⟨h1, h2⟩ := Fetch_pushCalls ps rt remoteURLPath dir w dep vs hparse hvers hwf htr
  have hpre : (pushCalls (Fetch ps rt remoteURLPath dir w).2.trace).map Prod.fst
      <+: (confirmed ps dep.PackageSyntax vs).filter
        (fun d => d.GitTagFromVersion ∉ w.tags) := by
    rw [← toCreate_map_fst w.tags _ 0]
    obtain ⟨r, hr⟩ := h1
    exact ⟨r.map Prod.fst, by rw [← hr]; simp⟩
  refine ⟨hpre, ?_, ?_⟩
  · intro hnone
    rw [h2 hnone, toCreate_map_fst]
  · intro c hc
    have hm : c.1 ∈ (confirmed ps dep.PackageSyntax vs).filter
        (fun d => d.GitTagFromVersion ∉ w.tags) :=
      hpre.subset (List.mem_map_of_mem _ hc)
    simpa using (List.mem_filter.1 hm).2

/-- Witness of C7 (amended): a pass that builds `1.0.0` and finds `2.0.0`
tagged. -/
theorem push_calls_follow_plan_witness :
    (pushCalls (Fetch (samplePs ["pkg@2.0.0".toList, "pkg@1.0.0".toList] []) (sampleRuntime [])
        "pkg".toList "/repos/pkg".toList (sampleWorld ["v2.0.0".toList])).2.trace).map Prod.fst
      <+: (confirmed (samplePs ["pkg@2.0.0".toList, "pkg@1.0.0".toList] [])
            (sampleDep "pkg".toList []).PackageSyntax ["2.0.0".toList, "1.0.0".toList]).filter
          (fun d => d.GitTagFromVersion ∉ (sampleWorld ["v2.0.0".toList]).tags) ∧
    ((Fetch (samplePs ["pkg@2.0.0".toList, "pkg@1.0.0".toList] []) (sampleRuntime [])
        "pkg".toList "/repos/pkg".toList (sampleWorld ["v2.0.0".toList])).1 = none →
      (pushCalls (Fetch (samplePs ["pkg@2.0.0".toList, "pkg@1.0.0".toList] [])
          (sampleRuntime []) "pkg".toList "/repos/pkg".toList
          (sampleWorld ["v2.0.0".toList])).2.trace).map Prod.fst
        = (confirmed (samplePs ["pkg@2.0.0".toList, "pkg@1.0.0".toList] [])
            (sampleDep "pkg".toList []).PackageSyntax ["2.0.0".toList, "1.0.0".toList]).filter
          (fun d => d.GitTagFromVersion ∉ (sampleWorld ["v2.0.0".toList]).tags)) ∧
    ∀ c ∈ pushCalls (Fetch (samplePs ["pkg@2.0.0".toList, "pkg@1.0.0".toList] [])
        (sampleRuntime []) "pkg".toList "/repos/pkg".toList
        (sampleWorld ["v2.0.0".toList])).2.trace,
      c.1.GitTagFromVersion ∉ (sampleWorld ["v2.0.0".toList]).tags :=
  push_calls_follow_plan (samplePs ["pkg@2.0.0".toList, "pkg@1.0.0".toList] [])
    (sampleRuntime []) "pkg".toList "/repos/pkg".toList (sampleWorld ["v2.0.0".toList])
    (sampleDep "pkg".toList []) ["2.0.0".toList, "1.0.0".toList]
    (by rfl) (by rfl) (by unfold World.WellFormed; decide) (by rfl)

theorem exists_failed_of_not_all {evs : List Event} (h : ¬ ∀ e ∈ evs, e.failed = false) :
    ∃ e ∈ evs, e.failed = true := by
  by_contra hc
  apply h
  intro e he
  cases hf : e.failed with
  | false => rfl
  | true => exact absurd ⟨e, he, hf⟩ hc

/-- C8: in a pass of `Fetch` that reaches the cleanup step, that is, one in
which every `Get` answers found or not-found and no step other than a tag
deletion fails, `Fetch` returns no error whether or not deletions fail; a
`git tag -d` is attempted, once, for exactly the tags present at the start
that are not the canonical tag of a confirmed descriptor; and every canonical
tag of a confirmed descriptor is in the repository afterwards. -/
theorem cleanup_deletes_exactly_obsolete (ps : vcsDependenciesSyncer) (rt : Runtime)
    (remoteURLPath dir : GoString) (w : World) (dep : PackageDependency) (vs : List GoString)
    (hparse : ps.syncer.ParseDependencyFromRepoName remoteURLPath = .ok dep)
    (hvers : versions ps dep.PackageSyntax = .ok vs) (hwf : w.WellFormed)
    (htr : w.trace = [])
    (hget : ∀ v ∈ vs, foundOrNotFound (ps.syncer.Get dep.PackageSyntax v) = true)
    (hreach : ∀ e ∈ (Fetch ps rt remoteURLPath dir w).2.trace, e.failed = true →
      ∃ cmd, e = Event.run cmd true ∧ deleteTarget cmd ≠ none) :
    (Fetch ps rt remoteURLPath dir w).1 = none ∧
    (∀ t, t ∈ deleteAttempts (Fetch ps rt remoteURLPath dir w).2.trace ↔
      t ∈ w.tags ∧ ¬ ∃ d ∈ confirmed ps dep.PackageSyntax vs, d.GitTagFromVersion = t) ∧
    (deleteAttempts (Fetch ps rt remoteURLPath dir w).2.trace).Nodup ∧
    ∀ d ∈ confirmed ps dep.PackageSyntax vs,
      d.GitTagFromVersion ∈ (Fetch ps rt remoteURLPath dir w).2.tags := by
  have hdel : deleteTarget (tagListCommand dir ps.placeholder) = none := rfl
  rcases Fetch_unfold ps rt remoteURLPath dir w dep vs hparse hvers hwf with
    ⟨err, hc, _⟩ | ⟨_, ⟨err, hF⟩ | ⟨tagsRead, hread, hnodup, hF⟩⟩
  · rw [cloneableLoop_of_found ps dep.PackageSyntax vs (foundOrNotFound_spec hget)] at hc
    cases hc
  · rw [hF] at hreach
    obtain ⟨cmd, he, hne⟩ :=
      hreach (Event.run (tagListCommand dir ps.placeholder) true) (by simp) rfl
    cases he
    exact absurd hdel hne
  · rw [hF] at hreach ⊢
    obtain ⟨evs, h1, _, _, h4, h5, h6, h7, h8⟩ :=
      pushLoop_post ps rt dir tagsRead (confirmed ps dep.PackageSyntax vs) 0
        { w with trace := w.trace ++ [Event.run (tagListCommand dir ps.placeholder) false] }
    rcases hp : pushLoop ps rt dir tagsRead 0 (confirmed ps dep.PackageSyntax vs)
        { w with trace := w.trace ++ [Event.run (tagListCommand dir ps.placeholder) false] }
      with ⟨_ | err, w2⟩
    · rw [hp] at h1 h6 h7 h8
      simp only at h1 h6 h7 h8 ⊢
      obtain ⟨evs2, k1, _, k3, _, _, k6, _⟩ :=
        deleteLoop_post ps rt dir (dependencyTagsLoop (confirmed ps dep.PackageSyntax vs) [])
          (rt.rangeOrder tagsRead) w2
      have hatt : deleteAttempts (deleteLoop ps rt dir
          (dependencyTagsLoop (confirmed ps dep.PackageSyntax vs) [])
          (rt.rangeOrder tagsRead) w2).trace
          = (rt.rangeOrder tagsRead).filter
              (fun t => t ∉ dependencyTagsLoop (confirmed ps dep.PackageSyntax vs) []) := by
        rw [k1, h1, htr, deleteAttempts_append, deleteAttempts_append, k3, h4]
        simp [deleteAttempts, hdel]
      rw [hatt]
      refine ⟨trivial, ?_, ?_, ?_⟩
      · intro t
        rw [List.mem_filter, mem_rangeOrder, hread]
        simp [mem_dependencyTagsLoop]
      · exact ((rt.rangeOrder_perm tagsRead).nodup_iff.2 hnodup).filter _
      · intro d hd
        refine k6 _ ?_ (Or.inr ((mem_dependencyTagsLoop _ _ _).2 (Or.inr ⟨d, hd, rfl⟩)))
        by_cases hin : d.GitTagFromVersion ∈ tagsRead
        · exact h6 _ ((hread _).1 hin)
        · exact h8 trivial d hd hin
    · rw [hp] at h1 h5
      simp only at h1 h5
      rw [hp] at hreach
      simp only at hreach
      have hnot : ¬ ∀ e ∈ evs, e.failed = false := fun hall => by
        have := h5.2 hall
        cases this
      obtain ⟨e, he, hf⟩ := exists_failed_of_not_all hnot
      obtain ⟨cmd, hcmd, hne⟩ := hreach e (by rw [h1]; exact List.mem_append_right _ he) hf
      subst hcmd
      cases ht : deleteTarget cmd with
      | none => exact absurd ht hne
      | some t =>
        have := mem_deleteAttempts he ht
        rw [h4] at this
        simp at this

/-- Witness of C8: a pass with two obsolete tags, where deleting the first
fails. -/
theorem cleanup_deletes_exactly_obsolete_witness :
    (Fetch (samplePs ["pkg@1.0.0".toList] [])
        (sampleRuntime [["git".toList, "tag".toList, "-d".toList, "v0.8".toList]])
        "pkg".toList "/repos/pkg".toList
        (sampleWorld ["v0.8".toList, "v1.0.0".toList, "v0.9".toList])).1 = none ∧
    (∀ t, t ∈ deleteAttempts (Fetch (samplePs ["pkg@1.0.0".toList] [])
          (sampleRuntime [["git".toList, "tag".toList, "-d".toList, "v0.8".toList]])
          "pkg".toList "/repos/pkg".toList
          (sampleWorld ["v0.8".toList, "v1.0.0".toList, "v0.9".toList])).2.trace ↔
      t ∈ (sampleWorld ["v0.8".toList, "v1.0.0".toList, "v0.9".toList]).tags ∧
        ¬ ∃ d ∈ confirmed (samplePs ["pkg@1.0.0".toList] [])
            (sampleDep "pkg".toList []).PackageSyntax ["1.0.0".toList],
          d.GitTagFromVersion = t) ∧
    (deleteAttempts (Fetch (samplePs ["pkg@1.0.0".toList] [])
        (sampleRuntime [["git".toList, "tag".toList, "-d".toList, "v0.8".toList]])
        "pkg".toList "/repos/pkg".toList
        (sampleWorld ["v0.8".toList, "v1.0.0".toList, "v0.9".toList])).2.trace).Nodup ∧
    ∀ d ∈ confirmed (samplePs ["pkg@1.0.0".toList] [])
        (sampleDep "pkg".toList []).PackageSyntax ["1.0.0".toList],
      d.GitTagFromVersion ∈ (Fetch (samplePs ["pkg@1.0.0".toList] [])
        (sampleRuntime [["git".toList, "tag".toList, "-d".toList, "v0.8".toList]])
        "pkg".toList "/repos/pkg".toList
        (sampleWorld ["v0.8".toList, "v1.0.0".toList, "v0.9".toList])).2.tags :=
  cleanup_deletes_exactly_obsolete (samplePs ["pkg@1.0.0".toList] [])
    (sampleRuntime [["git".toList, "tag".toList, "-d".toList, "v0.8".toList]])
    "pkg".toList "/repos/pkg".toList
    (sampleWorld ["v0.8".toList, "v1.0.0".toList, "v0.9".toList])
    (sampleDep "pkg".toList []) ["1.0.0".toList]
    (by rfl) (by rfl) (by unfold World.WellFormed; decide) (by rfl) (by decide)
    (by
      intro e he hf
      have hmem : e ∈ [Event.run (located (CommandContext "git".toList
          ["tag".toList, "-d".toList, "v0.8".toList]) "/repos/pkg".toList
          (sampleDep "placeholder".toList "1.0.0".toList)) true] := by
        revert e
        decide
      simp only [List.mem_singleton] at hmem
      exact ⟨_, hmem, by decide⟩)

/-- Counterexample to C9: the version `1.0.0` is desired twice, once from
the configuration and once from the store; in one pass over the empty
repository the tag `v1.0.0` is built and pushed twice. -/
theorem duplicate_version_pushed_twice :
    versions (samplePs ["pkg@1.0.0".toList] ["1.0.0".toList]) "pkg".toList
      = .ok ["1.0.0".toList, "1.0.0".toList] ∧
    (pushCalls (Fetch (samplePs ["pkg@1.0.0".toList] ["1.0.0".toList]) (sampleRuntime [])
        "pkg".toList "/repos/pkg".toList (sampleWorld [])).2.trace).map
        (fun c => c.1.GitTagFromVersion)
      = ["v1.0.0".toList, "v1.0.0".toList] :=
  ⟨rfl, by decide⟩

/-- C9 (amended): duplicate versions are filtered only against the tags
present at the start of the pass: a canonical tag that is present is never
built, and a canonical tag that is absent is built and pushed at most once
for each occurrence of its version among the confirmed descriptors, exactly
once for each occurrence when `Fetch` returns no error. -/
theorem duplicates_filtered_by_initial_tags (ps : vcsDependenciesSyncer) (rt : Runtime)
    (remoteURLPath dir : GoString) (w : World) (dep : PackageDependency) (vs : List GoString)
    (t : GoString)
    (hparse : ps.syncer.ParseDependencyFromRepoName remoteURLPath = .ok dep)
    (hvers : versions ps dep.PackageSyntax = .ok vs) (hwf : w.WellFormed)
    (htr : w.trace = []) :
    (t ∈ w.tags →
      (pushCalls (Fetch ps rt remoteURLPath dir w).2.trace).countP
        (fun c => c.1.GitTagFromVersion = t) = 0) ∧
    (pushCalls (Fetch ps rt remoteURLPath dir w).2.trace).countP
        (fun c => c.1.GitTagFromVersion = t)
      ≤ (confirmed ps dep.PackageSyntax vs).countP (fun d => d.GitTagFromVersion = t) ∧
    ((Fetch ps rt remoteURLPath dir w).1 = none → t ∉ w.tags →
      (pushCalls (Fetch ps rt remoteURLPath dir w).2.trace).countP
          (fun c => c.1.GitTagFromVersion = t)
        = (confirmed ps dep.PackageSyntax vs).countP (fun d => d.GitTagFromVersion = t)) := by
  obtain ⟨h1, h2⟩ := Fetch_pushCalls ps rt remoteURLPath dir w dep vs hparse hvers hwf htr
  have hcount : ∀ l : List (PackageDependency × Bool),
      l.countP (fun c => c.1.GitTagFromVersion = t)
        = (l.map Prod.fst).countP (fun d => d.GitTagFromVersion = t) := by
    intro l
    rw [List.countP_map]
    rfl
  have hpre : (pushCalls (Fetch ps rt remoteURLPath dir w).2.trace).map Prod.fst
      <+: (confirmed ps dep.PackageSyntax vs).filter
        (fun d => d.GitTagFromVersion ∉ w.tags) := by
    rw [← toCreate_map_fst w.tags _ 0]
    obtain ⟨r, hr⟩ := h1
    exact ⟨r.map Prod.fst, by rw [← hr]; simp⟩
  have hle := hpre.sublist.countP_le (fun d => decide (d.GitTagFromVersion = t))
  rw [List.countP_filter] at hle
  refine ⟨?_, ?_, ?_⟩
  · intro ht
    rw [hcount]
    have hz : (confirmed ps dep.PackageSyntax vs).countP
        (fun a => decide (a.GitTagFromVersion = t) && decide (a.GitTagFromVersion ∉ w.tags))
        = 0 := by
      rw [List.countP_eq_zero]
      intro d _
      by_cases e : d.GitTagFromVersion = t
      · simp [e, ht]
      · simp [e]
    omega
  · rw [hcount]
    refine le_trans hle ?_
    apply List.countP_mono_left
    intro d _ hd
    simp only [Bool.and_eq_true, decide_eq_true_eq] at hd
    simpa using hd.1
  · intro hnone ht
    rw [hcount, h2 hnone, toCreate_map_fst, List.countP_filter]
    apply List.countP_congr
    intro d _
    by_cases e : d.GitTagFromVersion = t
    · simp [e, ht]
    · simp [e]

/-- Witness of C9 (amended): the pass of the counterexample, for the tag
`v1.0.0`. -/
theorem duplicates_filtered_by_initial_tags_witness :
    ("v1.0.0".toList ∈ (sampleWorld []).tags →
      (pushCalls (Fetch (samplePs ["pkg@1.0.0".toList] ["1.0.0".toList]) (sampleRuntime [])
          "pkg".toList "/repos/pkg".toList (sampleWorld [])).2.trace).countP
        (fun c => c.1.GitTagFromVersion = "v1.0.0".toList) = 0) ∧
    (pushCalls (Fetch (samplePs ["pkg@1.0.0".toList] ["1.0.0".toList]) (sampleRuntime [])
        "pkg".toList "/repos/pkg".toList (sampleWorld [])).2.trace).countP
        (fun c => c.1.GitTagFromVersion = "v1.0.0".toList)
      ≤ (confirmed (samplePs ["pkg@1.0.0".toList] ["1.0.0".toList])
          (sampleDep "pkg".toList []).PackageSyntax ["1.0.0".toList, "1.0.0".toList]).countP
        (fun d => d.GitTagFromVersion = "v1.0.0".toList) ∧
    ((Fetch (samplePs ["pkg@1.0.0".toList] ["1.0.0".toList]) (sampleRuntime [])
        "pkg".toList "/repos/pkg".toList (sampleWorld [])).1 = none →
      "v1.0.0".toList ∉ (sampleWorld []).tags →
      (pushCalls (Fetch (samplePs ["pkg@1.0.0".toList] ["1.0.0".toList]) (sampleRuntime [])
          "pkg".toList "/repos/pkg".toList (sampleWorld [])).2.trace).countP
          (fun c => c.1.GitTagFromVersion = "v1.0.0".toList)
        = (confirmed (samplePs ["pkg@1.0.0".toList] ["1.0.0".toList])
            (sampleDep "pkg".toList []).PackageSyntax ["1.0.0".toList, "1.0.0".toList]).countP
          (fun d => d.GitTagFromVersion = "v1.0.0".toList)) :=
  duplicates_filtered_by_initial_tags (samplePs ["pkg@1.0.0".toList] ["1.0.0".toList])
    (sampleRuntime []) "pkg".toList "/repos/pkg".toList (sampleWorld [])
    (sampleDep "pkg".toList []) ["1.0.0".toList, "1.0.0".toList] "v1.0.0".toList
    (by rfl) (by rfl) (by unfold World.WellFormed; decide) (by rfl)

theorem toCreate_succ_flags (tags : List GoString) (deps : List PackageDependency) :
    ∀ i, ∀ c ∈ toCreate tags (i + 1) deps, c.2 = false := by
  induction deps with
  | nil => intro i c hc; simp [toCreate] at hc
  | cons d rest ih =>
    intro i c hc
    unfold toCreate at hc
    split_ifs at hc
    · exact ih (i + 1) c hc
    · rcases List.mem_cons.1 hc with e | hc
      · subst e; simp
      · exact ih (i + 1) c hc

/-- Counterexample to C10: with the desired versions `2.0.0` and `1.0.0` and
the tag `v2.0.0` present, the pass builds one version, `1.0.0`, and calls
`gitPushDependencyTag` for it with `isLatestVersion = false`. -/
theorem first_built_not_flagged_latest :
    pushCalls (Fetch (samplePs ["pkg@2.0.0".toList, "pkg@1.0.0".toList] []) (sampleRuntime [])
        "pkg".toList "/repos/pkg".toList (sampleWorld ["v2.0.0".toList])).2.trace
      = [(sampleDep "pkg".toList "1.0.0".toList, false)] := by
  decide

/-- C10 (amended): `gitPushDependencyTag` is called with `isLatestVersion =
true` only for the first (newest) confirmed descriptor, and only as the first
call of the pass: when the canonical tag of the first confirmed descriptor is
absent, the first version built in the pass is that descriptor, flagged
latest; when it is present, no call of the pass is flagged latest; and no
call after the first is ever flagged latest. -/
theorem latest_flag_only_for_newest (ps : vcsDependenciesSyncer) (rt : Runtime)
    (remoteURLPath dir : GoString) (w : World) (dep : PackageDependency) (vs : List GoString)
    (d0 : PackageDependency) (rest : List PackageDependency)
    (hparse : ps.syncer.ParseDependencyFromRepoName remoteURLPath = .ok dep)
    (hvers : versions ps dep.PackageSyntax = .ok vs) (hwf : w.WellFormed)
    (htr : w.trace = [])
    (hnewest : confirmed ps dep.PackageSyntax vs = d0 :: rest) :
    (d0.GitTagFromVersion ∉ w.tags →
      ∀ c, (pushCalls (Fetch ps rt remoteURLPath dir w).2.trace).head? = some c →
        c = (d0, true)) ∧
    (d0.GitTagFromVersion ∈ w.tags →
      ∀ c ∈ pushCalls (Fetch ps rt remoteURLPath dir w).2.trace, c.2 = false) ∧
    ∀ c ∈ (pushCalls (Fetch ps rt remoteURLPath dir w).2.trace).tail, c.2 = false := by
  obtain ⟨⟨r, hr⟩, _⟩ := Fetch_pushCalls ps rt remoteURLPath dir w dep vs hparse hvers hwf htr
  rw [hnewest] at hr
  have hflags := toCreate_succ_flags w.tags rest 0
  by_cases hmem : d0.GitTagFromVersion ∈ w.tags
  · have htc : toCreate w.tags 0 (d0 :: rest) = toCreate w.tags (0 + 1) rest := by
      rw [toCreate, if_pos hmem]
    rw [htc] at hr
    have hall : ∀ c ∈ pushCalls (Fetch ps rt remoteURLPath dir w).2.trace, c.2 = false :=
      fun c hc => hflags c (by rw [← hr]; exact List.mem_append_left _ hc)
    exact ⟨fun h => absurd hmem h, fun _ => hall,
      fun c hc => hall c (List.mem_of_mem_tail hc)⟩
  · have htc : toCreate w.tags 0 (d0 :: rest) = (d0, true) :: toCreate w.tags (0 + 1) rest := by
      rw [toCreate, if_neg hmem]
      rfl
    rw [htc] at hr
    refine ⟨fun _ c hc => ?_, fun h => absurd h hmem, fun c hc => ?_⟩
    · cases hcalls : pushCalls (Fetch ps rt remoteURLPath dir w).2.trace with
      | nil => rw [hcalls] at hc; simp at hc
      | cons c' l =>
        rw [hcalls] at hc hr
        simp only [List.head?_cons, Option.some.injEq] at hc
        simp only [List.cons_append, List.cons.injEq] at hr
        rw [← hc, hr.1]
    · cases hcalls : pushCalls (Fetch ps rt remoteURLPath dir w).2.trace with
      | nil => rw [hcalls] at hc; simp at hc
      | cons c' l =>
        rw [hcalls] at hc hr
        simp only [List.tail_cons] at hc
        simp only [List.cons_append, List.cons.injEq] at hr
        exact hflags c (by rw [← hr.2]; exact List.mem_append_left _ hc)

/-- Witness of C10 (amended): a pass over the empty repository. -/
theorem latest_flag_only_for_newest_witness :
    ((sampleDep "pkg".toList "2.0.0".toList).GitTagFromVersion ∉ (sampleWorld []).tags →
      ∀ c, (pushCalls (Fetch (samplePs ["pkg@2.0.0".toList, "pkg@1.0.0".toList] [])
          (sampleRuntime []) "pkg".toList "/repos/pkg".toList
          (sampleWorld [])).2.trace).head? = some c →
        c = (sampleDep "pkg".toList "2.0.0".toList, true)) ∧
    ((sampleDep "pkg".toList "2.0.0".toList).GitTagFromVersion ∈ (sampleWorld []).tags →
      ∀ c ∈ pushCalls (Fetch (samplePs ["pkg@2.0.0".toList, "pkg@1.0.0".toList] [])
          (sampleRuntime []) "pkg".toList "/repos/pkg".toList (sampleWorld [])).2.trace,
        c.2 = false) ∧
    ∀ c ∈ (pushCalls (Fetch (samplePs ["pkg@2.0.0".toList, "pkg@1.0.0".toList] [])
        (sampleRuntime []) "pkg".toList "/repos/pkg".toList (sampleWorld [])).2.trace).tail,
      c.2 = false :=
  latest_flag_only_for_newest (samplePs ["pkg@2.0.0".toList, "pkg@1.0.0".toList] [])
    (sampleRuntime []) "pkg".toList "/repos/pkg".toList (sampleWorld [])
    (sampleDep "pkg".toList []) ["2.0.0".toList, "1.0.0".toList]
    (sampleDep "pkg".toList "2.0.0".toList) [sampleDep "pkg".toList "1.0.0".toList]
    (by rfl) (by rfl) (by unfold World.WellFormed; decide) (by rfl) (by rfl)

/-! ## Failures of `Get` -/

/-- The loop over `Get` stops at the first error that is not a not-found. -/
theorem cloneableLoop_error (ps : vcsDependenciesSyncer) (depName : GoString)
    (versions : List GoString)
    (h : ∃ v ∈ versions, foundOrNotFound (ps.syncer.Get depName v) = false) :
    ∃ v err, v ∈ versions ∧ ps.syncer.Get depName v = .error err ∧ IsNotFound err = false ∧
      ∀ acc, cloneableLoop ps depName versions acc = .error err := by
  induction versions with
  | nil => simp at h
  | cons v rest ih =>
    cases hg : ps.syncer.Get depName v with
    | error err =>
      by_cases hnf : IsNotFound err = true
      · have hrest : ∃ v' ∈ rest, foundOrNotFound (ps.syncer.Get depName v') = false := by
          obtain ⟨v', hv', hf⟩ := h
          rcases List.mem_cons.1 hv' with e | hv'
          · subst e
            rw [hg] at hf
            simp [foundOrNotFound, hnf] at hf
          · exact ⟨v', hv', hf⟩
        obtain ⟨v', err', hv', hg', hnf', hloop⟩ := ih hrest
        refine ⟨v', err', List.mem_cons_of_mem _ hv', hg', hnf', ?_⟩
        intro acc
        rw [cloneableLoop, hg]
        simp only [hnf, if_true]
        exact hloop acc
      · refine ⟨v, err, by simp, hg, by simpa using hnf, ?_⟩
        intro acc
        rw [cloneableLoop, hg]
        simp only [hnf]
        rfl
    | ok d =>
      have hrest : ∃ v' ∈ rest, foundOrNotFound (ps.syncer.Get depName v') = false := by
        obtain ⟨v', hv', hf⟩ := h
        rcases List.mem_cons.1 hv' with e | hv'
        · subst e
          rw [hg] at hf
          simp [foundOrNotFound] at hf
        · exact ⟨v', hv', hf⟩
      obtain ⟨v', err', hv', hg', hnf', hloop⟩ := ih hrest
      refine ⟨v', err', List.mem_cons_of_mem _ hv', hg', hnf', ?_⟩
      intro acc
      rw [cloneableLoop, hg]
      exact hloop _

theorem mem_confirmed (ps : vcsDependenciesSyncer) (depName : GoString)
    (versions : List GoString) (d : PackageDependency) :
    d ∈ confirmed ps depName versions ↔ ∃ v ∈ versions, ps.syncer.Get depName v = .ok d := by
  unfold confirmed
  rw [List.mem_filterMap]
  constructor
  · rintro ⟨v, hv, h⟩
    refine ⟨v, hv, ?_⟩
    cases hg : ps.syncer.Get depName v with
    | error err => rw [hg] at h; simp at h
    | ok d' => rw [hg] at h; simp at h; rw [h]
  · rintro ⟨v, hv, h⟩
    exact ⟨v, hv, by rw [h]⟩

/-- Once every `Get` has answered found or not-found, the pass goes on to
read the tags. -/
theorem Fetch_reads_tags (ps : vcsDependenciesSyncer) (rt : Runtime)
    (remoteURLPath dir : GoString) (w : World) (dep : PackageDependency) (vs : List GoString)
    (hparse : ps.syncer.ParseDependencyFromRepoName remoteURLPath = .ok dep)
    (hvers : versions ps dep.PackageSyntax = .ok vs)
    (hget : ∀ v ∈ vs, foundOrNotFound (ps.syncer.Get dep.PackageSyntax v) = true) :
    ∃ failed evs, (Fetch ps rt remoteURLPath dir w).2.trace
      = w.trace ++ Event.run (tagListCommand dir ps.placeholder) failed :: evs := by
  have hc := cloneableLoop_of_found ps dep.PackageSyntax vs (foundOrNotFound_spec hget) []
  rw [List.nil_append] at hc
  have hF : Fetch ps rt remoteURLPath dir w =
      match runCommandInDirectory rt (CommandContext "git".toList ["tag".toList]) dir
          ps.placeholder w with
      | (.error err, w) => (some err, w)
      | (.ok out, w) =>
        match pushLoop ps rt dir (tagsLoop (Split '\n' out) []) 0
            (confirmed ps dep.PackageSyntax vs) w with
        | (some err, w) => (some err, w)
        | (none, w) =>
          (none, deleteLoop ps rt dir
            (dependencyTagsLoop (confirmed ps dep.PackageSyntax vs) [])
            (rt.rangeOrder (tagsLoop (Split '\n' out) [])) w) := by
    simp only [Fetch, hparse, hvers, hc]
  rw [hF, runCommandInDirectory_eq]
  cases hrun : rt.runError w.trace.length
      (located (CommandContext "git".toList ["tag".toList]) dir ps.placeholder) with
  | some err => exact ⟨true, [], rfl⟩
  | none =>
    have hr : gitRefuses (CommandContext "git".toList ["tag".toList]) = false := rfl
    simp only [hr, Bool.false_eq_true, if_false]
    generalize (gitEffect rt (CommandContext "git".toList ["tag".toList]) w) = g
    obtain ⟨evs, h1, _⟩ := pushLoop_post ps rt dir (tagsLoop (Split '\n' g.1) [])
      (confirmed ps dep.PackageSyntax vs) 0
      { g.2 with trace := w.trace ++
          [Event.run (located (CommandContext "git".toList ["tag".toList]) dir ps.placeholder)
            false] }
    rcases hp : pushLoop ps rt dir (tagsLoop (Split '\n' g.1) []) 0
      (confirmed ps dep.PackageSyntax vs)
      { g.2 with trace := w.trace ++
          [Event.run (located (CommandContext "git".toList ["tag".toList]) dir ps.placeholder)
            false] } with ⟨_ | err, w2⟩
    · rw [hp] at h1
      simp only at h1 ⊢
      obtain ⟨evs2, k1, _⟩ := deleteLoop_post ps rt dir
        (dependencyTagsLoop (confirmed ps dep.PackageSyntax vs) [])
        (rt.rangeOrder (tagsLoop (Split '\n' g.1) [])) w2
      refine ⟨false, evs ++ evs2, ?_⟩
      rw [k1, h1]
      simp [tagListCommand]
    · rw [hp] at h1
      simp only at h1 ⊢
      refine ⟨false, evs, ?_⟩
      rw [h1]
      simp [tagListCommand]

/-- C11: a version whose `Get` fails with an error that passes
`errcode.IsNotFound` is left out of the confirmed descriptors and the pass
goes on (it reads the tags of the repository); if some `Get` fails with
another error, `Fetch` returns such an error, has done nothing (no command is
run: no tag is listed, created or deleted) and leaves the repository as it
was. -/
theorem get_failure_handling (ps : vcsDependenciesSyncer) (rt : Runtime)
    (remoteURLPath dir : GoString) (w : World) (dep : PackageDependency) (vs : List GoString)
    (hparse : ps.syncer.ParseDependencyFromRepoName remoteURLPath = .ok dep)
    (hvers : versions ps dep.PackageSyntax = .ok vs) :
    ((∀ v ∈ vs, foundOrNotFound (ps.syncer.Get dep.PackageSyntax v) = true) →
      cloneableLoop ps dep.PackageSyntax vs [] = .ok (confirmed ps dep.PackageSyntax vs) ∧
      (∀ d, d ∈ confirmed ps dep.PackageSyntax vs ↔
        ∃ v ∈ vs, ps.syncer.Get dep.PackageSyntax v = .ok d) ∧
      ∃ failed evs, (Fetch ps rt remoteURLPath dir w).2.trace
        = w.trace ++ Event.run (tagListCommand dir ps.placeholder) failed :: evs) ∧
    ((∃ v ∈ vs, foundOrNotFound (ps.syncer.Get dep.PackageSyntax v) = false) →
      ∃ v err, v ∈ vs ∧ ps.syncer.Get dep.PackageSyntax v = .error err ∧
        IsNotFound err = false ∧ Fetch ps rt remoteURLPath dir w = (some err, w)) := by
  refine ⟨fun hget => ⟨?_, mem_confirmed ps _ vs, ?_⟩, fun hbad => ?_⟩
  · have := cloneableLoop_of_found ps dep.PackageSyntax vs (foundOrNotFound_spec hget) []
    simpa using this
  · exact Fetch_reads_tags ps rt remoteURLPath dir w dep vs hparse hvers hget
  · obtain ⟨v, err, hv, hg, hnf, hloop⟩ := cloneableLoop_error ps dep.PackageSyntax vs hbad
    refine ⟨v, err, hv, hg, hnf, ?_⟩
    simp only [Fetch, hparse, hvers, hloop []]

/-- Witness of C11: a pass in which the store lists the version `0.0.0`,
which the registry does not have. -/
theorem get_failure_handling_witness :
    ((∀ v ∈ ["2.0.0".toList, "0.0.0".toList],
        foundOrNotFound ((samplePs ["pkg@2.0.0".toList] ["0.0.0".toList]).syncer.Get
          (sampleDep "pkg".toList []).PackageSyntax v) = true) →
      cloneableLoop (samplePs ["pkg@2.0.0".toList] ["0.0.0".toList])
          (sampleDep "pkg".toList []).PackageSyntax ["2.0.0".toList, "0.0.0".toList] []
        = .ok (confirmed (samplePs ["pkg@2.0.0".toList] ["0.0.0".toList])
            (sampleDep "pkg".toList []).PackageSyntax ["2.0.0".toList, "0.0.0".toList]) ∧
      (∀ d, d ∈ confirmed (samplePs ["pkg@2.0.0".toList] ["0.0.0".toList])
            (sampleDep "pkg".toList []).PackageSyntax ["2.0.0".toList, "0.0.0".toList] ↔
        ∃ v ∈ ["2.0.0".toList, "0.0.0".toList],
          (samplePs ["pkg@2.0.0".toList] ["0.0.0".toList]).syncer.Get
            (sampleDep "pkg".toList []).PackageSyntax v = .ok d) ∧
      ∃ failed evs, (Fetch (samplePs ["pkg@2.0.0".toList] ["0.0.0".toList]) (sampleRuntime [])
          "pkg".toList "/repos/pkg".toList (sampleWorld [])).2.trace
        = (sampleWorld []).trace
          ++ Event.run (tagListCommand "/repos/pkg".toList
              (samplePs ["pkg@2.0.0".toList] ["0.0.0".toList]).placeholder) failed :: evs) ∧
    ((∃ v ∈ ["2.0.0".toList, "0.0.0".toList],
        foundOrNotFound ((samplePs ["pkg@2.0.0".toList] ["0.0.0".toList]).syncer.Get
          (sampleDep "pkg".toList []).PackageSyntax v) = false) →
      ∃ v err, v ∈ ["2.0.0".toList, "0.0.0".toList] ∧
        (samplePs ["pkg@2.0.0".toList] ["0.0.0".toList]).syncer.Get
          (sampleDep "pkg".toList []).PackageSyntax v = .error err ∧
        IsNotFound err = false ∧
        Fetch (samplePs ["pkg@2.0.0".toList] ["0.0.0".toList]) (sampleRuntime [])
          "pkg".toList "/repos/pkg".toList (sampleWorld []) = (some err, sampleWorld [])) :=
  get_failure_handling (samplePs ["pkg@2.0.0".toList] ["0.0.0".toList]) (sampleRuntime [])
    "pkg".toList "/repos/pkg".toList (sampleWorld []) (sampleDep "pkg".toList [])
    ["2.0.0".toList, "0.0.0".toList] (by rfl) (by rfl)

/-! ## A build or push that fails -/

/-- When the loop that builds and pushes returns an error: the last call is
the one that failed, its error is wrapped with the display form of its
descriptor, and the tags of the calls before it are in the repository. -/
theorem pushLoop_fail (ps : vcsDependenciesSyncer) (rt : Runtime) (dir : GoString)
    (tags : List GoString) (deps : List PackageDependency) :
    ∀ (i : Nat) (w : World) (err : GoError) (w2 : World),
    pushLoop ps rt dir tags i deps w = (some err, w2) →
    ∃ evs pre d flag cause w', w2.trace = w.trace ++ evs ∧
      pushCalls evs = pre ++ [(d, flag)] ∧
      err = GoError.wrapf cause "error pushing dependency %q".toList
        [d.PackageManagerSyntax] ∧
      gitPushDependencyTag ps rt dir d flag w' = (some cause, w2) ∧
      (∀ c ∈ pre, c.1.GitTagFromVersion ∈ w2.tags) ∧
      (∀ t ∈ w.tags, t ∈ w2.tags) := by
  induction deps with
  | nil =>
    intro i w err w2 h
    simp [pushLoop] at h
  | cons d rest ih =>
    intro i w err w2 h
    by_cases hmem : d.GitTagFromVersion ∈ tags
    · rw [pushLoop, if_pos hmem] at h
      exact ih (i + 1) w err w2 h
    · rw [pushLoop, if_neg hmem] at h
      obtain ⟨evs1, g1, g2, _, _, g5, g6⟩ := gitPushDependencyTag_post ps rt dir d (i == 0) w
      rcases hr : gitPushDependencyTag ps rt dir d (i == 0) w with ⟨_ | cause, w1⟩
      · rw [hr] at h g1 g6
        simp only at h g1 g6
        obtain ⟨_, htags1⟩ := g6 trivial
        obtain ⟨evs, pre, d', flag, cause', w', k1, k2, k3, k4, k5, k6⟩ :=
          ih (i + 1) w1 err w2 h
        refine ⟨Event.pushDependencyTag d (i == 0) :: evs1 ++ evs, (d, i == 0) :: pre, d',
          flag, cause', w', ?_, ?_, k3, k4, ?_, ?_⟩
        · rw [k1, g1]; simp
        · rw [List.cons_append, pushCalls_cons_call, pushCalls_append, g2, k2]
          rfl
        · intro c hc
          rcases List.mem_cons.1 hc with e | hc
          · subst e
            exact k6 _ (by rw [htags1]; exact (mem_withTag _ _ _).2 (Or.inr rfl))
          · exact k5 c hc
        · intro t ht
          exact k6 t (by rw [htags1]; exact (mem_withTag _ _ _).2 (Or.inl ht))
      · rw [hr] at h g1 g5
        simp only [Prod.mk.injEq, Option.some.injEq] at h
        simp only at g1 g5
        obtain ⟨h1, h2⟩ := h
        subst h2
        refine ⟨Event.pushDependencyTag d (i == 0) :: evs1, [], d, i == 0, cause, w, g1, ?_,
          h1.symm, hr, by simp, ?_⟩
        · rw [pushCalls_cons_call, g2]; rfl
        · intro t ht
          rcases g5 with h | ⟨_, h⟩
          · rw [h]; exact ht
          · rw [h]; exact (mem_withTag _ _ _).2 (Or.inl ht)

/-- C12: if in a pass of `Fetch` a step fails that is neither the reading of
the tags nor a tag deletion, that is, a step of building or pushing a missing
version, then the last call of `gitPushDependencyTag` of the pass is the
failed one, no later version is built, `Fetch` returns the error of that call
wrapped with the display form (`PackageManagerSyntax`) of its descriptor, the
tags pushed by the earlier calls of the pass are in the repository, and no
tag deletion is attempted. -/
theorem build_failure_aborts (ps : vcsDependenciesSyncer) (rt : Runtime)
    (remoteURLPath dir : GoString) (w : World) (dep : PackageDependency) (vs : List GoString)
    (hparse : ps.syncer.ParseDependencyFromRepoName remoteURLPath = .ok dep)
    (hvers : versions ps dep.PackageSyntax = .ok vs) (hwf : w.WellFormed)
    (htr : w.trace = [])
    (hfail : ∃ e ∈ (Fetch ps rt remoteURLPath dir w).2.trace, e.failed = true ∧
      e ≠ Event.run (tagListCommand dir ps.placeholder) true ∧
      ∀ cmd, e = Event.run cmd true → deleteTarget cmd = none) :
    ∃ pre d flag cause w',
      pushCalls (Fetch ps rt remoteURLPath dir w).2.trace = pre ++ [(d, flag)] ∧
      pre ++ [(d, flag)] <+: toCreate w.tags 0 (confirmed ps dep.PackageSyntax vs) ∧
      gitPushDependencyTag ps rt dir d flag w'
        = (some cause, (Fetch ps rt remoteURLPath dir w).2) ∧
      (Fetch ps rt remoteURLPath dir w).1
        = some (GoError.wrapf cause "error pushing dependency %q".toList
            [d.PackageManagerSyntax]) ∧
      (∀ c ∈ pre, c.1.GitTagFromVersion ∈ (Fetch ps rt remoteURLPath dir w).2.tags) ∧
      deleteAttempts (Fetch ps rt remoteURLPath dir w).2.trace = [] := by
  have hdel : deleteTarget (tagListCommand dir ps.placeholder) = none := rfl
  have hpre := (Fetch_pushCalls ps rt remoteURLPath dir w dep vs hparse hvers hwf htr).1
  obtain ⟨e, he, hf, hne, hnd⟩ := hfail
  rcases Fetch_unfold ps rt remoteURLPath dir w dep vs hparse hvers hwf with
    ⟨err, _, hF⟩ | ⟨_, ⟨err, hF⟩ | ⟨tagsRead, hread, _, hF⟩⟩
  · rw [hF] at he
    simp [htr] at he
  · rw [hF] at he
    simp only [htr, List.nil_append, List.mem_singleton] at he
    exact absurd he hne
  · obtain ⟨evs, h1, _, _, h4, h5, _⟩ :=
      pushLoop_post ps rt dir tagsRead (confirmed ps dep.PackageSyntax vs) 0
        { w with trace := w.trace ++ [Event.run (tagListCommand dir ps.placeholder) false] }
    rcases hp : pushLoop ps rt dir tagsRead 0 (confirmed ps dep.PackageSyntax vs)
        { w with trace := w.trace ++ [Event.run (tagListCommand dir ps.placeholder) false] }
      with ⟨_ | err, w2⟩
    · -- the loop succeeded: the failed step would be a deletion
      exfalso
      rw [hp] at h1 h5
      simp only at h1 h5
      rw [hF, hp] at he
      simp only at he
      obtain ⟨evs2, k1, _, _, k4, _⟩ :=
        deleteLoop_post ps rt dir (dependencyTagsLoop (confirmed ps dep.PackageSyntax vs) [])
          (rt.rangeOrder tagsRead) w2
      rw [k1, h1, htr] at he
      simp only [List.nil_append, List.cons_append, List.mem_cons, List.mem_append] at he
      rcases he with he | he | he
      · subst he
        simp [Event.failed] at hf
      · have := h5.1 trivial e he
        rw [hf] at this
        cases this
      · obtain ⟨cmd, failed, hcmd, hdt⟩ := k4 e he
        subst hcmd
        have hfl : failed = true := by simpa [Event.failed] using hf
        subst hfl
        exact hdt (hnd cmd rfl)
    · obtain ⟨evs', pre, d, flag, cause, w', k1, k2, k3, k4, k5, _⟩ :=
        pushLoop_fail ps rt dir tagsRead (confirmed ps dep.PackageSyntax vs) 0 _ err w2 hp
      rw [hp] at h1
      simp only at h1
      have hevs : evs' = evs := by
        have := k1.symm.trans h1
        exact List.append_cancel_left this
      subst hevs
      have hFw : Fetch ps rt remoteURLPath dir w = (some err, w2) := by
        rw [hF, hp]
      rw [hFw] at hpre ⊢
      simp only at hpre ⊢
      have hcalls : pushCalls w2.trace = pre ++ [(d, flag)] := by
        rw [h1, htr, pushCalls_append, k2]
        simp [pushCalls]
      refine ⟨pre, d, flag, cause, w', hcalls, ?_, k4, by rw [k3], k5, ?_⟩
      · rw [← hcalls]; exact hpre
      · rw [h1, htr, deleteAttempts_append, h4]
        simp [deleteAttempts, hdel]

/-- Witness of C12: a pass in which the `git init` of the first build
fails. -/
theorem build_failure_aborts_witness :
    ∃ pre d flag cause w',
      pushCalls (Fetch (samplePs ["pkg@2.0.0".toList, "pkg@1.0.0".toList] [])
        (sampleRuntime [["git".toList, "init".toList]]) "pkg".toList "/repos/pkg".toList
        (sampleWorld [])).2.trace = pre ++ [(d, flag)] ∧
      pre ++ [(d, flag)] <+: toCreate (sampleWorld []).tags 0
        (confirmed (samplePs ["pkg@2.0.0".toList, "pkg@1.0.0".toList] [])
          (sampleDep "pkg".toList []).PackageSyntax ["2.0.0".toList, "1.0.0".toList]) ∧
      gitPushDependencyTag (samplePs ["pkg@2.0.0".toList, "pkg@1.0.0".toList] [])
          (sampleRuntime [["git".toList, "init".toList]]) "/repos/pkg".toList d flag w'
        = (some cause, (Fetch (samplePs ["pkg@2.0.0".toList, "pkg@1.0.0".toList] [])
            (sampleRuntime [["git".toList, "init".toList]]) "pkg".toList "/repos/pkg".toList
            (sampleWorld [])).2) ∧
      (Fetch (samplePs ["pkg@2.0.0".toList, "pkg@1.0.0".toList] [])
          (sampleRuntime [["git".toList, "init".toList]]) "pkg".toList "/repos/pkg".toList
          (sampleWorld [])).1
        = some (GoError.wrapf cause "error pushing dependency %q".toList
            [d.PackageManagerSyntax]) ∧
      (∀ c ∈ pre, c.1.GitTagFromVersion ∈
        (Fetch (samplePs ["pkg@2.0.0".toList, "pkg@1.0.0".toList] [])
          (sampleRuntime [["git".toList, "init".toList]]) "pkg".toList "/repos/pkg".toList
          (sampleWorld [])).2.tags) ∧
      deleteAttempts (Fetch (samplePs ["pkg@2.0.0".toList, "pkg@1.0.0".toList] [])
        (sampleRuntime [["git".toList, "init".toList]]) "pkg".toList "/repos/pkg".toList
        (sampleWorld [])).2.trace = [] :=
  build_failure_aborts (samplePs ["pkg@2.0.0".toList, "pkg@1.0.0".toList] [])
    (sampleRuntime [["git".toList, "init".toList]]) "pkg".toList "/repos/pkg".toList
    (sampleWorld []) (sampleDep "pkg".toList []) ["2.0.0".toList, "1.0.0".toList]
    (by rfl) (by rfl) (by unfold World.WellFormed; decide) (by rfl)
    ⟨Event.run (located (CommandContext "git".toList ["init".toList])
        "/tmp/npm_packages".toList (sampleDep "pkg".toList "2.0.0".toList)) true,
      by decide, by rfl, by decide, fun cmd h => by cases h; rfl⟩

/-! ## Creation before deletion -/

/-- C13: the steps of a pass of `Fetch` split into a first part that holds
no tag deletion and a second part made only of tag deletions (so every call
of `gitPushDependencyTag` and every push precedes every deletion); when a
deletion is attempted, no step of the first part failed, `Fetch` returns no
error and the calls of the first part are the whole sync plan, every missing
version built and pushed; and a pass that returns an error attempts no
deletion and keeps every tag the repository had. -/
theorem creation_precedes_deletion (ps : vcsDependenciesSyncer) (rt : Runtime)
    (remoteURLPath dir : GoString) (w : World) (hwf : w.WellFormed) :
    ∃ before after,
      (Fetch ps rt remoteURLPath dir w).2.trace = w.trace ++ before ++ after ∧
      deleteAttempts before = [] ∧
      pushCalls after = [] ∧
      (∀ e ∈ after, ∃ cmd failed, e = Event.run cmd failed ∧ deleteTarget cmd ≠ none) ∧
      (after ≠ [] →
        (∀ e ∈ before, e.failed = false) ∧
        (Fetch ps rt remoteURLPath dir w).1 = none ∧
        ∀ dep vs, ps.syncer.ParseDependencyFromRepoName remoteURLPath = .ok dep →
          versions ps dep.PackageSyntax = .ok vs →
          pushCalls before = toCreate w.tags 0 (confirmed ps dep.PackageSyntax vs)) ∧
      ((Fetch ps rt remoteURLPath dir w).1 ≠ none →
        after = [] ∧ deleteAttempts before = [] ∧
        ∀ t ∈ w.tags, t ∈ (Fetch ps rt remoteURLPath dir w).2.tags) := by
  have hdel : deleteTarget (tagListCommand dir ps.placeholder) = none := rfl
  have trivialCase : ∀ err, Fetch ps rt remoteURLPath dir w = (some err, w) →
      ∃ before after,
      (Fetch ps rt remoteURLPath dir w).2.trace = w.trace ++ before ++ after ∧
      deleteAttempts before = [] ∧
      pushCalls after = [] ∧
      (∀ e ∈ after, ∃ cmd failed, e = Event.run cmd failed ∧ deleteTarget cmd ≠ none) ∧
      (after ≠ [] →
        (∀ e ∈ before, e.failed = false) ∧
        (Fetch ps rt remoteURLPath dir w).1 = none ∧
        ∀ dep vs, ps.syncer.ParseDependencyFromRepoName remoteURLPath = .ok dep →
          versions ps dep.PackageSyntax = .ok vs →
          pushCalls before = toCreate w.tags 0 (confirmed ps dep.PackageSyntax vs)) ∧
      ((Fetch ps rt remoteURLPath dir w).1 ≠ none →
        after = [] ∧ deleteAttempts before = [] ∧
        ∀ t ∈ w.tags, t ∈ (Fetch ps rt remoteURLPath dir w).2.tags) := by
    intro err hF
    rw [hF]
    exact ⟨[], [], by simp, rfl, rfl, by simp, fun h => absurd rfl h,
      fun _ => ⟨rfl, rfl, fun t ht => ht⟩⟩
  cases hparse : ps.syncer.ParseDependencyFromRepoName remoteURLPath with
  | error err =>
    rw [← hparse]
    exact trivialCase err (by simp only [Fetch, hparse])
  | ok dep =>
    rw [← hparse]
    cases hvers : versions ps dep.PackageSyntax with
    | error err => exact trivialCase err (by simp only [Fetch, hparse, hvers])
    | ok vs =>
      rcases Fetch_unfold ps rt remoteURLPath dir w dep vs hparse hvers hwf with
        ⟨err, _, hF⟩ | ⟨_, ⟨err, hF⟩ | ⟨tagsRead, hread, _, hF⟩⟩
      · exact trivialCase err hF
      · rw [hF]
        refine ⟨[Event.run (tagListCommand dir ps.placeholder) true], [], by simp, ?_, rfl,
          by simp, fun h => absurd rfl h, fun _ => ⟨rfl, ?_, fun t ht => ht⟩⟩
        · simp [deleteAttempts, hdel]
        · simp [deleteAttempts, hdel]
      · obtain ⟨evs, h1, _, h3, h4, h5, h6, _⟩ :=
          pushLoop_post ps rt dir tagsRead (confirmed ps dep.PackageSyntax vs) 0
            { w with trace := w.trace ++ [Event.run (tagListCommand dir ps.placeholder) false] }
        have hbefore : deleteAttempts
            (Event.run (tagListCommand dir ps.placeholder) false :: evs) = [] := by
          rw [deleteAttempts, hdel]
          exact h4
        rcases hp : pushLoop ps rt dir tagsRead 0 (confirmed ps dep.PackageSyntax vs)
            { w with trace := w.trace ++ [Event.run (tagListCommand dir ps.placeholder) false] }
          with ⟨_ | err, w2⟩
        · rw [hp] at h1 h3 h5
          simp only at h1 h3 h5
          obtain ⟨evs2, k1, k2, _, k4, _⟩ :=
            deleteLoop_post ps rt dir
              (dependencyTagsLoop (confirmed ps dep.PackageSyntax vs) [])
              (rt.rangeOrder tagsRead) w2
          rw [hF, hp]
          simp only
          refine ⟨Event.run (tagListCommand dir ps.placeholder) false :: evs, evs2, ?_, hbefore,
            k2, k4, fun _ => ⟨?_, trivial, ?_⟩, ?_⟩
          · rw [k1, h1]; simp
          · intro e he
            rcases List.mem_cons.1 he with he | he
            · subst he; rfl
            · exact h5.1 trivial e he
          · intro dep' vs' hd hv
            rw [hparse] at hd
            cases hd
            rw [hvers] at hv
            cases hv
            have : pushCalls (Event.run (tagListCommand dir ps.placeholder) false :: evs)
                = pushCalls evs := rfl
            rw [this, h3 trivial]
            exact toCreate_congr hread _ 0
          · intro h
            simp at h
        · rw [hp] at h1 h6
          simp only at h1 h6
          rw [hF, hp]
          simp only
          refine ⟨Event.run (tagListCommand dir ps.placeholder) false :: evs, [], ?_, hbefore,
            rfl, by simp, fun h => absurd rfl h, fun _ => ⟨rfl, hbefore, h6⟩⟩
          rw [h1]; simp

/-- Witness of C13: a pass that builds version `2.0.0` and then deletes the
obsolete tag `v0.9`. -/
theorem creation_precedes_deletion_witness :
    ∃ before after,
      (Fetch (samplePs ["pkg@2.0.0".toList] []) (sampleRuntime []) "pkg".toList
        "/repos/pkg".toList (sampleWorld ["v0.9".toList])).2.trace
        = (sampleWorld ["v0.9".toList]).trace ++ before ++ after ∧
      deleteAttempts before = [] ∧
      pushCalls after = [] ∧
      (∀ e ∈ after, ∃ cmd failed, e = Event.run cmd failed ∧ deleteTarget cmd ≠ none) ∧
      (after ≠ [] →
        (∀ e ∈ before, e.failed = false) ∧
        (Fetch (samplePs ["pkg@2.0.0".toList] []) (sampleRuntime []) "pkg".toList
          "/repos/pkg".toList (sampleWorld ["v0.9".toList])).1 = none ∧
        ∀ dep vs, (samplePs ["pkg@2.0.0".toList] []).syncer.ParseDependencyFromRepoName
            "pkg".toList = .ok dep →
          versions (samplePs ["pkg@2.0.0".toList] []) dep.PackageSyntax = .ok vs →
          pushCalls before = toCreate (sampleWorld ["v0.9".toList]).tags 0
            (confirmed (samplePs ["pkg@2.0.0".toList] []) dep.PackageSyntax vs)) ∧
      ((Fetch (samplePs ["pkg@2.0.0".toList] []) (sampleRuntime []) "pkg".toList
          "/repos/pkg".toList (sampleWorld ["v0.9".toList])).1 ≠ none →
        after = [] ∧ deleteAttempts before = [] ∧
        ∀ t ∈ (sampleWorld ["v0.9".toList]).tags,
          t ∈ (Fetch (samplePs ["pkg@2.0.0".toList] []) (sampleRuntime []) "pkg".toList
            "/repos/pkg".toList (sampleWorld ["v0.9".toList])).2.tags) :=
  creation_precedes_deletion (samplePs ["pkg@2.0.0".toList] []) (sampleRuntime [])
    "pkg".toList "/repos/pkg".toList (sampleWorld ["v0.9".toList])
    (by unfold World.WellFormed; decide)

/-! ## The identity of the commits -/

/-- The environment entries of `runCommandInDirectory`, spelled out. -/
theorem gitEnv_eq (dep : PackageDependency) :
    gitEnv dep =
      [ "EMAIL=code-intel@sourcegraph.com".toList,
        "GIT_AUTHOR_NAME=".toList ++ (dep.PackageManagerSyntax ++ " authors".toList),
        "GIT_AUTHOR_EMAIL=code-intel@sourcegraph.com".toList,
        "GIT_AUTHOR_DATE=Thu Apr 8 14:24:52 2021 +0200".toList,
        "GIT_COMMITTER_NAME=".toList ++ (dep.PackageManagerSyntax ++ " authors".toList),
        "GIT_COMMITTER_EMAIL=code-intel@sourcegraph.com".toList,
        "GIT_COMMITTER_DATE=Thu Apr 8 14:24:52 2021 +0200".toList ] := rfl

/-- The one step `runCommandInDirectory` adds to the trace. -/
theorem runCommandInDirectory_trace (rt : Runtime) (cmd : Cmd) (dir : GoString)
    (dep : PackageDependency) (w : World) :
    ∃ failed, (runCommandInDirectory rt cmd dir dep w).2.trace
      = w.trace ++ [Event.run (located cmd dir dep) failed] := by
  rw [runCommandInDirectory_eq]
  cases rt.runError w.trace.length (located cmd dir dep) with
  | some err => exact ⟨true, rfl⟩
  | none =>
    simp only []
    by_cases hr : gitRefuses cmd = true
    · rw [if_pos hr]; exact ⟨true, rfl⟩
    · rw [if_neg hr]; exact ⟨false, rfl⟩

/-- C14: a freshly created command `name arg...` run through
`runCommandInDirectory` is run with exactly the seven environment entries
`EMAIL`, `GIT_AUTHOR_NAME`, `GIT_AUTHOR_EMAIL`, `GIT_AUTHOR_DATE`,
`GIT_COMMITTER_NAME`, `GIT_COMMITTER_EMAIL`, `GIT_COMMITTER_DATE`: the names
are the display syntax followed by " authors", the e-mails are
"code-intel@sourcegraph.com", the dates are "Thu Apr 8 14:24:52 2021 +0200";
and a second run for a descriptor with the same display syntax, of any
command, in any directory, at any time and in any state, gets the same
environment. -/
theorem commit_identity_deterministic (rt rt' : Runtime) (name name' : GoString)
    (arg arg' : List GoString) (dir dir' : GoString) (dep dep' : PackageDependency)
    (w w' : World) (hsame : dep'.PackageManagerSyntax = dep.PackageManagerSyntax) :
    ∃ failed failed' env,
      (runCommandInDirectory rt (CommandContext name arg) dir dep w).2.trace
        = w.trace ++ [Event.run { Args := name :: arg, Dir := dir, Env := env } failed] ∧
      (runCommandInDirectory rt' (CommandContext name' arg') dir' dep' w').2.trace
        = w'.trace ++ [Event.run { Args := name' :: arg', Dir := dir', Env := env } failed'] ∧
      env =
        [ "EMAIL=code-intel@sourcegraph.com".toList,
          "GIT_AUTHOR_NAME=".toList ++ (dep.PackageManagerSyntax ++ " authors".toList),
          "GIT_AUTHOR_EMAIL=code-intel@sourcegraph.com".toList,
          "GIT_AUTHOR_DATE=Thu Apr 8 14:24:52 2021 +0200".toList,
          "GIT_COMMITTER_NAME=".toList ++ (dep.PackageManagerSyntax ++ " authors".toList),
          "GIT_COMMITTER_EMAIL=code-intel@sourcegraph.com".toList,
          "GIT_COMMITTER_DATE=Thu Apr 8 14:24:52 2021 +0200".toList ] := by
  obtain ⟨failed, h⟩ := runCommandInDirectory_trace rt (CommandContext name arg) dir dep w
  obtain ⟨failed', h'⟩ :=
    runCommandInDirectory_trace rt' (CommandContext name' arg') dir' dep' w'
  refine ⟨failed, failed', _, ?_, ?_, rfl⟩
  · rw [h, ← gitEnv_eq]; rfl
  · rw [h', ← hsame, ← gitEnv_eq]; rfl

/-- Witness of C14: a `git init` for `pkg@1.0.0` and, later and elsewhere, a
failing `git add .` for a descriptor with the same display syntax. -/
theorem commit_identity_deterministic_witness :
    ∃ failed failed' env,
      (runCommandInDirectory (sampleRuntime []) (CommandContext "git".toList ["init".toList])
          "/tmp/a".toList (sampleDep "pkg".toList "1.0.0".toList) (sampleWorld [])).2.trace
        = (sampleWorld []).trace
          ++ [Event.run { Args := "git".toList :: ["init".toList], Dir := "/tmp/a".toList,
                          Env := env } failed] ∧
      (runCommandInDirectory (sampleRuntime [["git".toList, "add".toList, ".".toList]])
          (CommandContext "git".toList ["add".toList, ".".toList]) "/tmp/b".toList
          { sampleDep "pkg".toList "1.0.0".toList with GitTagFromVersion := "other".toList }
          (sampleWorld ["v0.9".toList])).2.trace
        = (sampleWorld ["v0.9".toList]).trace
          ++ [Event.run { Args := "git".toList :: ["add".toList, ".".toList],
                          Dir := "/tmp/b".toList, Env := env } failed'] ∧
      env =
        [ "EMAIL=code-intel@sourcegraph.com".toList,
          "GIT_AUTHOR_NAME=".toList
            ++ ((sampleDep "pkg".toList "1.0.0".toList).PackageManagerSyntax
              ++ " authors".toList),
          "GIT_AUTHOR_EMAIL=code-intel@sourcegraph.com".toList,
          "GIT_AUTHOR_DATE=Thu Apr 8 14:24:52 2021 +0200".toList,
          "GIT_COMMITTER_NAME=".toList
            ++ ((sampleDep "pkg".toList "1.0.0".toList).PackageManagerSyntax
              ++ " authors".toList),
          "GIT_COMMITTER_EMAIL=code-intel@sourcegraph.com".toList,
          "GIT_COMMITTER_DATE=Thu Apr 8 14:24:52 2021 +0200".toList ] :=
  commit_identity_deterministic (sampleRuntime [])
    (sampleRuntime [["git".toList, "add".toList, ".".toList]]) "git".toList "git".toList
    ["init".toList] ["add".toList, ".".toList] "/tmp/a".toList "/tmp/b".toList
    (sampleDep "pkg".toList "1.0.0".toList)
    { sampleDep "pkg".toList "1.0.0".toList with GitTagFromVersion := "other".toList }
    (sampleWorld []) (sampleWorld ["v0.9".toList]) (by rfl)

/-! ## The commit construction protocol -/

theorem StepsPost.nil (rt : Runtime) (w : World) (workDir : GoString) :
    StepsPost rt w workDir [] (none, w) :=
  ⟨[], by simp, by simp [ranCommands], by simp [ranCommands], by simp, fun _ => rfl,
    fun err h => by cases h⟩

/-- One command of a chain: it fails and the chain stops with its error, or
it succeeds and the chain goes on with the rest of the plan. -/
theorem StepsPost.step (rt : Runtime) (cmd : Cmd) (dir : GoString) (dep : PackageDependency)
    (w : World) (k : GoString → World → Option GoError × World) (plan : List (List GoString))
    (hk : ∀ w', w'.trace = w.trace ++ [Event.run (located cmd dir dep) false] →
      StepsPost rt w' dir plan (k (gitEffect rt cmd w).1 w')) :
    StepsPost rt w dir (cmd.Args :: plan)
      (thenRun (runCommandInDirectory rt cmd dir dep w) k) := by
  have hfail : ∀ cause, StepsPost rt w dir (cmd.Args :: plan)
      (some (GoError.wrapf cause "command %s failed with output %s".toList
          [formatArgs cmd.Args, rt.failOutput w.trace.length (located cmd dir dep)]),
        { w with trace := w.trace ++ [Event.run (located cmd dir dep) true] }) := by
    intro cause
    refine ⟨[Event.run (located cmd dir dep) true], rfl, ?_, ?_, ?_, ?_, ?_⟩
    · simp [ranCommands, located]
    · simp [ranCommands, located]
    · simp [Event.failed]
    · intro h; cases h
    · intro err h
      cases h
      exact ⟨[], located cmd dir dep, cause, rfl, by simp, by rw [List.append_nil]; rfl⟩
  rw [runCommandInDirectory_eq]
  cases hrun : rt.runError w.trace.length (located cmd dir dep) with
  | some err => exact hfail err
  | none =>
    simp only []
    by_cases hr : gitRefuses cmd = true
    · rw [if_pos hr]; exact hfail _
    · rw [if_neg hr]
      obtain ⟨evs, h1, h2, h3, h4, h5, h6⟩ := hk
        { (gitEffect rt cmd w).2 with
          trace := w.trace ++ [Event.run (located cmd dir dep) false] } rfl
      refine ⟨Event.run (located cmd dir dep) false :: evs, ?_, ?_, ?_, ?_, ?_, ?_⟩
      · show (k _ _).2.trace = _
        rw [h1]; simp
      · simpa [ranCommands, located] using h2
      · intro c hc
        rcases List.mem_cons.1 hc with hc | hc
        · subst hc; rfl
        · exact h3 c hc
      · show (k _ _).1 = none ↔ _
        rw [h4]
        simp [Event.failed]
      · intro h
        have := h5 h
        simp [ranCommands, located, this]
      · intro err h
        obtain ⟨pre, c, cause, e1, e2, e3⟩ := h6 err h
        refine ⟨Event.run (located cmd dir dep) false :: pre, c, cause, by rw [e1]; rfl, ?_, ?_⟩
        · intro e he
          rcases List.mem_cons.1 he with he | he
          · subst he; rfl
          · exact e2 e he
        · rw [e3]
          have hl : ((w.trace ++ [Event.run (located cmd dir dep) false]) ++ pre).length
              = (w.trace ++ Event.run (located cmd dir dep) false :: pre).length := by simp
          exact congrArg (fun n => GoError.wrapf cause
            "command %s failed with output %s".toList [formatArgs c.Args, rt.failOutput n c]) hl

theorem commitProtocol_latest (bare : GoString) (d : PackageDependency) (branch : GoString) :
    commitProtocol bare d true branch =
      [ ["git".toList, "init".toList],
        ["git".toList, "add".toList, ".".toList],
        ["git".toList, "commit".toList, "--no-verify".toList, "-m".toList,
          d.PackageManagerSyntax, "--date".toList, stableGitCommitDate],
        ["git".toList, "tag".toList, "-m".toList, d.PackageManagerSyntax, d.GitTagFromVersion],
        ["git".toList, "remote".toList, "add".toList, "origin".toList, bare],
        ["git".toList, "push".toList, "--no-verify".toList, "--force".toList,
          "origin".toList, "--tags".toList],
        ["git".toList, "rev-parse".toList, "--abbrev-ref".toList, "HEAD".toList],
        ["git".toList, "push".toList, "--no-verify".toList, "--force".toList, "origin".toList,
          TrimSpace branch ++ ":latest".toList, d.GitTagFromVersion] ] := rfl

theorem commitProtocol_not_latest (bare : GoString) (d : PackageDependency)
    (branch : GoString) :
    commitProtocol bare d false branch =
      [ ["git".toList, "init".toList],
        ["git".toList, "add".toList, ".".toList],
        ["git".toList, "commit".toList, "--no-verify".toList, "-m".toList,
          d.PackageManagerSyntax, "--date".toList, stableGitCommitDate],
        ["git".toList, "tag".toList, "-m".toList, d.PackageManagerSyntax, d.GitTagFromVersion],
        ["git".toList, "remote".toList, "add".toList, "origin".toList, bare],
        ["git".toList, "push".toList, "--no-verify".toList, "--force".toList,
          "origin".toList, "--tags".toList] ] := rfl

/-- Every commit and push of the protocol carries `--no-verify`. -/
theorem commitProtocol_no_verify (bare : GoString) (d : PackageDependency) (flag : Bool)
    (branch : GoString) (args : List GoString)
    (h : args ∈ commitProtocol bare d flag branch)
    (hc : args.get? 1 = some "commit".toList ∨ args.get? 1 = some "push".toList) :
    "--no-verify".toList ∈ args := by
  cases flag
  · rw [commitProtocol_not_latest] at h
    simp only [List.mem_cons, List.mem_singleton, List.not_mem_nil, or_false] at h
    rcases h with h | h | h | h | h | h <;> subst h <;> first
      | (simp; done)
      | (exfalso; revert hc; simp)
  · rw [commitProtocol_latest] at h
    simp only [List.mem_cons, List.mem_singleton, List.not_mem_nil, or_false] at h
    rcases h with h | h | h | h | h | h | h | h <;> subst h <;> first
      | (simp; done)
      | (exfalso; revert hc; simp)

/-- The commands of `gitPushDependencyTag` once the download succeeded. -/
theorem gitPushDependencyTagIn_steps (ps : vcsDependenciesSyncer) (rt : Runtime)
    (bare workDir : GoString) (dep : PackageDependency) (flag : Bool) (w : World)
    (hd : ps.syncer.Download workDir dep = none) :
    StepsPost rt { w with trace := w.trace ++ [Event.download dep false] } workDir
      (commitProtocol bare dep flag rt.headBranch)
      (gitPushDependencyTagIn ps rt bare workDir dep flag w) := by
  rw [gitPushDependencyTagIn_eq, hd]
  simp only []
  cases flag
  · rw [commitProtocol_not_latest]
    refine StepsPost.step _ _ _ _ _ _ _ (fun w1 _ => ?_)
    refine StepsPost.step _ _ _ _ _ _ _ (fun w2 _ => ?_)
    refine StepsPost.step _ _ _ _ _ _ _ (fun w3 _ => ?_)
    refine StepsPost.step _ _ _ _ _ _ _ (fun w4 _ => ?_)
    refine StepsPost.step _ _ _ _ _ _ _ (fun w5 _ => ?_)
    refine StepsPost.step _ _ _ _ _ _ _ (fun w6 _ => ?_)
    exact StepsPost.nil _ _ _
  · rw [commitProtocol_latest]
    refine StepsPost.step _ _ _ _ _ _ _ (fun w1 _ => ?_)
    refine StepsPost.step _ _ _ _ _ _ _ (fun w2 _ => ?_)
    refine StepsPost.step _ _ _ _ _ _ _ (fun w3 _ => ?_)
    refine StepsPost.step _ _ _ _ _ _ _ (fun w4 _ => ?_)
    refine StepsPost.step _ _ _ _ _ _ _ (fun w5 _ => ?_)
    refine StepsPost.step _ _ _ _ _ _ _ (fun w6 _ => ?_)
    refine StepsPost.step _ _ _ _ _ _ _ (fun w7 _ => ?_)
    refine StepsPost.step _ _ _ _ _ _ _ (fun w8 _ => ?_)
    exact StepsPost.nil _ _ _

/-- C15: the steps of a call of `gitPushDependencyTag` for the descriptor
`d` after its entry are such that: the commands run are, in order, an initial
part of the commit construction protocol (`git init`, `git add .`,
`git commit --no-verify -m <display syntax> --date <stable date>`,
`git tag -m <display syntax> <canonical tag>`, `git remote add origin <bare>`,
`git push --no-verify --force origin --tags` and, exactly when `d` is flagged
latest, `git rev-parse --abbrev-ref HEAD` and
`git push --no-verify --force origin <trimmed branch>:latest <canonical tag>`),
each run in the scratch directory; the call returns no error exactly when no
step failed, and then the commands run are the whole protocol; when it
returns an error, the step that failed is the last one and the error is the
one of that step (for a command: its error wrapped with its arguments and the
output captured from it); and every commit and push command run carries
`--no-verify`. -/
theorem commit_protocol (ps : vcsDependenciesSyncer) (rt : Runtime) (bare : GoString)
    (d : PackageDependency) (flag : Bool) (w : World) :
    ∃ evs, (gitPushDependencyTag ps rt bare d flag w).2.trace
          = w.trace ++ Event.pushDependencyTag d flag :: evs ∧
      (ranCommands evs).map Cmd.Args <+: commitProtocol bare d flag rt.headBranch ∧
      (∀ c ∈ ranCommands evs,
        rt.MkdirTemp (w.trace ++ [Event.pushDependencyTag d flag]).length ps.typ = .ok c.Dir) ∧
      ((gitPushDependencyTag ps rt bare d flag w).1 = none ↔ ∀ e ∈ evs, e.failed = false) ∧
      ((∀ e ∈ evs, e.failed = false) →
        (ranCommands evs).map Cmd.Args = commitProtocol bare d flag rt.headBranch) ∧
      (∀ err, (gitPushDependencyTag ps rt bare d flag w).1 = some err →
        ∃ pre e, evs = pre ++ [e] ∧ (∀ e' ∈ pre, e'.failed = false) ∧ e.failed = true ∧
          ((e = Event.mkdirTemp true ∧
              rt.MkdirTemp (w.trace ++ [Event.pushDependencyTag d flag]).length ps.typ
                = .error err) ∨
            (∃ workDir, e = Event.download d true ∧ ps.syncer.Download workDir d = some err) ∨
            ∃ cmd cause, e = Event.run cmd true ∧
              err = GoError.wrapf cause "command %s failed with output %s".toList
                [formatArgs cmd.Args,
                  rt.failOutput (w.trace ++ Event.pushDependencyTag d flag :: pre).length
                    cmd])) ∧
      (∀ c ∈ ranCommands evs,
        (c.Args.get? 1 = some "commit".toList ∨ c.Args.get? 1 = some "push".toList) →
          "--no-verify".toList ∈ c.Args) := by
  have hnv : ∀ evs : List Event,
      (ranCommands evs).map Cmd.Args <+: commitProtocol bare d flag rt.headBranch →
      ∀ c ∈ ranCommands evs,
        (c.Args.get? 1 = some "commit".toList ∨ c.Args.get? 1 = some "push".toList) →
          "--no-verify".toList ∈ c.Args := by
    intro evs hpre c hc hcp
    exact commitProtocol_no_verify bare d flag rt.headBranch c.Args
      (hpre.subset (List.mem_map_of_mem _ hc)) hcp
  unfold gitPushDependencyTag
  simp only []
  cases hmk : rt.MkdirTemp (w.trace ++ [Event.pushDependencyTag d flag]).length ps.typ with
  | error err =>
    refine ⟨[Event.mkdirTemp true], by simp, by simp [ranCommands], by simp [ranCommands],
      by simp [Event.failed], by simp [Event.failed], ?_, by simp [ranCommands]⟩
    intro err' h
    cases h
    exact ⟨[], Event.mkdirTemp true, rfl, by simp, rfl, Or.inl ⟨rfl, rfl⟩⟩
  | ok workDir =>
    simp only []
    cases hdl : ps.syncer.Download workDir d with
    | some err =>
      have hin : gitPushDependencyTagIn ps rt bare workDir d flag
          { w with
            scratch := []
            trace := w.trace ++ [Event.pushDependencyTag d flag] ++ [Event.mkdirTemp false] }
          = (some err, { w with
            scratch := []
            trace := w.trace ++ [Event.pushDependencyTag d flag] ++ [Event.mkdirTemp false]
              ++ [Event.download d true] }) := by
        rw [gitPushDependencyTagIn_eq, hdl]
      rw [hin]
      refine ⟨[Event.mkdirTemp false, Event.download d true], by simp, by simp [ranCommands],
        by simp [ranCommands], by simp [Event.failed], by simp [Event.failed], ?_,
        by simp [ranCommands]⟩
      intro err' h
      cases h
      refine ⟨[Event.mkdirTemp false], Event.download d true, rfl, ?_, rfl,
        Or.inr (Or.inl ⟨workDir, rfl, hdl⟩)⟩
      intro e he
      rw [List.mem_singleton] at he
      subst he
      rfl
    | none =>
      obtain ⟨evs, h1, h2, h3, h4, h5, h6⟩ :=
        gitPushDependencyTagIn_steps ps rt bare workDir d flag
          { w with
            scratch := []
            trace := w.trace ++ [Event.pushDependencyTag d flag] ++ [Event.mkdirTemp false] }
          hdl
      have hrc : ranCommands (Event.mkdirTemp false :: Event.download d false :: evs)
          = ranCommands evs := rfl
      refine ⟨Event.mkdirTemp false :: Event.download d false :: evs, ?_, ?_, ?_, ?_, ?_, ?_,
        ?_⟩
      · simp only [h1]; simp
      · rw [hrc]; exact h2
      · rw [hrc]
        intro c hc
        rw [h3 c hc]
      · simp only [h4]
        simp [Event.failed]
      · intro hall
        rw [hrc]
        exact h5 (h4.2 (fun e he => hall e (by simp [he])))
      · intro err h
        obtain ⟨pre, cmd, cause, e1, e2, e3⟩ := h6 err h
        refine ⟨Event.mkdirTemp false :: Event.download d false :: pre, Event.run cmd true,
          by rw [e1]; rfl, ?_, rfl, Or.inr (Or.inr ⟨cmd, cause, rfl, ?_⟩)⟩
        · intro e he
          rcases List.mem_cons.1 he with he | he
          · subst he; rfl
          · rcases List.mem_cons.1 he with he | he
            · subst he; rfl
            · exact e2 e he
        · rw [e3]
          have hl : ((w.trace ++ [Event.pushDependencyTag d flag] ++ [Event.mkdirTemp false]
                ++ [Event.download d false]) ++ pre).length
              = (w.trace ++ Event.pushDependencyTag d flag
                  :: (Event.mkdirTemp false :: Event.download d false :: pre)).length := by
            simp
          exact congrArg (fun n => GoError.wrapf cause
            "command %s failed with output %s".toList
            [formatArgs cmd.Args, rt.failOutput n cmd]) hl
      · rw [hrc]
        exact hnv evs h2

/-- Witness of C15: the call for `pkg@1.0.0`, flagged latest, in which every
step succeeds runs the eight commands of the protocol and returns no error;
and the call in which `git add .` fails returns the error of that command
with its arguments and its output. -/
theorem commit_protocol_witness :
    (gitPushDependencyTag (samplePs [] []) (sampleRuntime []) "/repos/pkg".toList
        (sampleDep "pkg".toList "1.0.0".toList) true (sampleWorld [])).1 = none ∧
    (gitPushDependencyTag (samplePs [] [])
        (sampleRuntime [["git".toList, "add".toList, ".".toList]]) "/repos/pkg".toList
        (sampleDep "pkg".toList "1.0.0".toList) true (sampleWorld [])).1
      = some (GoError.wrapf (GoError.base "exit status 1".toList false)
          "command %s failed with output %s".toList
          ["[git add .]".toList, "fatal: git add .\n".toList]) ∧
    (ranCommands (gitPushDependencyTag (samplePs [] [])
        (sampleRuntime [["git".toList, "add".toList, ".".toList]]) "/repos/pkg".toList
        (sampleDep "pkg".toList "1.0.0".toList) true (sampleWorld [])).2.trace).map Cmd.Args
      = [["git".toList, "init".toList], ["git".toList, "add".toList, ".".toList]] ∧
    (ranCommands (gitPushDependencyTag (samplePs [] []) (sampleRuntime [])
        "/repos/pkg".toList (sampleDep "pkg".toList "1.0.0".toList) true
        (sampleWorld [])).2.trace).map Cmd.Args
      = [ ["git".toList, "init".toList],
          ["git".toList, "add".toList, ".".toList],
          ["git".toList, "commit".toList, "--no-verify".toList, "-m".toList,
            "pkg@1.0.0".toList, "--date".toList, "Thu Apr 8 14:24:52 2021 +0200".toList],
          ["git".toList, "tag".toList, "-m".toList, "pkg@1.0.0".toList, "v1.0.0".toList],
          ["git".toList, "remote".toList, "add".toList, "origin".toList,
            "/repos/pkg".toList],
          ["git".toList, "push".toList, "--no-verify".toList, "--force".toList,
            "origin".toList, "--tags".toList],
          ["git".toList, "rev-parse".toList, "--abbrev-ref".toList, "HEAD".toList],
          ["git".toList, "push".toList, "--no-verify".toList, "--force".toList,
            "origin".toList, "master:latest".toList, "v1.0.0".toList] ] ∧
    ∃ evs, (gitPushDependencyTag (samplePs [] []) (sampleRuntime []) "/repos/pkg".toList
          (sampleDep "pkg".toList "1.0.0".toList) true (sampleWorld [])).2.trace
        = (sampleWorld []).trace
          ++ Event.pushDependencyTag (sampleDep "pkg".toList "1.0.0".toList) true :: evs ∧
      (ranCommands evs).map Cmd.Args <+: commitProtocol "/repos/pkg".toList
        (sampleDep "pkg".toList "1.0.0".toList) true (sampleRuntime []).headBranch ∧
      (∀ c ∈ ranCommands evs,
        (sampleRuntime []).MkdirTemp ((sampleWorld []).trace
          ++ [Event.pushDependencyTag (sampleDep "pkg".toList "1.0.0".toList) true]).length
          (samplePs [] []).typ = .ok c.Dir) ∧
      ((gitPushDependencyTag (samplePs [] []) (sampleRuntime []) "/repos/pkg".toList
          (sampleDep "pkg".toList "1.0.0".toList) true (sampleWorld [])).1 = none ↔
        ∀ e ∈ evs, e.failed = false) ∧
      ((∀ e ∈ evs, e.failed = false) →
        (ranCommands evs).map Cmd.Args = commitProtocol "/repos/pkg".toList
          (sampleDep "pkg".toList "1.0.0".toList) true (sampleRuntime []).headBranch) ∧
      (∀ err, (gitPushDependencyTag (samplePs [] []) (sampleRuntime []) "/repos/pkg".toList
          (sampleDep "pkg".toList "1.0.0".toList) true (sampleWorld [])).1 = some err →
        ∃ pre e, evs = pre ++ [e] ∧ (∀ e' ∈ pre, e'.failed = false) ∧ e.failed = true ∧
          ((e = Event.mkdirTemp true ∧
              (sampleRuntime []).MkdirTemp ((sampleWorld []).trace
                ++ [Event.pushDependencyTag (sampleDep "pkg".toList "1.0.0".toList)
                      true]).length (samplePs [] []).typ = .error err) ∨
            (∃ workDir, e = Event.download (sampleDep "pkg".toList "1.0.0".toList) true ∧
              (samplePs [] []).syncer.Download workDir
                (sampleDep "pkg".toList "1.0.0".toList) = some err) ∨
            ∃ cmd cause, e = Event.run cmd true ∧
              err = GoError.wrapf cause "command %s failed with output %s".toList
                [formatArgs cmd.Args,
                  (sampleRuntime []).failOutput ((sampleWorld []).trace
                    ++ Event.pushDependencyTag (sampleDep "pkg".toList "1.0.0".toList) true
                      :: pre).length cmd])) ∧
      (∀ c ∈ ranCommands evs,
        (c.Args.get? 1 = some "commit".toList ∨ c.Args.get? 1 = some "push".toList) →
          "--no-verify".toList ∈ c.Args) :=
  ⟨by decide, by decide, by decide, by decide,
    commit_protocol (samplePs [] []) (sampleRuntime []) "/repos/pkg".toList
      (sampleDep "pkg".toList "1.0.0".toList) true (sampleWorld [])⟩

/-! ## The version resolver -/

theorem configVersions_eq (ps : vcsDependenciesSyncer) (packageName : GoString)
    (l : List GoString) : ∀ acc,
    configVersions ps packageName l acc = acc ++ l.filterMap (matchingVersion ps packageName) := by
  induction l with
  | nil => intro acc; simp [configVersions]
  | cons d rest ih =>
    intro acc
    rw [configVersions]
    cases hp : ps.syncer.ParseDependency d with
    | error err =>
      simp only []
      rw [ih, List.filterMap_cons]
      simp [matchingVersion, hp]
    | ok dep =>
      simp only []
      by_cases hn : dep.PackageSyntax = packageName
      · rw [if_pos hn, ih, List.filterMap_cons]
        simp [matchingVersion, hp, hn]
      · rw [if_neg hn, ih, List.filterMap_cons]
        simp [matchingVersion, hp, hn]

/-- C17: whatever the configuration list, when the store answers with the
records `depRepos`, `versions(packageName)` succeeds and returns the versions
of the configuration strings that parse and whose `PackageSyntax` is
`packageName`, in configuration order (a string that does not parse
contributes nothing), followed by the versions of the records in the order
of the store, nothing removed: the result has as many elements as there are
matching configuration strings and records. -/
theorem versions_resolver (ps : vcsDependenciesSyncer) (packageName : GoString)
    (depRepos : List DependencyRepo)
    (hstore : ps.store.ListDependencyRepos
      { Scheme := ps.scheme, Name := packageName, NewestFirst := true } = .ok depRepos) :
    versions ps packageName
      = .ok (ps.configDeps.filterMap (matchingVersion ps packageName)
          ++ depRepos.map (fun depRepo => depRepo.Version)) ∧
    ∃ vs, versions ps packageName = .ok vs ∧
      vs.length
        = (ps.configDeps.filter (fun d => (matchingVersion ps packageName d).isSome)).length
          + depRepos.length := by
  have h : versions ps packageName
      = .ok (ps.configDeps.filterMap (matchingVersion ps packageName)
          ++ depRepos.map (fun depRepo => depRepo.Version)) := by
    unfold versions
    simp only [hstore, configVersions_eq, List.nil_append]
  refine ⟨h, _, h, ?_⟩
  rw [List.length_append, List.length_map]
  congr 1
  generalize ps.configDeps = l
  induction l with
  | nil => rfl
  | cons d rest ih =>
    rw [List.filterMap_cons, List.filter_cons]
    cases hm : matchingVersion ps packageName d with
    | none => simpa using ih
    | some v => simpa using ih

/-- Witness of C17: a malformed string, a string of another package, a
version configured twice and also in the store. -/
theorem versions_resolver_witness :
    versions (samplePs ["malformed".toList, "pkg@2.0.0".toList, "other@3.0.0".toList,
        "pkg@2.0.0".toList] ["2.0.0".toList, "1.0.0".toList]) "pkg".toList
      = .ok ((samplePs ["malformed".toList, "pkg@2.0.0".toList, "other@3.0.0".toList,
            "pkg@2.0.0".toList] ["2.0.0".toList, "1.0.0".toList]).configDeps.filterMap
          (matchingVersion (samplePs ["malformed".toList, "pkg@2.0.0".toList,
            "other@3.0.0".toList, "pkg@2.0.0".toList] ["2.0.0".toList, "1.0.0".toList])
            "pkg".toList)
          ++ ([{ Scheme := "npm".toList, Name := "pkg".toList, Version := "2.0.0".toList },
               { Scheme := "npm".toList, Name := "pkg".toList, Version := "1.0.0".toList }]
              : List DependencyRepo).map (fun depRepo => depRepo.Version)) ∧
    ∃ vs, versions (samplePs ["malformed".toList, "pkg@2.0.0".toList, "other@3.0.0".toList,
        "pkg@2.0.0".toList] ["2.0.0".toList, "1.0.0".toList]) "pkg".toList = .ok vs ∧
      vs.length
        = ((samplePs ["malformed".toList, "pkg@2.0.0".toList, "other@3.0.0".toList,
            "pkg@2.0.0".toList] ["2.0.0".toList, "1.0.0".toList]).configDeps.filter
          (fun d => (matchingVersion (samplePs ["malformed".toList, "pkg@2.0.0".toList,
            "other@3.0.0".toList, "pkg@2.0.0".toList] ["2.0.0".toList, "1.0.0".toList])
            "pkg".toList d).isSome)).length
          + ([{ Scheme := "npm".toList, Name := "pkg".toList, Version := "2.0.0".toList },
              { Scheme := "npm".toList, Name := "pkg".toList, Version := "1.0.0".toList }]
              : List DependencyRepo).length :=
  versions_resolver (samplePs ["malformed".toList, "pkg@2.0.0".toList, "other@3.0.0".toList,
      "pkg@2.0.0".toList] ["2.0.0".toList, "1.0.0".toList]) "pkg".toList
    [{ Scheme := "npm".toList, Name := "pkg".toList, Version := "2.0.0".toList },
     { Scheme := "npm".toList, Name := "pkg".toList, Version := "1.0.0".toList }]
    (by rfl)

/-- The versions of that witness: `2.0.0` three times. -/
theorem versions_sample :
    versions (samplePs ["malformed".toList, "pkg@2.0.0".toList, "other@3.0.0".toList,
        "pkg@2.0.0".toList] ["2.0.0".toList, "1.0.0".toList]) "pkg".toList
      = .ok ["2.0.0".toList, "2.0.0".toList, "2.0.0".toList, "1.0.0".toList] := by
  rfl

/-! ## Decimal strings -/

theorem digitValue_digit (u : Nat) (h : u < 10) : digitValue (digit u) = some u := by
  interval_cases u <;> decide

theorem digit_ne_sign (u : Nat) : digit u ≠ '-' ∧ digit u ≠ '+' := by
  by_cases h : u < 10
  · interval_cases u <;> decide
  · have : digit u = '0' := by
      unfold digit
      rw [List.getD_eq_default]
      simp only [String.toList, List.length]
      omega
    rw [this]
    decide

/-- The digits `formatDecimal` writes in front of `a`: they are not empty,
they do not start with a sign, and read back they give `u`. -/
theorem formatDecimal_spec : ∀ (u fuel : Nat), u < fuel → ∀ a : List Char,
    ∃ c ds, formatDecimal fuel u a = c :: ds ++ a ∧ c ≠ '-' ∧ c ≠ '+' ∧
      ∀ (rest : GoString) (n : Nat),
        parseDecimal (c :: ds ++ rest) n = parseDecimal rest (n * 10 ^ (ds.length + 1) + u) := by
  intro u
  induction u using Nat.strong_induction_on with
  | _ u ih =>
    intro fuel hf a
    cases fuel with
    | zero => omega
    | succ fuel =>
      rw [formatDecimal]
      by_cases h10 : u ≥ 10
      · rw [if_pos h10]
        obtain ⟨c, ds, h1, h2, h3, h4⟩ :=
          ih (u / 10) (Nat.div_lt_self (by omega) (by omega)) fuel
            (by have := Nat.div_lt_self (n := u) (k := 10) (by omega) (by omega); omega)
            (digit (u % 10) :: a)
        refine ⟨c, ds ++ [digit (u % 10)], by rw [h1]; simp, h2, h3, ?_⟩
        intro rest n
        have := h4 (digit (u % 10) :: rest) n
        rw [List.cons_append, List.append_assoc, List.singleton_append, ← List.cons_append,
          this, parseDecimal, digitValue_digit _ (Nat.mod_lt _ (by omega))]
        simp only [List.length_append, List.length_singleton]
        congr 1
        have e : n * 10 ^ (ds.length + 1 + 1) = (n * 10 ^ (ds.length + 1)) * 10 := by ring
        rw [e]
        generalize n * 10 ^ (ds.length + 1) = X
        omega
      · rw [if_neg h10]
        refine ⟨digit u, [], rfl, (digit_ne_sign u).1, (digit_ne_sign u).2, ?_⟩
        intro rest n
        show parseDecimal (digit u :: rest) n = _
        rw [parseDecimal, digitValue_digit u (by omega)]
        simp

/-- The string `Itoa` gives is never empty. -/
theorem Itoa_ne_nil (i : Int) : Itoa i ≠ [] := by
  unfold Itoa
  split_ifs
  · simp
  · obtain ⟨c, ds, h, _⟩ := formatDecimal_spec i.natAbs (i.natAbs + 1) (by omega) []
    rw [h]
    simp

/-- The string `Itoa` gives for a natural number that fits an `int` is its
decimal representation: `Atoi` reads the number back. -/
theorem Atoi_Itoa (n : Nat) (h : n < 2 ^ 63) : Atoi (Itoa (Int.ofNat n)) = .ok (Int.ofNat n) := by
  have hi : Itoa (Int.ofNat n) = formatDecimal (n + 1) n [] := by
    unfold Itoa
    rw [if_neg (by simp)]
    rfl
  obtain ⟨c, ds, h1, h2, h3, h4⟩ := formatDecimal_spec n (n + 1) (by omega) []
  rw [hi, h1, List.append_nil]
  have hp : parseDecimal (c :: ds) 0 = some n := by
    have := h4 [] 0
    rw [List.append_nil] at this
    rw [this, parseDecimal]
    simp
  have hsigned : splitSign (c :: ds) = (false, c :: ds) := by
    unfold splitSign
    split
    · rename_i heq; cases heq; exact absurd rfl h2
    · rename_i heq; cases heq; exact absurd rfl h3
    · rfl
  unfold Atoi
  simp only [hsigned, hp]
  simp
  omega

/-! ## The class-file version of a byte-code jar -/

/-- What `classFileEntryMajorVersion` returns for an entry that yields 8
header bytes. -/
theorem classFileEntryMajorVersion_of_header (byteCodeJarPath : GoString) (zipEntry : ZipFile)
    (reader : ReadCloser) (b0 b1 b2 b3 b4 b5 b6 b7 : Nat)
    (hopen : zipEntry.Open = .ok reader)
    (hread : reader.Read 8 = ([b0, b1, b2, b3, b4, b5, b6, b7], none))
    (hb : ∀ b ∈ [b0, b1, b2, b3, b6, b7], b < 256) :
    classFileEntryMajorVersion byteCodeJarPath zipEntry =
      if [b0, b1, b2, b3] = [0xCA, 0xFE, 0xBA, 0xBE] then
        .ok (Itoa (Int.ofNat (256 * b6 + b7)))
      else .ok [] := by
  simp only [List.mem_cons, List.mem_singleton, List.not_mem_nil, or_false,
    forall_eq_or_imp, forall_eq] at hb
  obtain ⟨h0, h1, h2, h3, h6, h7⟩ := hb
  have hm : bigEndian [b0, b1, b2, b3] % 2 ^ 32
      = b0 * 16777216 + b1 * 65536 + b2 * 256 + b3 := by
    simp only [bigEndian, List.foldl, Nat.mod_eq_of_lt h0, Nat.mod_eq_of_lt h1,
      Nat.mod_eq_of_lt h2, Nat.mod_eq_of_lt h3]
    omega
  have hj : bigEndian [b6, b7] % 2 ^ 16 = 256 * b6 + b7 := by
    simp only [bigEndian, List.foldl, Nat.mod_eq_of_lt h6, Nat.mod_eq_of_lt h7]
    omega
  unfold classFileEntryMajorVersion
  simp only [hopen, hread]
  have e1 : (List.take 8 [b0, b1, b2, b3, b4, b5, b6, b7] ++ List.replicate 8 0).take 8
      = [b0, b1, b2, b3, b4, b5, b6, b7] := rfl
  have e2 : (List.take 8 [b0, b1, b2, b3, b4, b5, b6, b7]).length = 8 := rfl
  simp only [e1, e2]
  have e3 : List.take 4 [b0, b1, b2, b3, b4, b5, b6, b7] = [b0, b1, b2, b3] := rfl
  have e4 : List.take 2 (List.drop 6 [b0, b1, b2, b3, b4, b5, b6, b7]) = [b6, b7] := rfl
  simp only [e3, e4, hm, hj, List.length_cons, List.length_nil]
  by_cases hc : [b0, b1, b2, b3] = [0xCA, 0xFE, 0xBA, 0xBE]
  · rw [if_pos hc]
    simp only [List.cons.injEq, and_true] at hc
    obtain ⟨c0, c1, c2, c3⟩ := hc
    subst c0 c1 c2 c3
    simp
  · rw [if_neg hc]
    have : b0 * 16777216 + b1 * 65536 + b2 * 256 + b3 ≠ 0xcafebabe := by
      intro h
      apply hc
      have : b0 = 0xCA ∧ b1 = 0xFE ∧ b2 = 0xBA ∧ b3 = 0xBE := by omega
      obtain ⟨c0, c1, c2, c3⟩ := this
      rw [c0, c1, c2, c3]
    simp [this]

/-- C18: for every entry that yields the 8 header bytes
`CA FE BA BE b4 b5 b6 b7`, `classFileEntryMajorVersion` returns the decimal
string of `256 * b6 + b7`, the 16-bit big-endian value of bytes 6 and 7 (the
string `Itoa` gives, which `Atoi` reads back as that number), whatever the
minor-version bytes `b4 b5` are. -/
theorem class_header_major_version (byteCodeJarPath : GoString) (zipEntry : ZipFile)
    (reader : ReadCloser) (b4 b5 b6 b7 : Nat) (h6 : b6 < 256) (h7 : b7 < 256)
    (hopen : zipEntry.Open = .ok reader)
    (hread : reader.Read 8 = ([0xCA, 0xFE, 0xBA, 0xBE, b4, b5, b6, b7], none)) :
    classFileEntryMajorVersion byteCodeJarPath zipEntry
      = .ok (Itoa (Int.ofNat (256 * b6 + b7))) ∧
    Atoi (Itoa (Int.ofNat (256 * b6 + b7))) = .ok (Int.ofNat (256 * b6 + b7)) := by
  refine ⟨?_, Atoi_Itoa _ (by omega)⟩
  rw [classFileEntryMajorVersion_of_header byteCodeJarPath zipEntry reader _ _ _ _ b4 b5 b6 b7
    hopen hread (by
      intro b hb
      simp only [List.mem_cons, List.mem_singleton, List.not_mem_nil, or_false] at hb
      rcases hb with h | h | h | h | h | h <;> subst h <;> omega)]
  rfl

/-- Witness of C18: the header `CA FE BA BE 00 03 00 34` of a class file
compiled for Java 8 gives `"52"`. -/
theorem class_header_major_version_witness :
    classFileEntryMajorVersion "/jars/a.jar".toList
        (sampleEntry "A.class".toList [0xCA, 0xFE, 0xBA, 0xBE, 0, 3, 0, 52])
      = .ok (Itoa (Int.ofNat (256 * 0 + 52))) ∧
    Atoi (Itoa (Int.ofNat (256 * 0 + 52))) = .ok (Int.ofNat (256 * 0 + 52)) :=
  class_header_major_version "/jars/a.jar".toList
    (sampleEntry "A.class".toList [0xCA, 0xFE, 0xBA, 0xBE, 0, 3, 0, 52])
    { Read := (fun n => (List.take n [0xCA, 0xFE, 0xBA, 0xBE, 0, 3, 0, 52], none))
      Close := none } 0 3 0 52
    (by decide) (by decide) rfl rfl

/-- The loop of `classFileMajorVersion` over entries whose `.class` entries
all yield 8 header bytes. -/
theorem classFileLoop_readable (byteCodeJarPath : GoString) (files : List ZipFile)
    (hfiles : ∀ e ∈ files, HasSuffix e.Name ".class".toList = true →
      ∃ reader bytes, e.Open = .ok reader ∧ reader.Read 8 = (bytes, none) ∧
        bytes.length = 8 ∧ ∀ b ∈ bytes, b < 256) :
    classFileLoop byteCodeJarPath files
      = .ok (match files.find? isValidClassEntry with
          | some e => Itoa (Int.ofNat (headerMajor e))
          | none => "8".toList) := by
  induction files with
  | nil => rfl
  | cons e rest ih =>
    have ih := ih (fun e' he' => hfiles e' (List.mem_cons_of_mem _ he'))
    rw [classFileLoop]
    by_cases hs : HasSuffix e.Name ".class".toList = true
    · obtain ⟨reader, bytes, hopen, hread, hlen, hb⟩ := hfiles e (List.mem_cons_self _ _) hs
      obtain ⟨b0, b1, b2, b3, b4, b5, b6, b7, rfl⟩ :
          ∃ b0 b1 b2 b3 b4 b5 b6 b7, bytes = [b0, b1, b2, b3, b4, b5, b6, b7] := by
        match bytes, hlen with
        | [b0, b1, b2, b3, b4, b5, b6, b7], _ => exact ⟨_, _, _, _, _, _, _, _, rfl⟩
      have hhead : header e = [b0, b1, b2, b3, b4, b5, b6, b7] := by
        simp only [header, hopen, hread]
      have hmaj : headerMajor e = 256 * b6 + b7 := by
        simp only [headerMajor, hhead]
        rfl
      rw [classFileEntryMajorVersion_of_header byteCodeJarPath e reader b0 b1 b2 b3 b4 b5 b6 b7
        hopen hread (fun b hb' => hb b (by
          simp only [List.mem_cons, List.mem_singleton, List.not_mem_nil, or_false] at hb' ⊢
          tauto))]
      simp only [hs, Bool.not_true, Bool.false_eq_true, if_false]
      by_cases hc : [b0, b1, b2, b3] = [0xCA, 0xFE, 0xBA, 0xBE]
      · have hv : isValidClassEntry e = true := by
          simp only [isValidClassEntry, hs, hhead, Bool.true_and]
          show ([b0, b1, b2, b3] == [0xCA, 0xFE, 0xBA, 0xBE]) = true
          rw [hc]
          rfl
        rw [if_pos hc, List.find?_cons_of_pos _ hv]
        simp only [Itoa_ne_nil, if_false, hmaj]
      · have hv : ¬ isValidClassEntry e = true := by
          simp only [isValidClassEntry, hs, hhead, Bool.true_and]
          show ¬ ([b0, b1, b2, b3] == [0xCA, 0xFE, 0xBA, 0xBE]) = true
          rw [beq_iff_eq]
          exact hc
        rw [if_neg hc, List.find?_cons_of_neg _ hv]
        simp only [if_true]
        exact ih
    · have hs' : HasSuffix e.Name ".class".toList = false := by
        simpa using hs
      have hv : ¬ isValidClassEntry e = true := by
        rw [isValidClassEntry, hs']
        simp
      rw [List.find?_cons_of_neg _ hv]
      simp only [hs', Bool.not_false, if_true]
      exact ih

/-- C19: for a jar that opens with the entries `files`, each `.class` entry
of which yields 8 header bytes, `classFileMajorVersion` returns the decimal
string of the major version of the first entry, in archive order, whose name
ends in `.class` and whose header begins with `CA FE BA BE` (so the entries
with another name and the `.class` entries with another header before it are
skipped), and `"8"` when there is no such entry. -/
theorem first_valid_class_entry_decides (host : Host) (byteCodeJarPath : GoString)
    (files : List ZipFile)
    (hopen : host.OpenFile byteCodeJarPath = none)
    (hstat : host.Stat byteCodeJarPath = none)
    (hzip : host.NewReader byteCodeJarPath = .ok files)
    (hfiles : ∀ e ∈ files, HasSuffix e.Name ".class".toList = true →
      ∃ reader bytes, e.Open = .ok reader ∧ reader.Read 8 = (bytes, none) ∧
        bytes.length = 8 ∧ ∀ b ∈ bytes, b < 256) :
    classFileMajorVersion host byteCodeJarPath
      = .ok (match files.find? isValidClassEntry with
          | some e => Itoa (Int.ofNat (headerMajor e))
          | none => "8".toList) := by
  unfold classFileMajorVersion
  simp only [hopen, hstat, hzip]
  exact classFileLoop_readable byteCodeJarPath files hfiles

/-- Witness of C19: a jar with a text file, a `.class` entry that is not a
class file, a class file of major version 55 and one of major version 52
gives `"55"`. -/
theorem first_valid_class_entry_decides_witness :
    classFileMajorVersion
        (sampleHost (.ok "/cache/sources.jar".toList)
          [ sampleEntry "README.md".toList [0xCA, 0xFE, 0xBA, 0xBE, 0, 0, 0, 61],
            sampleEntry "B.class".toList [0x50, 0x4B, 3, 4, 0, 0, 0, 57],
            sampleEntry "A.class".toList [0xCA, 0xFE, 0xBA, 0xBE, 0, 0, 0, 55],
            sampleEntry "C.class".toList [0xCA, 0xFE, 0xBA, 0xBE, 0, 0, 0, 52] ])
        "/cache/classes.jar".toList
      = .ok "55".toList :=
  (first_valid_class_entry_decides
    (sampleHost (.ok "/cache/sources.jar".toList)
      [ sampleEntry "README.md".toList [0xCA, 0xFE, 0xBA, 0xBE, 0, 0, 0, 61],
        sampleEntry "B.class".toList [0x50, 0x4B, 3, 4, 0, 0, 0, 57],
        sampleEntry "A.class".toList [0xCA, 0xFE, 0xBA, 0xBE, 0, 0, 0, 55],
        sampleEntry "C.class".toList [0xCA, 0xFE, 0xBA, 0xBE, 0, 0, 0, 52] ])
    "/cache/classes.jar".toList
    [ sampleEntry "README.md".toList [0xCA, 0xFE, 0xBA, 0xBE, 0, 0, 0, 61],
      sampleEntry "B.class".toList [0x50, 0x4B, 3, 4, 0, 0, 0, 57],
      sampleEntry "A.class".toList [0xCA, 0xFE, 0xBA, 0xBE, 0, 0, 0, 55],
      sampleEntry "C.class".toList [0xCA, 0xFE, 0xBA, 0xBE, 0, 0, 0, 52] ]
    rfl rfl rfl
    (by
      intro e he hs
      simp only [List.mem_cons, List.mem_singleton, List.not_mem_nil, or_false] at he
      rcases he with h | h | h | h <;> subst h
      · exact absurd hs (by decide)
      · exact ⟨_, _, rfl, rfl, rfl, by decide⟩
      · exact ⟨_, _, rfl, rfl, rfl, by decide⟩
      · exact ⟨_, _, rfl, rfl, rfl, by decide⟩)).trans (by rfl)

theorem classFileLoop_no_class (byteCodeJarPath : GoString) (files : List ZipFile)
    (hnone : ∀ e ∈ files, HasSuffix e.Name ".class".toList = false) :
    classFileLoop byteCodeJarPath files = .ok "8".toList := by
  induction files with
  | nil => rfl
  | cons e rest ih =>
    rw [classFileLoop, hnone e (List.mem_cons_self _ _)]
    simp only [Bool.not_false, if_true]
    exact ih (fun e' he' => hnone e' (List.mem_cons_of_mem _ he'))

/-- C20: for a byte-code jar that opens and none of whose entry names ends
in `.class`, `classFileMajorVersion` returns `"8"` without error, and for a
dependency that is not a JDK and has this jar as its byte code,
`inferJVMVersionFromByteCode` returns `"8"`, the oldest stable release:
`8 - 44` rounds to 8. -/
theorem no_class_entries_default (host : Host) (dependency : MavenDependency)
    (byteCodeJarPath : GoString) (files : List ZipFile)
    (hjdk : dependency.IsJDK = false)
    (hfetch : host.FetchByteCode dependency = .ok byteCodeJarPath)
    (hopen : host.OpenFile byteCodeJarPath = none)
    (hstat : host.Stat byteCodeJarPath = none)
    (hzip : host.NewReader byteCodeJarPath = .ok files)
    (hnone : ∀ e ∈ files, HasSuffix e.Name ".class".toList = false) :
    classFileMajorVersion host byteCodeJarPath = .ok "8".toList ∧
    inferJVMVersionFromByteCode host dependency = .ok "8".toList ∧
    roundJVMVersionToNearestStableVersion (wrapInt64 (8 - jvmMajorVersion0)) = 8 := by
  have h1 : classFileMajorVersion host byteCodeJarPath = .ok "8".toList := by
    unfold classFileMajorVersion
    simp only [hopen, hstat, hzip]
    exact classFileLoop_no_class byteCodeJarPath files hnone
  refine ⟨h1, ?_, by decide⟩
  have hatoi : Atoi "8".toList = .ok 8 := rfl
  have hval : Itoa (roundJVMVersionToNearestStableVersion (wrapInt64 (8 - jvmMajorVersion0)))
      = "8".toList := by decide
  unfold inferJVMVersionFromByteCode
  simp only [hjdk, hfetch, h1, hatoi, hval, Bool.false_eq_true, if_false]

/-- Witness of C20: a jar of web assets. -/
theorem no_class_entries_default_witness :
    classFileMajorVersion
        (sampleHost (.ok "/cache/sources.jar".toList)
          [ sampleEntry "index.html".toList [60, 104, 116, 109, 108, 62],
            sampleEntry "class".toList [0xCA, 0xFE, 0xBA, 0xBE, 0, 0, 0, 55] ])
        "/cache/classes.jar".toList = .ok "8".toList ∧
    inferJVMVersionFromByteCode
        (sampleHost (.ok "/cache/sources.jar".toList)
          [ sampleEntry "index.html".toList [60, 104, 116, 109, 108, 62],
            sampleEntry "class".toList [0xCA, 0xFE, 0xBA, 0xBE, 0, 0, 0, 55] ])
        (sampleMaven "io.smallrye:smallrye-health-ui".toList "3.1.1".toList)
      = .ok "8".toList ∧
    roundJVMVersionToNearestStableVersion (wrapInt64 (8 - jvmMajorVersion0)) = 8 :=
  no_class_entries_default
    (sampleHost (.ok "/cache/sources.jar".toList)
      [ sampleEntry "index.html".toList [60, 104, 116, 109, 108, 62],
        sampleEntry "class".toList [0xCA, 0xFE, 0xBA, 0xBE, 0, 0, 0, 55] ])
    (sampleMaven "io.smallrye:smallrye-health-ui".toList "3.1.1".toList)
    "/cache/classes.jar".toList
    [ sampleEntry "index.html".toList [60, 104, 116, 109, 108, 62],
      sampleEntry "class".toList [0xCA, 0xFE, 0xBA, 0xBE, 0, 0, 0, 55] ]
    rfl rfl rfl rfl rfl (by decide)

/-! ## The soft skip of the JVM syncer -/

/-- C16: in `JVMPackagesSyncer.gitPushDependencyTag`, once the scratch
directory exists, when `coursier.FetchSources` fails with the error `err`
the call stops there, having run no command and changed neither the tags nor
`latest`; it returns no error when `err` has the type `ErrNoSources` or its
message contains "no sources for dependency", and it returns `err`
otherwise. -/
theorem no_sources_soft_skip (host : Host) (rt : Runtime) (bareGitDirectory : GoString)
    (dependency : MavenDependency) (isLatestVersion : Bool) (w : World)
    (tmpDirectory : GoString) (err : GoError)
    (hmk : rt.MkdirTemp
      (w.trace ++ [Event.pushDependencyTag dependency.toPackageDependency
        isLatestVersion]).length "maven".toList = .ok tmpDirectory)
    (hfetch : host.FetchSources dependency = .error err) :
    (JVMPackagesSyncer.gitPushDependencyTag host rt bareGitDirectory dependency
        isLatestVersion w).2.trace
      = w.trace ++ [Event.pushDependencyTag dependency.toPackageDependency isLatestVersion,
          Event.mkdirTemp false, Event.download dependency.toPackageDependency true] ∧
    ranCommands (JVMPackagesSyncer.gitPushDependencyTag host rt bareGitDirectory dependency
        isLatestVersion w).2.trace = ranCommands w.trace ∧
    (JVMPackagesSyncer.gitPushDependencyTag host rt bareGitDirectory dependency
        isLatestVersion w).2.tags = w.tags ∧
    (JVMPackagesSyncer.gitPushDependencyTag host rt bareGitDirectory dependency
        isLatestVersion w).2.latest = w.latest ∧
    ((host.HasTypeErrNoSources err = true ∨
        Contains (host.ErrorText err) "no sources for dependency".toList = true) →
      (JVMPackagesSyncer.gitPushDependencyTag host rt bareGitDirectory dependency
        isLatestVersion w).1 = none) ∧
    (¬ (host.HasTypeErrNoSources err = true ∨
        Contains (host.ErrorText err) "no sources for dependency".toList = true) →
      (JVMPackagesSyncer.gitPushDependencyTag host rt bareGitDirectory dependency
        isLatestVersion w).1 = some err) := by
  have hran : ∀ evs : List Event, ranCommands (w.trace ++ evs)
      = ranCommands w.trace ++ ranCommands evs := by
    intro evs
    induction w.trace with
    | nil => rfl
    | cons e t ih => cases e <;> simp [ranCommands, ih]
  unfold JVMPackagesSyncer.gitPushDependencyTag
  simp only [hmk, hfetch]
  by_cases hc : (host.HasTypeErrNoSources err
      || Contains (host.ErrorText err) "no sources for dependency".toList) = true
  · rw [if_pos hc]
    refine ⟨by simp, ?_, rfl, rfl, fun _ => rfl, fun h => ?_⟩
    · simp only [List.append_assoc, hran]
      simp [ranCommands]
    · exact absurd (by simpa using hc) h
  · rw [if_neg hc]
    refine ⟨by simp, ?_, rfl, rfl, fun h => ?_, fun _ => rfl⟩
    · simp only [List.append_assoc, hran]
      simp [ranCommands]
    · exact absurd (by simpa using h) hc

/-- Witness of C16: a fetch that fails with "no sources for dependency" is
skipped without error, and a fetch that fails with a timeout returns the
timeout. -/
theorem no_sources_soft_skip_witness :
    (JVMPackagesSyncer.gitPushDependencyTag
        (sampleHost (.error (GoError.base
          "coursier: no sources for dependency com.acme:lib:1.0.0".toList false)) [])
        (sampleRuntime []) "/repos/lib".toList
        (sampleMaven "com.acme:lib".toList "1.0.0".toList) true
        (sampleWorld ["v0.9".toList])).1 = none ∧
    (JVMPackagesSyncer.gitPushDependencyTag
        (sampleHost (.error (GoError.base "coursier: timeout".toList false)) [])
        (sampleRuntime []) "/repos/lib".toList
        (sampleMaven "com.acme:lib".toList "1.0.0".toList) true
        (sampleWorld ["v0.9".toList])).1
      = some (GoError.base "coursier: timeout".toList false) :=
  ⟨(no_sources_soft_skip
      (sampleHost (.error (GoError.base
        "coursier: no sources for dependency com.acme:lib:1.0.0".toList false)) [])
      (sampleRuntime []) "/repos/lib".toList
      (sampleMaven "com.acme:lib".toList "1.0.0".toList) true (sampleWorld ["v0.9".toList])
      "/tmp/maven".toList
      (GoError.base "coursier: no sources for dependency com.acme:lib:1.0.0".toList false)
      rfl rfl).2.2.2.2.1 (Or.inr (by decide)),
    (no_sources_soft_skip
      (sampleHost (.error (GoError.base "coursier: timeout".toList false)) [])
      (sampleRuntime []) "/repos/lib".toList
      (sampleMaven "com.acme:lib".toList "1.0.0".toList) true (sampleWorld ["v0.9".toList])
      "/tmp/maven".toList (GoError.base "coursier: timeout".toList false)
      rfl rfl).2.2.2.2.2 (by decide)⟩

/-! ## The release inferred from the byte code -/

/-- C22: the rounding table of `roundJVMVersionToNearestStableVersion`: 8
for `v ≤ 8`, 11 for `9 ≤ v ≤ 11`, 16 for `12 ≤ v ≤ 16`, and `v` itself for
`v > 16`; so the result is never smaller than `v`, and for `v ≤ 16` it is the
least of the thresholds 8, 11, 16 that is at least `v`. -/
theorem rounding_table (v : Int) :
    (v ≤ 8 → roundJVMVersionToNearestStableVersion v = 8) ∧
    (9 ≤ v → v ≤ 11 → roundJVMVersionToNearestStableVersion v = 11) ∧
    (12 ≤ v → v ≤ 16 → roundJVMVersionToNearestStableVersion v = 16) ∧
    (16 < v → roundJVMVersionToNearestStableVersion v = v) ∧
    v ≤ roundJVMVersionToNearestStableVersion v ∧
    (v ≤ 16 →
      roundJVMVersionToNearestStableVersion v ∈ [(8 : Int), 11, 16] ∧
      ∀ t ∈ [(8 : Int), 11, 16], v ≤ t → roundJVMVersionToNearestStableVersion v ≤ t) := by
  unfold roundJVMVersionToNearestStableVersion
  refine ⟨?_, ?_, ?_, ?_, ?_, ?_⟩
  · intro h; simp [h]
  · intro h1 h2
    rw [if_neg (by omega), if_pos h2]
  · intro h1 h2
    rw [if_neg (by omega), if_neg (by omega), if_pos h2]
  · intro h
    rw [if_neg (by omega), if_neg (by omega), if_neg (by omega)]
  · split_ifs <;> omega
  · intro h
    constructor
    · split_ifs <;> simp
    · intro t ht hv
      simp only [List.mem_cons, List.mem_singleton, List.not_mem_nil, or_false] at ht
      split_ifs <;> rcases ht with rfl | rfl | rfl <;> omega

/-- Witness of C22: version 10 rounds to 11. -/
theorem rounding_table_witness :
    roundJVMVersionToNearestStableVersion 10 = 11 ∧
    (10 : Int) ≤ roundJVMVersionToNearestStableVersion 10 :=
  ⟨(rounding_table 10).2.1 (by decide) (by decide), (rounding_table 10).2.2.2.2.1⟩

theorem wrapInt64_small (i : Int) (h1 : -2 ^ 63 ≤ i) (h2 : i < 2 ^ 63) : wrapInt64 i = i := by
  unfold wrapInt64
  norm_num at h1 h2 ⊢
  omega

/-- The loop of `classFileMajorVersion` skips the entries that are no
candidates or whose header does not begin with the magic constant. -/
theorem classFileLoop_skip (byteCodeJarPath : GoString) (pre rest : List ZipFile)
    (hpre : ∀ x ∈ pre, HasSuffix x.Name ".class".toList = true →
      ∃ reader bytes, x.Open = .ok reader ∧ reader.Read 8 = (bytes, none) ∧
        bytes.length = 8 ∧ (∀ b ∈ bytes, b < 256) ∧
        bytes.take 4 ≠ [0xCA, 0xFE, 0xBA, 0xBE]) :
    classFileLoop byteCodeJarPath (pre ++ rest) = classFileLoop byteCodeJarPath rest := by
  induction pre with
  | nil => rfl
  | cons x pre ih =>
    have ih := ih (fun y hy => hpre y (List.mem_cons_of_mem _ hy))
    rw [List.cons_append, classFileLoop]
    by_cases hs : HasSuffix x.Name ".class".toList = true
    · obtain ⟨reader, bytes, hopen, hread, hlen, hb, hmagic⟩ :=
        hpre x (List.mem_cons_self _ _) hs
      obtain ⟨b0, b1, b2, b3, b4, b5, b6, b7, rfl⟩ :
          ∃ b0 b1 b2 b3 b4 b5 b6 b7, bytes = [b0, b1, b2, b3, b4, b5, b6, b7] := by
        match bytes, hlen with
        | [b0, b1, b2, b3, b4, b5, b6, b7], _ => exact ⟨_, _, _, _, _, _, _, _, rfl⟩
      rw [classFileEntryMajorVersion_of_header byteCodeJarPath x reader b0 b1 b2 b3 b4 b5 b6 b7
        hopen hread (fun b hb' => hb b (by
          simp only [List.mem_cons, List.mem_singleton, List.not_mem_nil, or_false] at hb' ⊢
          tauto))]
      have hc : ¬ [b0, b1, b2, b3] = [0xCA, 0xFE, 0xBA, 0xBE] := hmagic
      simp only [hs, Bool.not_true, Bool.false_eq_true, if_false, if_neg hc, if_true]
      exact ih
    · have hs' : HasSuffix x.Name ".class".toList = false := by simpa using hs
      simp only [hs', Bool.not_false, if_true]
      exact ih

/-- C21: for a dependency that is not a JDK and whose byte-code jar opens,
when the first entry of the jar that has a `.class` name and a header
beginning with `CA FE BA BE` carries the major version `M = 256 * b6 + b7`
(the entries before it have another name or a header that does not begin with
the magic constant), `inferJVMVersionFromByteCode` returns the decimal string
of `roundJVMVersionToNearestStableVersion (M - 44)`; it is `"8"` for
`M = 52` and `"11"` for `M = 55`. -/
theorem infer_version_from_class_header (host : Host) (dependency : MavenDependency)
    (byteCodeJarPath : GoString) (pre post : List ZipFile) (e : ZipFile)
    (reader : ReadCloser) (b4 b5 b6 b7 : Nat)
    (hjdk : dependency.IsJDK = false)
    (hfetch : host.FetchByteCode dependency = .ok byteCodeJarPath)
    (hopen : host.OpenFile byteCodeJarPath = none)
    (hstat : host.Stat byteCodeJarPath = none)
    (hzip : host.NewReader byteCodeJarPath = .ok (pre ++ e :: post))
    (hpre : ∀ x ∈ pre, HasSuffix x.Name ".class".toList = true →
      ∃ reader bytes, x.Open = .ok reader ∧ reader.Read 8 = (bytes, none) ∧
        bytes.length = 8 ∧ (∀ b ∈ bytes, b < 256) ∧
        bytes.take 4 ≠ [0xCA, 0xFE, 0xBA, 0xBE])
    (hname : HasSuffix e.Name ".class".toList = true)
    (he : e.Open = .ok reader)
    (hread : reader.Read 8 = ([0xCA, 0xFE, 0xBA, 0xBE, b4, b5, b6, b7], none))
    (h6 : b6 < 256) (h7 : b7 < 256) :
    inferJVMVersionFromByteCode host dependency
      = .ok (Itoa (roundJVMVersionToNearestStableVersion
          (Int.ofNat (256 * b6 + b7) - jvmMajorVersion0))) ∧
    (256 * b6 + b7 = 52 → inferJVMVersionFromByteCode host dependency = .ok "8".toList) ∧
    (256 * b6 + b7 = 55 → inferJVMVersionFromByteCode host dependency = .ok "11".toList) := by
  have hentry : classFileEntryMajorVersion byteCodeJarPath e
      = .ok (Itoa (Int.ofNat (256 * b6 + b7))) := by
    rw [classFileEntryMajorVersion_of_header byteCodeJarPath e reader _ _ _ _ b4 b5 b6 b7
      he hread (by
        intro b hb
        simp only [List.mem_cons, List.mem_singleton, List.not_mem_nil, or_false] at hb
        rcases hb with h | h | h | h | h | h <;> subst h <;> omega)]
    rfl
  have hloop : classFileLoop byteCodeJarPath (pre ++ e :: post)
      = .ok (Itoa (Int.ofNat (256 * b6 + b7))) := by
    rw [classFileLoop_skip byteCodeJarPath pre (e :: post) hpre, classFileLoop, hentry]
    simp only [hname, Bool.not_true, Bool.false_eq_true, if_false, Itoa_ne_nil]
  have hmajor : classFileMajorVersion host byteCodeJarPath
      = .ok (Itoa (Int.ofNat (256 * b6 + b7))) := by
    unfold classFileMajorVersion
    simp only [hopen, hstat, hzip]
    exact hloop
  have hwrap : wrapInt64 (Int.ofNat (256 * b6 + b7) - jvmMajorVersion0)
      = Int.ofNat (256 * b6 + b7) - jvmMajorVersion0 := by
    apply wrapInt64_small
    · simp only [Int.ofNat_eq_coe, jvmMajorVersion0]
      norm_num
      omega
    · simp only [Int.ofNat_eq_coe, jvmMajorVersion0]
      norm_num
      omega
  have hres : inferJVMVersionFromByteCode host dependency
      = .ok (Itoa (roundJVMVersionToNearestStableVersion
          (Int.ofNat (256 * b6 + b7) - jvmMajorVersion0))) := by
    unfold inferJVMVersionFromByteCode
    simp only [hjdk, hfetch, hmajor, Atoi_Itoa _ (show 256 * b6 + b7 < 2 ^ 63 by omega), hwrap,
      Bool.false_eq_true, if_false]
  refine ⟨hres, ?_, ?_⟩
  · intro hM
    rw [hres, hM]
    rfl
  · intro hM
    rw [hres, hM]
    rfl

/-- Witness of C21: a jar whose first class file, after a text file and a
`.class` entry that is no class file, has major version 55, and whose last
entry cannot be opened. -/
theorem infer_version_from_class_header_witness :
    inferJVMVersionFromByteCode
        (sampleHost (.ok "/cache/sources.jar".toList)
          [ sampleEntry "README.md".toList [0xCA, 0xFE, 0xBA, 0xBE, 0, 0, 0, 61],
            sampleEntry "B.class".toList [0x50, 0x4B, 3, 4, 0, 0, 0, 57],
            sampleEntry "A.class".toList [0xCA, 0xFE, 0xBA, 0xBE, 0, 0, 0, 55],
            { Name := "C.class".toList, Open := .error (.base "bad entry".toList false) } ])
        (sampleMaven "com.acme:lib".toList "1.0.0".toList)
      = .ok "11".toList :=
  (infer_version_from_class_header
    (sampleHost (.ok "/cache/sources.jar".toList)
      [ sampleEntry "README.md".toList [0xCA, 0xFE, 0xBA, 0xBE, 0, 0, 0, 61],
        sampleEntry "B.class".toList [0x50, 0x4B, 3, 4, 0, 0, 0, 57],
        sampleEntry "A.class".toList [0xCA, 0xFE, 0xBA, 0xBE, 0, 0, 0, 55],
        { Name := "C.class".toList, Open := .error (.base "bad entry".toList false) } ])
    (sampleMaven "com.acme:lib".toList "1.0.0".toList) "/cache/classes.jar".toList
    [ sampleEntry "README.md".toList [0xCA, 0xFE, 0xBA, 0xBE, 0, 0, 0, 61],
      sampleEntry "B.class".toList [0x50, 0x4B, 3, 4, 0, 0, 0, 57] ]
    [ { Name := "C.class".toList, Open := .error (.base "bad entry".toList false) } ]
    (sampleEntry "A.class".toList [0xCA, 0xFE, 0xBA, 0xBE, 0, 0, 0, 55])
    { Read := (fun n => (List.take n [0xCA, 0xFE, 0xBA, 0xBE, 0, 0, 0, 55], none))
      Close := none } 0 0 0 55
    rfl rfl rfl rfl rfl
    (by
      intro x hx hs
      simp only [List.mem_cons, List.mem_singleton, List.not_mem_nil, or_false] at hx
      rcases hx with h | h <;> subst h
      · exact absurd hs (by decide)
      · exact ⟨_, _, rfl, rfl, rfl, by decide, by decide⟩)
    (by decide) rfl rfl (by decide) (by decide)).2.2 (by decide)

/-- C24 (the code at the failing inputs): for a jar whose only entry
`A.class` is 3 bytes long, and for one whose entry `A.class` cannot be
opened, `classFileMajorVersion` returns the empty string without an error,
and `inferJVMVersionFromByteCode`, for a dependency that is not a JDK, fails
with the error of the integer conversion of that string. -/
theorem unreadable_class_entry_yields_empty_version :
    classFileMajorVersion
        (sampleHost (.ok "/cache/sources.jar".toList)
          [sampleEntry "A.class".toList [0xCA, 0xFE, 0xBA]])
        "/cache/classes.jar".toList = .ok [] ∧
    inferJVMVersionFromByteCode
        (sampleHost (.ok "/cache/sources.jar".toList)
          [sampleEntry "A.class".toList [0xCA, 0xFE, 0xBA]])
        (sampleMaven "com.acme:lib".toList "1.0.0".toList)
      = .error (.wrapf
          (.base ("strconv.Atoi: parsing ".toList ++ quote [] ++ ": invalid syntax".toList)
            false)
          "failed to convert string %s to int".toList ["%!s(int=0)".toList]) ∧
    classFileMajorVersion
        (sampleHost (.ok "/cache/sources.jar".toList)
          [ { Name := "A.class".toList, Open := .error (.base "bad entry".toList false) },
            sampleEntry "B.class".toList [0xCA, 0xFE, 0xBA, 0xBE, 0, 0, 0, 52] ])
        "/cache/classes.jar".toList = .ok [] ∧
    inferJVMVersionFromByteCode
        (sampleHost (.ok "/cache/sources.jar".toList)
          [ { Name := "A.class".toList, Open := .error (.base "bad entry".toList false) },
            sampleEntry "B.class".toList [0xCA, 0xFE, 0xBA, 0xBE, 0, 0, 0, 52] ])
        (sampleMaven "com.acme:lib".toList "1.0.0".toList)
      = .error (.wrapf
          (.base ("strconv.Atoi: parsing ".toList ++ quote [] ++ ": invalid syntax".toList)
            false)
          "failed to convert string %s to int".toList ["%!s(int=0)".toList]) := by
  refine ⟨by rfl, by rfl, by rfl, by rfl⟩

/-! ## The guard and the destination string -/

/-- The cleaned join of an absolute destination string with an entry name:
`/` followed by real path elements joined with `/`. -/
theorem Join_rooted (d' filepath : GoString) :
    ∃ L : List GoString, (∀ s ∈ L, RealElem s) ∧
      Join ['/' :: d', filepath] = '/' :: joinWith '/' L := by
  refine ⟨(resolve [] (Split '/' (d' ++ '/' :: filepath))).reverse, ?_, ?_⟩
  · intro s hs
    exact resolve_Split_real _ [] (by simp) s (by simpa using hs)
  · rw [Join_pair _ _ (by simp)]
    have : ('/' :: d') ++ '/' :: filepath = '/' :: (d' ++ '/' :: filepath) := by simp
    rw [this, Clean_rooted]

/-- C23 (the code at the failing inputs): for the destination `/tmp/x`,
without a trailing separator, the entry `../xy/a` is accepted with the output
path `/tmp/xy/a`, which is not the destination directory path followed by a
separator and a relative path; and for the relative destination `../`, with
the trailing separator, the entry `../a` is accepted with the output path
`../../a`, the destination followed by a path with a `..` segment. -/
theorem sibling_directory_accepted :
    isPotentiallyMaliciousFilepathInArchive "../xy/a".toList "/tmp/x".toList
      = ("/tmp/xy/a".toList, false) ∧
    HasPrefix "/tmp/xy/a".toList ("/tmp/x".toList ++ ['/']) = false ∧
    (¬ ∃ rel : GoString, "/tmp/xy/a".toList = "/tmp/x".toList ++ '/' :: rel) ∧
    isPotentiallyMaliciousFilepathInArchive "../a".toList "../".toList
      = ("../".toList ++ "../a".toList, false) ∧
    "..".toList ∈ Split '/' "../a".toList := by
  refine ⟨by decide, by decide, ?_, by decide, by decide⟩
  rintro ⟨rel, h⟩
  simp at h

/-- What the guard does ensure for an absolute destination string, with or
without a trailing separator: an entry it accepts has an output path that
starts with the destination string and has no empty, `.` or `..` segment
after its leading `/`; and when the destination string is a directory path
`P` followed by the separator, as `unzipJarFile` passes it, the output path is
`P`, the separator, and a non-empty relative path with no empty, `.` or `..`
segment. -/
theorem accepted_output_under_destination (destinationDir filepath : GoString)
    (habs : HasPrefix destinationDir "/".toList = true)
    (hacc : (isPotentiallyMaliciousFilepathInArchive filepath destinationDir).2 = false) :
    ∃ rest : GoString,
      (isPotentiallyMaliciousFilepathInArchive filepath destinationDir).1
        = destinationDir ++ rest ∧
      (∀ seg ∈ Split '/'
          (isPotentiallyMaliciousFilepathInArchive filepath destinationDir).1.tail,
        seg ≠ ".".toList ∧ seg ≠ "..".toList) ∧
      (∀ P : GoString, P ≠ [] → destinationDir = P ++ "/".toList →
        rest ≠ [] ∧
        ∀ seg ∈ Split '/' rest, seg ≠ [] ∧ seg ≠ ".".toList ∧ seg ≠ "..".toList) := by
  have e1 : "/".toList = ['/'] := rfl
  rw [e1] at habs
  simp only [e1]
  have hout := accepted_output filepath _ hacc
  have h4 := ((accepted_iff filepath _).1 hacc).2.2.2
  obtain ⟨d', hd⟩ : ∃ d', destinationDir = '/' :: d' := by
    rw [HasPrefix_iff] at habs
    obtain ⟨r, hr⟩ := habs
    exact ⟨r, by simpa using hr.symm⟩
  subst hd
  obtain ⟨L, hreal, hjoin⟩ := Join_rooted d' filepath
  rw [HasPrefix_iff] at h4
  obtain ⟨rest, hrest⟩ := h4
  rw [hout]
  refine ⟨rest, hrest.symm, ?_, ?_⟩
  · rw [hjoin, List.tail_cons]
    intro seg hseg
    by_cases hL : L = []
    · subst hL
      have : seg = [] := by simpa [joinWith, Split] using hseg
      subst this
      exact ⟨by decide, by decide⟩
    · rw [Split_joinWith L hL (fun s hs => (hreal s hs).2.2.2)] at hseg
      exact ⟨(hreal seg hseg).2.1, (hreal seg hseg).2.2.1⟩
  · intro P hP hdP
    obtain ⟨P', hP'⟩ : ∃ P', P = '/' :: P' := by
      cases P with
      | nil => exact absurd rfl hP
      | cons c P' =>
        have : c = '/' := by
          have := congrArg List.head? hdP
          simpa using this.symm
        exact ⟨P', by rw [this]⟩
    subst hP'
    have hd' : d' = P' ++ ['/'] := by simpa using hdP
    subst hd'
    have hsplit : Split '/' P' ++ Split '/' rest = L := by
      have h1 : '/' :: (P' ++ ['/']) ++ rest = '/' :: joinWith '/' L := by rw [hrest, hjoin]
      have h2 : P' ++ '/' :: rest = joinWith '/' L := by simpa using h1
      have hLne : L ≠ [] := by
        intro e
        rw [e] at h2
        simp [joinWith] at h2
      have := congrArg (Split '/') h2
      rw [Split_append_sep, Split_joinWith L hLne (fun s hs => (hreal s hs).2.2.2)] at this
      exact this
    have hall : ∀ seg ∈ Split '/' rest, seg ≠ [] ∧ seg ≠ ['.'] ∧ seg ≠ ['.', '.'] := by
      intro seg hseg
      have hr := hreal seg (by rw [← hsplit]; exact List.mem_append_right _ hseg)
      exact ⟨hr.1, hr.2.1, hr.2.2.1⟩
    exact ⟨Split_nil_not_mem_of_real (fun seg hseg => (hall seg hseg).1), hall⟩

/-- An instance: the entry `a/b` under the destination `/tmp/x/`. -/
theorem accepted_output_under_destination_witness :
    ∃ rest : GoString,
      (isPotentiallyMaliciousFilepathInArchive "a/b".toList "/tmp/x/".toList).1
        = "/tmp/x/".toList ++ rest ∧
      (∀ seg ∈ Split '/'
          (isPotentiallyMaliciousFilepathInArchive "a/b".toList "/tmp/x/".toList).1.tail,
        seg ≠ ".".toList ∧ seg ≠ "..".toList) ∧
      (∀ P : GoString, P ≠ [] → "/tmp/x/".toList = P ++ "/".toList →
        rest ≠ [] ∧
        ∀ seg ∈ Split '/' rest, seg ≠ [] ∧ seg ≠ ".".toList ∧ seg ≠ "..".toList) :=
  accepted_output_under_destination "/tmp/x/".toList "a/b".toList (by decide) (by decide)

end Gitserver

namespace Searcher

open Gitserver

/-! ## The indexed search -/

/-- C25 (the code at the failing input): when both searches of the backend
return no file and report two skipped shards, `zoektSearch` returns without
error with `limitHit = false`, although the more complete search skipped
shards. -/
theorem no_files_reports_no_limit_hit :
    (zoektSearch
        (sampleBackend
          { FileCount := 0, FilesSkipped := 0, ShardsSkipped := 2, Files := [] }
          { FileCount := 0, FilesSkipped := 0, ShardsSkipped := 2, Files := [] } 100)
        sampleArgs [{ Branch := "HEAD".toList, Cardinality := 1 }] (fun _ => 0)
        ["zoekt-0:6070".toList] false { endpoints := none }).1
      = some { fm := [], limitHit := false, err := none } ∧
    wrapInt64 ((2 : Int) + 0) > 0 := by
  decide

/-- C26 (the code at the failing input): with the result-count factor 1,
when the backend returns one file with 27 line matches, the file in the list
`zoektSearch` returns still has its 27 line matches, more than `25 + 1`, and
`limitHit` is true. -/
theorem returned_file_keeps_all_line_matches :
    (zoektSearch
        (sampleBackend
          { FileCount := 1, FilesSkipped := 0, ShardsSkipped := 0,
            Files := [sampleFile "a.go".toList 27] }
          { FileCount := 1, FilesSkipped := 0, ShardsSkipped := 0,
            Files := [sampleFile "a.go".toList 27] } 1)
        sampleArgs [{ Branch := "HEAD".toList, Cardinality := 1 }] (fun _ => 0)
        ["zoekt-0:6070".toList] false { endpoints := none }).1
      = some { fm := [sampleFile "a.go".toList 27], limitHit := true, err := none } ∧
    (sampleFile "a.go".toList 27).LineMatches.length = 27 ∧
    ¬ ((27 : Int) ≤ 25 + 1) := by
  decide

/-- The loop over the files can only raise `limitHit`, and raises it when a
file has more line matches than `maxLineMatches`. -/
theorem lineMatchesLoop_spec (maxLineMatches : Int) (files : List FileMatch) :
    ∀ (limitHit result : Bool), lineMatchesLoop maxLineMatches files limitHit = some result →
      (limitHit = true → result = true) ∧
      ((∃ file ∈ files, (file.LineMatches.length : Int) > maxLineMatches) → result = true) ∧
      (result = true → limitHit = true ∨
        ∃ file ∈ files, (file.LineMatches.length : Int) > maxLineMatches) := by
  induction files with
  | nil =>
    intro limitHit result h
    simp only [lineMatchesLoop, Option.some.injEq] at h
    subst h
    simp
  | cons file rest ih =>
    intro limitHit result h
    rw [lineMatchesLoop] at h
    by_cases hlong : (file.LineMatches.length : Int) > maxLineMatches
    · rw [if_pos hlong] at h
      by_cases hneg : maxLineMatches < 0
      · rw [if_pos hneg] at h
        cases h
      · rw [if_neg hneg] at h
        obtain ⟨h1, _, _⟩ := ih true result h
        have hr := h1 rfl
        exact ⟨fun _ => hr, fun _ => hr,
          fun _ => Or.inr ⟨file, List.mem_cons_self _ _, hlong⟩⟩
    · rw [if_neg hlong] at h
      obtain ⟨h1, h2, h3⟩ := ih limitHit result h
      refine ⟨h1, ?_, ?_⟩
      · rintro ⟨f, hf, hfl⟩
        rcases List.mem_cons.1 hf with e | hf
        · subst e
          exact absurd hfl hlong
        · exact h2 ⟨f, hf, hfl⟩
      · intro hres
        rcases h3 hres with h | ⟨f, hf, hfl⟩
        · exact Or.inl h
        · exact Or.inr ⟨f, List.mem_cons_of_mem _ hf, hfl⟩

/-- Whenever `zoektSearch` returns files: it returns no error; `limitHit` is
true when some returned file has more than `25 + k` line matches; and when
`limitHit` is false, the files are those of the second, more complete search
of the backend, which skipped no file and no shard. -/
theorem zoektSearch_files (be : Backend) (args : TextPatternInfo)
    (branchRepos : List BranchRepos) (since : Nat → Int) (endpoints : List GoString)
    (useFullDeadline : Bool) (endpointMap : atomicEndpoints) (r : SearchReturn)
    (h : (zoektSearch be args branchRepos since endpoints useFullDeadline endpointMap).1
      = some r)
    (hfm : r.fm ≠ []) :
    r.err = none ∧
    ((∃ file ∈ r.fm, (file.LineMatches.length : Int)
        > wrapInt64 (25 + be.ResultCountFactor (numReposLoop branchRepos 0)
            args.FileMatchLimit false)) → r.limitHit = true) ∧
    (r.limitHit = false →
      ∃ q searchOpts resp,
        be.Search 1 (getZoektClient endpointMap endpoints) q searchOpts = .ok resp ∧
        r.fm = resp.Files ∧
        wrapInt64 (resp.FilesSkipped + resp.ShardsSkipped) ≤ 0) := by
  unfold zoektSearch at h
  simp only [] at h
  by_cases hbr : branchRepos.length = 0
  · rw [if_pos hbr] at h
    cases h; exact absurd rfl hfm
  rw [if_neg hbr] at h
  cases hfp : handleFilePathPatterns be args with
  | error err => rw [hfp] at h; cases h; exact absurd rfl hfm
  | ok filePathPatterns =>
  rw [hfp] at h
  simp only [] at h
  cases hq : buildQuery be args branchRepos filePathPatterns true with
  | error err => rw [hq] at h; cases h; exact absurd rfl hfm
  | ok q =>
  rw [hq] at h
  simp only [] at h
  generalize hopts : (if useFullDeadline = true then _ else _ : SearchOptions) = opts at h
  cases hs0 : be.Search 0 (getZoektClient endpointMap endpoints) q opts with
  | error err => rw [hs0] at h; cases h; exact absurd rfl hfm
  | ok resp =>
  rw [hs0] at h
  simp only [] at h
  by_cases ht0 : since 0 ≥ opts.MaxWallTime
  · rw [if_pos ht0] at h
    cases h; exact absurd rfl hfm
  rw [if_neg ht0] at h
  generalize hcomplete : (if resp.FileCount < 10 ∨ args.FileMatchLimit ≠ defaultMaxSearchResults
    then _ else _ : Except GoError (SearchResult × Bool)) = complete at h
  rcases complete with err | ⟨resp', limitHit⟩
  · cases h; exact absurd rfl hfm
  simp only [] at h
  by_cases hlen : resp'.Files.length = 0
  · rw [if_pos hlen] at h
    cases h; exact absurd rfl hfm
  rw [if_neg hlen] at h
  cases hloop : lineMatchesLoop
      (wrapInt64 (25 + be.ResultCountFactor (numReposLoop branchRepos 0)
        args.FileMatchLimit false)) resp'.Files limitHit with
  | none => rw [hloop] at h; cases h
  | some result =>
  rw [hloop] at h
  cases h
  obtain ⟨h1, h2, _⟩ := lineMatchesLoop_spec _ _ _ _ hloop
  refine ⟨rfl, h2, ?_⟩
  intro hfalse
  simp only at hfalse
  have hlim : limitHit = false := by
    cases hl : limitHit with
    | false => rfl
    | true =>
      rw [h1 hl] at hfalse
      cases hfalse
  subst hlim
  by_cases hc : resp.FileCount < 10 ∨ args.FileMatchLimit ≠ defaultMaxSearchResults
  · rw [if_pos hc] at hcomplete
    cases hq2 : buildQuery be args branchRepos filePathPatterns false with
    | error err => rw [hq2] at hcomplete; cases hcomplete
    | ok q2 =>
    rw [hq2] at hcomplete
    simp only [] at hcomplete
    cases hs1 : be.Search 1 (getZoektClient endpointMap endpoints) q2 opts with
    | error err => rw [hs1] at hcomplete; cases hcomplete
    | ok resp2 =>
    rw [hs1] at hcomplete
    simp only [] at hcomplete
    by_cases ht1 : since 1 ≥ opts.MaxWallTime
    · rw [if_pos ht1] at hcomplete
      cases hcomplete
    rw [if_neg ht1] at hcomplete
    simp only [Except.ok.injEq, Prod.mk.injEq] at hcomplete
    obtain ⟨e1, e2⟩ := hcomplete
    subst e1
    refine ⟨q2, opts, resp2, hs1, rfl, ?_⟩
    have : ¬ wrapInt64 (resp2.FilesSkipped + resp2.ShardsSkipped) > 0 := by
      simpa using e2
    omega
  · rw [if_neg hc] at hcomplete
    simp at hcomplete

/-! ## The endpoints of the search client -/

theorem needsUpdateLoop_eq_false (old endpoints : List GoString) (is : List Nat) :
    needsUpdateLoop old endpoints is = false ↔
      ∀ i ∈ is, old.getD i [] = endpoints.getD i [] := by
  induction is with
  | nil => simp [needsUpdateLoop]
  | cons i is ih =>
    rw [needsUpdateLoop]
    by_cases h : old.getD i [] = endpoints.getD i []
    · rw [if_neg (not_not.2 h), ih]
      constructor
      · intro hall j hj
        rcases List.mem_cons.1 hj with e | hj
        · rw [e]; exact h
        · exact hall j hj
      · intro hall j hj
        exact hall j (List.mem_cons_of_mem _ hj)
    · rw [if_pos h]
      constructor
      · intro hh
        cases hh
      · intro hall
        exact absurd (hall i (List.mem_cons_self _ _)) h

theorem eq_of_getD_eq : ∀ (old endpoints : List GoString),
    old.length = endpoints.length →
    (∀ i < endpoints.length, old.getD i [] = endpoints.getD i []) → old = endpoints := by
  intro old
  induction old with
  | nil =>
    intro endpoints hlen _
    cases endpoints with
    | nil => rfl
    | cons b e => simp at hlen
  | cons a o ih =>
    intro endpoints hlen h
    cases endpoints with
    | nil => simp at hlen
    | cons b e =>
      have h0 := h 0 (by simp)
      simp only [List.getD_cons_zero] at h0
      have ht := ih e (by simpa using hlen) (fun i hi => by
        have := h (i + 1) (by simpa using hi)
        simpa using this)
      rw [h0, ht]

/-- The endpoints need no update exactly when they are set to the same
list. -/
theorem needsUpdate_eq_false (a : atomicEndpoints) (e : List GoString) :
    a.needsUpdate e = false ↔ a.endpoints = some e := by
  unfold atomicEndpoints.needsUpdate atomicEndpoints.Endpoints
  cases h : a.endpoints with
  | none => simp
  | some old =>
    simp only [Option.some.injEq]
    by_cases hlen : old.length = e.length
    · rw [if_neg (by simpa using hlen), needsUpdateLoop_eq_false]
      constructor
      · intro hall
        exact eq_of_getD_eq old e hlen (fun i hi => hall i (List.mem_range.2 hi))
      · intro heq i _
        rw [heq]
    · rw [if_pos (by simpa using hlen)]
      simp only [Bool.true_eq_false, false_iff]
      intro heq
      exact hlen (by rw [heq])

/-- C27: for every list `e` and every prior state `a` of an
`atomicEndpoints`, after `Set(e)` the call `Endpoints()` returns `e` without
error; before any `Set`, when nothing is stored, `Endpoints()` returns the
error "endpoints have not been set"; and `needsUpdate(e)` is false exactly
when endpoints are set and equal to `e`. -/
theorem atomic_endpoints_contract (a : atomicEndpoints) (e : List GoString) :
    (a.Set e).Endpoints = .ok e ∧
    ({ endpoints := none } : atomicEndpoints).Endpoints
      = .error (.base "endpoints have not been set".toList false) ∧
    (a.needsUpdate e = false ↔ ∃ old, a.Endpoints = .ok old ∧ old = e) := by
  refine ⟨?_, rfl, ?_⟩
  · unfold atomicEndpoints.Set
    by_cases h : a.needsUpdate e = false
    · have := (needsUpdate_eq_false a e).1 h
      simp only [h, Bool.not_false, if_true]
      unfold atomicEndpoints.Endpoints
      rw [this]
    · have h' : a.needsUpdate e = true := by simpa using h
      simp only [h', Bool.not_true, Bool.false_eq_true, if_false]
      rfl
  · rw [needsUpdate_eq_false]
    unfold atomicEndpoints.Endpoints
    cases a.endpoints with
    | none => simp
    | some old => simp

/-- Witness of C27: replacing two endpoints by one. -/
theorem atomic_endpoints_contract_witness :
    (({ endpoints := some ["zoekt-0:6070".toList, "zoekt-1:6070".toList] }
        : atomicEndpoints).Set ["zoekt-0:6070".toList]).Endpoints
      = .ok ["zoekt-0:6070".toList] ∧
    ({ endpoints := none } : atomicEndpoints).Endpoints
      = .error (.base "endpoints have not been set".toList false) ∧
    (({ endpoints := some ["zoekt-0:6070".toList, "zoekt-1:6070".toList] }
        : atomicEndpoints).needsUpdate ["zoekt-0:6070".toList] = false ↔
      ∃ old, ({ endpoints := some ["zoekt-0:6070".toList, "zoekt-1:6070".toList] }
        : atomicEndpoints).Endpoints = .ok old ∧ old = ["zoekt-0:6070".toList]) :=
  atomic_endpoints_contract
    { endpoints := some ["zoekt-0:6070".toList, "zoekt-1:6070".toList] }
    ["zoekt-0:6070".toList]

end Searcher
